import Mathlib

/-! MEMCP: the recommender state-space model (`Code/recomodel.cpp`)

A shallow embedding of the class `Recomodel`: the encoding of recency windows
as dense node ids, the navigation of the history tree and graph
(`next_state`, `previous_states`, `is_connected`) and the table-driven queries.

Conventions of the embedding.
* A `size_t` is a natural number; where the source can store a negative or an
  oversized value into a `size_t` the store is written with `toSizeT`
  (wrap-around modulo `2 ^ 64`).
* An `int` local or argument is a mathematical integer; `div` is the C library's
  truncating division (`Int.tdiv`, `Int.tmod`). The `int` that `index` returns is the
  low 32 bits of its `size_t` offset, read in two's complement (`toInt`).
* A read outside an array, an `at` outside a vector and a division by zero
  make the function return `none`; the flat table is subscripted by the `int` of
  `index`, and a negative offset is outside it (`cell`).
* A `double` that is only stored, returned or compared with a literal is a
  rational number.
-/

/-- The model object: the members of the class `Recomodel`. -/
structure Recomodel where
  /-- Number of observations (history nodes), first line of the summary. -/
  n_observations : Nat
  /-- Number of actions (items), second line of the summary. -/
  n_actions : Nat
  /-- Number of environments, third line of the summary. -/
  n_environments : Nat
  /-- History length, fourth line of the summary. -/
  hlength : Nat
  /-- Whether the model is a plain MDP (environments disabled). -/
  is_mdp : Bool
  /-- Number of states. -/
  n_states : Nat
  /-- The array `rewards`: `rewards[a]` is the profit for item `a`. -/
  rewards : List ℚ
  /-- The flat array `transition_matrix`. -/
  transition_matrix : List ℚ
  /-- The array `pows` of exponents for base conversion. -/
  pows : List Nat
  /-- The array `acpows` of cumulated exponents. -/
  acpows : List Nat

namespace Recomodel

/-- Conversion of an integer value to `size_t`: wrap-around modulo `2 ^ 64`. -/
def toSizeT (z : Int) : Nat := (z % 18446744073709551616).toNat

/-- The result type of the C library's `div`. -/
structure div_t where
  /-- Quotient, rounded towards zero. -/
  quot : Int
  /-- Remainder. -/
  rem : Int
deriving DecidableEq, Repr

/-- The C library's `div`: undefined (here `none`) for a zero denominator. -/
def div (numer denom : Int) : Option div_t :=
  if denom = 0 then none else some ⟨Int.tdiv numer denom, Int.tmod numer denom⟩

/-- The precomputation loop at the end of the constructor: the arrays `pows`
and `acpows` after the two stores at `hlength - 1` and `n` iterations of
`pows[i] = pows[i + 1] * n_actions; acpows[i] = acpows[i + 1] + pows[i]`,
listed from the lowest index written. -/
def init_pows (n_actions : Nat) : Nat → List Nat × List Nat
  | 0 => ([1], [1])
  | n + 1 =>
    let prev := init_pows n_actions n
    let p := prev.1.headD 0 * n_actions
    (p :: prev.1, (prev.2.headD 0 + p) :: prev.2)

/-- The constructor, from the four numbers of the summary file and the mode:
tables zero-initialised, exponents precomputed. For `hlength = 0` the two
stores at `hlength - 1` fall outside the arrays, which are then left empty. -/
def create (n_observations n_actions n_environments hlength : Nat) (is_mdp : Bool) :
    Recomodel :=
  let tables := if hlength = 0 then ([], []) else init_pows n_actions (hlength - 1)
  { n_observations := n_observations
    n_actions := n_actions
    n_environments := n_environments
    hlength := hlength
    is_mdp := is_mdp
    n_states := if is_mdp then n_observations else n_environments * n_observations
    rewards := List.replicate n_actions 0
    transition_matrix :=
      if is_mdp then List.replicate (n_observations * n_actions * n_actions) 0
      else List.replicate (n_environments * n_observations * n_actions * n_actions) 0
    pows := tables.1
    acpows := tables.2 }

/-- Modelled from the spec: the accessor `get_env` of `recomodel.hpp` (not part
of the sources), the environment component of a state id
`environment × N + node_id`. -/
def get_env (m : Recomodel) (s : Nat) : Nat := s / m.n_observations

/-- Modelled from the spec: the accessor `get_rep` of `recomodel.hpp` (not part
of the sources), the node component of a state id `environment × N + node_id`. -/
def get_rep (m : Recomodel) (s : Nat) : Nat := s % m.n_observations

/-- Conversion of a `size_t` value to `int`, as at the `return` of `Recomodel::index`:
the low 32 bits, read in two's complement. -/
def toInt (n : Nat) : Int :=
  if n % 4294967296 < 2147483648 then ((n % 4294967296 : Nat) : Int)
  else ((n % 4294967296 : Nat) : Int) - 4294967296

/-- `Recomodel::index`: offset of `(env, s, a, link)` in the flat table, computed on
`size_t` (modulo `2 ^ 64`) and returned as an `int`. -/
def index (m : Recomodel) (env s a link : Nat) : Int :=
  toInt ((link + m.n_actions * (a + m.n_actions * (s + m.n_observations * env))) %
    18446744073709551616)

/-- The subscript `table[i]` of a flat array by an `int` offset: a negative offset
and an offset past the end are outside the array. -/
def cell (table : List ℚ) (i : Int) : Option ℚ :=
  if i < 0 then none else table[i.toNat]?

/-- The loop of `Recomodel::state_to_id` with `n` iterations left, at index `i`. -/
def state_to_id_loop (m : Recomodel) (state : List Nat) : Nat → Nat → Nat → Option Nat
  | 0, _, id => some id
  | n + 1, i, id =>
    match state[i]?, m.pows[i]? with
    | some d, some p => state_to_id_loop m state n (i + 1) ((id + d * p) % 2 ^ 64)
    | _, _ => none

/-- `Recomodel::state_to_id`: the id of an explicit window. -/
def state_to_id (m : Recomodel) (state : List Nat) : Option Nat :=
  state_to_id_loop m state m.hlength 0 0

/-- The `while (id > n_actions)` loop of `Recomodel::id_to_state`; `fuel` is the
number of slots of `state` from `indx` on, so that running out of it is the
`at` past the end of the vector. Returns `state` and `id` at the loop's exit. -/
def id_to_state_loop (m : Recomodel) : Nat → List Nat → Nat → Nat → Option (List Nat × Nat)
  | fuel, state, indx, id =>
    if id > m.n_actions then
      match fuel with
      | 0 => none
      | fuel + 1 =>
        match m.pows[indx]?, m.acpows[indx + 1]? with
        | some p, some ac =>
          match div id p with
          | some divresult =>
            if indx < state.length then
              if divresult.rem < ac then
                id_to_state_loop m fuel (state.set indx (toSizeT (divresult.quot - 1)))
                  (indx + 1) (toSizeT (p + divresult.rem))
              else
                id_to_state_loop m fuel (state.set indx (toSizeT divresult.quot))
                  (indx + 1) (toSizeT divresult.rem)
            else none
          | none => none
        | _, _ => none
    else some (state, id)

/-- `Recomodel::id_to_state`: the window of a node id. -/
def id_to_state (m : Recomodel) (id : Nat) : Option (List Nat) :=
  match id_to_state_loop m m.hlength (List.replicate m.hlength 0) 0 id with
  | some (state, id) =>
    if m.hlength - 1 < state.length then some (state.set (m.hlength - 1) id) else none
  | none => none

/-- `Recomodel::next_state`: the node reached from `state` by appending `item`. -/
def next_state (m : Recomodel) (state item : Nat) : Option Nat :=
  match m.pows[0]?, m.acpows[1]? with
  | some p0, some ac1 =>
    if p0 = 0 then none
    else
      let aux := state % p0
      if aux ≥ ac1 ∨ state < p0 then some (aux * m.n_actions + item + 1)
      else some ((p0 + aux) * m.n_actions + item + 1)
  | _, _ => none

/-- `Recomodel::previous_states`: the candidate parents of a node. -/
def previous_states (m : Recomodel) (state : Nat) : Option (List Nat) :=
  match div state m.n_actions with
  | none => none
  | some aux =>
    let prefix_s2 : Int := if aux.rem = 0 then aux.quot - 1 else aux.quot
    if state = 0 then some []
    else
      match (m.pows[0]? : Option Nat), (m.acpows[1]? : Option Nat) with
      | some p0, some ac1 =>
        if prefix_s2 < ac1 then some [toSizeT prefix_s2]
        else
          some ((List.range (m.n_actions + 1)).map fun (a : Nat) =>
            toSizeT (prefix_s2 + (a : Int) * (p0 : Int)))
      | _, _ => none

/-- `Recomodel::is_connected`: the action leading from `s1` to `s2`, or
`n_actions` when there is none. -/
def is_connected (m : Recomodel) (s1 s2 : Nat) : Option Nat :=
  if m.get_env s1 ≠ m.get_env s2 then some m.n_actions
  else
    let s1 := if m.is_mdp then s1 else m.get_rep s1
    let s2 := if m.is_mdp then s2 else m.get_rep s2
    match (m.pows[0]? : Option Nat), (m.acpows[1]? : Option Nat) with
    | some p0, some ac1 =>
      if p0 = 0 then none
      else
        let suffix_s1 : Int := ((s1 % p0 : Nat) : Int)
        let suffix_s1 : Int :=
          if suffix_s1 ≥ ac1 ∨ s1 < p0 then suffix_s1 - ac1 else suffix_s1 + p0 - ac1
        match div s2 m.n_actions with
        | none => none
        | some aux =>
          let prefix_s2 : Int := aux.quot - ac1
          let last_s2 : Nat := toSizeT (aux.rem - 1)
          let prefix_s2 : Int := if aux.rem = 0 then prefix_s2 - 1 else prefix_s2
          let last_s2 : Nat := if aux.rem = 0 then toSizeT (m.n_actions - 1) else last_s2
          if prefix_s2 = suffix_s1 then some last_s2 else some m.n_actions
    | _, _ => none

/-- `Recomodel::getObservationProbability`. -/
def getObservationProbability (m : Recomodel) (s1 _a o : Nat) : ℚ :=
  if m.get_rep s1 = o then 1 else 0

/-- `Recomodel::getExpectedReward`. -/
def getExpectedReward (m : Recomodel) (s1 a s2 : Nat) : Option ℚ :=
  match m.is_connected s1 s2 with
  | none => none
  | some link => if link ≠ a then some 0 else m.rewards[link]?

/-- `Recomodel::sampleSR`, the draw from the discrete distribution being the
argument `link`. -/
def sampleSR (m : Recomodel) (s a link : Nat) : Option (Nat × ℚ) :=
  match m.next_state (m.get_rep s) link with
  | none => none
  | some o2 =>
    let s2 := m.get_env s * m.n_observations + o2
    if a = link then (m.rewards[link]?).map fun r => (s2, r)
    else some (s2, 0)

/-- `Recomodel::sampleSOR`, the draw from the discrete distribution being the
argument `link`. -/
def sampleSOR (m : Recomodel) (s a link : Nat) : Option (Nat × Nat × ℚ) :=
  match m.next_state (m.get_rep s) link with
  | none => none
  | some o2 =>
    let s2 := m.get_env s * m.n_observations + o2
    if a = link then (m.rewards[link]?).map fun r => (s2, o2, r)
    else some (s2, o2, 0)

/-- How a constructor or loader call ends: normally with a value, by a failed
`assert` (the fatal error), or in undefined behaviour (an access outside an
array, a shift by 64 or more, a loop that is never left). -/
inductive Outcome (α : Type) where
  | ok (value : α)
  | fatal
  | undefined
deriving DecidableEq, Repr

/-- The summary check of the constructor,
`assert((pow(n_actions, hlength + 1) - 1) / (n_actions - 1), "...")`: the asserted
value is the quotient itself, which passes when it is non-zero. `n_actions - 1` is
a `size_t`; a division by zero gives NaN or an infinity, which are non-zero. -/
def summary_check (n_actions hlength : Nat) : Bool :=
  if toSizeT ((n_actions : Int) - 1) = 0 then true
  else decide ((((n_actions : ℚ) ^ (hlength + 1) - 1) /
    ((toSizeT ((n_actions : Int) - 1) : Nat) : ℚ)) ≠ 0)

/-- `Recomodel::Recomodel` with its summary check: the four numbers of the
summary file and the mode give the model of `create`, unless the `assert` fails. -/
def construct (n_observations n_actions n_environments hlength : Nat) (is_mdp : Bool) :
    Outcome Recomodel :=
  if summary_check n_actions hlength then
    .ok (create n_observations n_actions n_environments hlength is_mdp)
  else .fatal

/-- The locals `a`, `v`, `temp1`, `temp2` of `load_rewards`: the function reads
them without ever writing them, so their values are arguments of the model. -/
structure RewardsLocals where
  /-- The item id `a`. -/
  a : Nat
  /-- The reward value `v`. -/
  v : ℚ
  /-- The `size_t temp1`. -/
  temp1 : Nat
  /-- The `size_t temp2`. -/
  temp2 : Nat

/-- The `while (std::getline(infile, line))` loop of `Recomodel::load_rewards`
over the lines `<item> <reward>` of the file: the line is put in `iss` and not
read; the test is `temp1 >> a >> temp2` on the locals. Returns `rewards` and
`rewards_found`. -/
def load_rewards_loop (m : Recomodel) (loc : RewardsLocals) :
    List (Nat × ℚ) → List ℚ → Nat → Outcome (List ℚ × Nat)
  | [], rewards, rewards_found => .ok (rewards, rewards_found)
  | _ :: rest, rewards, rewards_found =>
    if 64 ≤ loc.a ∨ 64 ≤ loc.temp2 then .undefined
    else if (loc.temp1 >>> loc.a) >>> loc.temp2 = 0 then .ok (rewards, rewards_found)
    else if ¬ loc.a ≤ m.n_actions then .fatal
    else if toSizeT ((loc.a : Int) - 1) < rewards.length then
      load_rewards_loop m loc rest (rewards.set (toSizeT ((loc.a : Int) - 1)) loc.v)
        (rewards_found + 1)
    else .undefined

/-- `Recomodel::load_rewards` on an opened file. -/
def load_rewards (m : Recomodel) (loc : RewardsLocals) (file : List (Nat × ℚ)) :
    Outcome Recomodel :=
  match load_rewards_loop m loc file m.rewards 0 with
  | .ok (rewards, rewards_found) =>
    if rewards_found = m.n_actions then .ok { m with rewards := rewards } else .fatal
  | .fatal => .fatal
  | .undefined => .undefined

/-- A line of the transitions file: `entry s1 a s2 v` when
`iss >> s1 >> a >> s2 >> v` succeeds on it, `separator` otherwise. -/
inductive TransitionLine where
  | entry (s1 a s2 : Nat) (v : ℚ)
  | separator
deriving DecidableEq, Repr

/-- The parsing state of `load_transitions`: the table, `transitions_found`
and `profiles_found`. -/
structure ParseState where
  /-- The flat array `transition_matrix`. -/
  transition_matrix : List ℚ
  /-- The counter `transitions_found`. -/
  transitions_found : Nat
  /-- The counter `profiles_found`. -/
  profiles_found : Nat
deriving DecidableEq, Repr

/-- One iteration of the `while (std::getline(infile, line))` loop of
`Recomodel::load_transitions`. The argument `a - 1` of `index` is a `size_t`
(wrapping for `a = 0`); a write at an offset that is not in the table is undefined
behaviour. -/
def load_transitions_line (m : Recomodel) (st : ParseState) :
    TransitionLine → Outcome ParseState
  | .separator =>
    if st.transitions_found ≠ m.n_observations * m.n_actions * m.n_actions then .fatal
    else if ¬ st.profiles_found + 1 ≤ m.n_environments then .fatal
    else .ok { st with transitions_found := 0, profiles_found := st.profiles_found + 1 }
  | .entry s1 a s2 v =>
    match m.is_connected s1 s2 with
    | none => .undefined
    | some link =>
      if ¬ link < m.n_actions then .fatal
      else
        let idx := m.index (if m.is_mdp then 0 else st.profiles_found) s1
          (toSizeT ((a : Int) - 1)) link
        match cell st.transition_matrix idx with
        | none => .undefined
        | some old =>
          .ok { st with
            transition_matrix :=
              st.transition_matrix.set idx.toNat (if m.is_mdp then old + v else v)
            transitions_found := st.transitions_found + 1 }

/-- The `while (std::getline(infile, line))` loop of `Recomodel::load_transitions`. -/
def load_transitions_loop (m : Recomodel) : List TransitionLine → ParseState → Outcome ParseState
  | [], st => .ok st
  | line :: rest, st =>
    match load_transitions_line m st line with
    | .ok st' => load_transitions_loop m rest st'
    | .fatal => .fatal
    | .undefined => .undefined

/-- The plain sum of a row in the normalisation pass, `n` entries left from `s2` on. -/
def row_sum (m : Recomodel) (tm : List ℚ) (p s1 a : Nat) : Nat → Nat → ℚ → Option ℚ
  | 0, _, nrm => some nrm
  | n + 1, s2, nrm =>
    match cell tm (m.index p s1 a s2) with
    | some x => row_sum m tm p s1 a n (s2 + 1) (nrm + x)
    | none => none

/-- The compensated (Kahan) sum of a row in the normalisation pass. -/
def row_sum_kahan (m : Recomodel) (tm : List ℚ) (p s1 a : Nat) : Nat → Nat → ℚ → ℚ → Option ℚ
  | 0, _, nrm, _ => some nrm
  | n + 1, s2, nrm, kahan_correction =>
    match cell tm (m.index p s1 a s2) with
    | some x =>
      let val := x - kahan_correction
      let aux := nrm + val
      row_sum_kahan m tm p s1 a n (s2 + 1) aux ((aux - nrm) - val)
    | none => none

/-- The division of a row by `nrm` in the normalisation pass. A division by a
zero sum has no exact value (the source's doubles become NaN): `none`. -/
def row_divide (m : Recomodel) (p s1 a : Nat) (nrm : ℚ) : Nat → Nat → List ℚ → Option (List ℚ)
  | 0, _, tm => some tm
  | n + 1, s2, tm =>
    match cell tm (m.index p s1 a s2) with
    | some x =>
      if nrm = 0 then none
      else row_divide m p s1 a nrm n (s2 + 1) (tm.set (m.index p s1 a s2).toNat (x / nrm))
    | none => none

/-- The body of the normalisation pass for one row `(p, s1, a)`. -/
def normalize_row (m : Recomodel) (precision : Bool) (p s1 a : Nat) (tm : List ℚ) :
    Option (List ℚ) :=
  match (if precision then row_sum_kahan m tm p s1 a m.n_actions 0 0 0
    else row_sum m tm p s1 a m.n_actions 0 0) with
  | some nrm => row_divide m p s1 a nrm m.n_actions 0 tm
  | none => none

/-- The loop `for (a = 0; a < n_actions; a++)` of the normalisation pass. -/
def normalize_actions (m : Recomodel) (precision : Bool) (p s1 : Nat) :
    Nat → Nat → List ℚ → Option (List ℚ)
  | 0, _, tm => some tm
  | n + 1, a, tm =>
    match normalize_row m precision p s1 a tm with
    | some tm' => normalize_actions m precision p s1 n (a + 1) tm'
    | none => none

/-- The loop `for (s1 = 0; s1 < n_observations; s1++)` of the normalisation pass. -/
def normalize_states (m : Recomodel) (precision : Bool) (p : Nat) :
    Nat → Nat → List ℚ → Option (List ℚ)
  | 0, _, tm => some tm
  | n + 1, s1, tm =>
    match normalize_actions m precision p s1 m.n_actions 0 tm with
    | some tm' => normalize_states m precision p n (s1 + 1) tm'
    | none => none

/-- The loop `for (int p = 0; i < env_loop; p++)` of the normalisation pass.
The variable `i` of its test is not declared in the function and never changes:
its value is an argument. When `i < env_loop` the loop can only be left by a
failing access; `fuel` bounds the unfolding, and running out of it means that the
loop is still running. -/
def normalize_profiles (m : Recomodel) (i : Int) (precision : Bool) :
    Nat → Nat → List ℚ → Outcome (List ℚ)
  | fuel, p, tm =>
    if i < (if m.is_mdp then 1 else (m.n_environments : Int)) then
      match fuel with
      | 0 => .undefined
      | fuel + 1 =>
        match normalize_states m precision p m.n_observations 0 tm with
        | some tm' => normalize_profiles m i precision fuel (p + 1) tm'
        | none => .undefined
    else .ok tm

/-- `Recomodel::load_transitions` on an opened file: the parse loop, the check
of the number of profiles and the normalisation pass. -/
def load_transitions (m : Recomodel) (i : Int) (file : List TransitionLine) (precision : Bool) :
    Outcome Recomodel :=
  match load_transitions_loop m file ⟨m.transition_matrix, 0, 0⟩ with
  | .ok st =>
    if st.profiles_found ≠ m.n_environments then .fatal
    else
      match normalize_profiles m i precision (m.transition_matrix.length + 1) 0
        st.transition_matrix with
      | .ok tm => .ok { m with transition_matrix := tm }
      | .fatal => .fatal
      | .undefined => .undefined
  | .fatal => .fatal
  | .undefined => .undefined

/-! ## Vocabulary of the properties

The definitions below are not part of the source: they name the notions the
properties are stated with (node count, valid windows, a built model) and the
closed forms of what the source computes. -/

/-- The sum of the first `n` powers of `K`: `geom K n = 1 + K + ... + K ^ (n - 1)`;
`acpows[i]` is `geom K (H - i)`. -/
def geom (K : Nat) : Nat → Nat
  | 0 => 0
  | n + 1 => geom K n + K ^ n

/-- The number of history nodes `N = 1 + K + ... + K ^ H`. -/
def nodeCount (K H : Nat) : Nat := geom K (H + 1)

/-- A valid recency window: length `H`, entries in `0..K`, zeros only as a
leading prefix. -/
def validWindow (K H : Nat) (seq : List Nat) : Prop :=
  seq.length = H ∧ (∀ x ∈ seq, x ≤ K) ∧ ∀ x ∈ seq.dropWhile (fun d => d == 0), x ≠ 0

instance (K H : Nat) (seq : List Nat) : Decidable (validWindow K H seq) := by
  unfold validWindow; infer_instance

/-- The model `m` is what the constructor builds for `K` actions and history
length `H` from a consistent summary (node count `1 + K + ... + K ^ H`); the
reward and transition tables are left free. -/
def Built (m : Recomodel) (K H : Nat) : Prop :=
  m.n_actions = K ∧ m.hlength = H ∧ m.n_observations = nodeCount K H ∧
  m.n_states = (if m.is_mdp then m.n_observations else m.n_environments * m.n_observations) ∧
  m.pows = (create m.n_observations K m.n_environments H m.is_mdp).pows ∧
  m.acpows = (create m.n_observations K m.n_environments H m.is_mdp).acpows

instance (m : Recomodel) (K H : Nat) : Decidable (Built m K H) := by
  unfold Built; infer_instance

/-- The value of a window in the mixed-radix scheme: entry `i` of a window of
length `n` weighs `K ^ (n - 1 - i)`. -/
def windowValue (K : Nat) : List Nat → Nat
  | [] => 0
  | d :: s => d * K ^ s.length + windowValue K s

/-- The node count fits an `int`: every node id, exponent and cumulated
exponent of the model is then below `2 ^ 31`, so that the `int` arguments and
results of `div` and the `int` locals of the source hold them exactly. -/
def fitsInt (K H : Nat) : Prop := nodeCount K H < 2 ^ 31

instance (K H : Nat) : Decidable (fitsInt K H) := by
  unfold fitsInt; infer_instance

/-- The value of the window of node `state` once its oldest slot is removed, as
`next_state` and `is_connected` compute it from `pows[0] = K ^ (H - 1)` and
`acpows[1] = geom K (H - 1)`. -/
def suffixValue (K H state : Nat) : Nat :=
  if state % K ^ (H - 1) ≥ geom K (H - 1) ∨ state < K ^ (H - 1) then state % K ^ (H - 1)
  else K ^ (H - 1) + state % K ^ (H - 1)

/-- The concrete scenario of the specification: `K = 2`, `H = 2`, `N = 7`, one environment,
rewards `1.0` and `0.5`, every table entry `1/2`. -/
def scenario : Recomodel :=
  { create 7 2 1 2 false with
    rewards := [1, 1 / 2]
    transition_matrix := List.replicate 28 (1 / 2) }

/-- The closed form of `is_connected` on two states of a built model: the last
item of the node of `s2` when its window without that item is the window of
the node of `s1` without its oldest slot, and `K` otherwise. -/
def linkOf (m : Recomodel) (K H s1 s2 : Nat) : Nat :=
  if m.get_env s1 = m.get_env s2 ∧ m.get_rep s2 ≠ 0 ∧
      suffixValue K H (m.get_rep s1) = (m.get_rep s2 - 1) / K
  then (m.get_rep s2 - 1) % K else K

/-- The depth of a window: the number of items it holds (its non-empty slots). -/
def windowDepth (seq : List Nat) : Nat := (seq.filter fun d => d != 0).length

/-- The number of profiles the table is allocated for: 1 in MDP mode, the number
of environments otherwise. -/
def profileCount (m : Recomodel) : Nat := if m.is_mdp then 1 else m.n_environments

/-- The offset `link + K * (a + K * (s + N * env))` of `(env, s, a, link)` as a natural
number: the value of `index` when it fits an `int`. -/
def offset (m : Recomodel) (env s a link : Nat) : Nat :=
  link + m.n_actions * (a + m.n_actions * (s + m.n_observations * env))

/-- The table fits the `int` that `index` returns: it has at most `2 ^ 31` cells
(`P * N * K * K` with `P` profiles), so that the offset of every cell is at most
`INT_MAX`. -/
def fitsTable (m : Recomodel) : Prop :=
  profileCount m * m.n_observations * m.n_actions * m.n_actions ≤ 2 ^ 31

instance (m : Recomodel) : Decidable (fitsTable m) := by
  unfold fitsTable; infer_instance

/-- A transition line the parse loop accepts in every state: node and action in
range and a connected pair. -/
def goodEntry (m : Recomodel) : TransitionLine → Prop
  | .entry s1 a s2 _ =>
    s1 < m.n_observations ∧ 1 ≤ a ∧ a ≤ m.n_actions ∧
      ∃ link, link < m.n_actions ∧ m.is_connected s1 s2 = some link
  | .separator => False

instance (m : Recomodel) (line : TransitionLine) : Decidable (goodEntry m line) := by
  cases line <;> unfold goodEntry <;> infer_instance

/-- The sum over `link` in `[0, K)` of `transition_matrix[index(p, s1, a, link)]`
for a table `tm` (an entry outside the table counting for 0). -/
def rowTotal (m : Recomodel) (tm : List ℚ) (p s1 a : Nat) : ℚ :=
  ((List.range m.n_actions).map fun link => (cell tm (m.index p s1 a link)).getD 0).sum

/-- A row `(p, s1, a)` the normalisation is defined on: it lies in the table, its entries
are non-negative and its sum is positive. -/
def rowPositive (m : Recomodel) (tm : List ℚ) (p s1 a : Nat) : Prop :=
  (∀ link, link < m.n_actions → m.offset p s1 a link < tm.length) ∧
    (∀ link, link < m.n_actions → 0 ≤ tm.getD (m.offset p s1 a link) 0) ∧
    0 < rowTotal m tm p s1 a

instance (m : Recomodel) (tm : List ℚ) (p s1 a : Nat) :
    Decidable (rowPositive m tm p s1 a) := by
  unfold rowPositive; infer_instance

/-- A row `(p, s1, a)` that is a probability distribution over the links: its sum is 1
and its entries are non-negative. -/
def rowStochastic (m : Recomodel) (tm : List ℚ) (p s1 a : Nat) : Prop :=
  rowTotal m tm p s1 a = 1 ∧
    ∀ link, link < m.n_actions → 0 ≤ tm.getD (m.offset p s1 a link) 0

instance (m : Recomodel) (tm : List ℚ) (p s1 a : Nat) :
    Decidable (rowStochastic m tm p s1 a) := by
  unfold rowStochastic; infer_instance

/-- The `(s1, a, s2)` of a complete profile for `K = 2`, `H = 2`: one triple for
each node `s1`, action `a` in `1..2` and successor `s2` of `s1`, 28 in all. -/
def exampleTriples : List (Nat × Nat × Nat) :=
  (List.range 7).flatMap fun s1 => [1, 2].flatMap fun a => [0, 1].map fun link =>
    (s1, a, ((create 7 2 1 2 false).next_state s1 link).getD 0)

/-- A complete profile for `K = 2`, `H = 2`: the 28 lines `s1 a s2 v` of
`exampleTriples`, all with the value `v`. -/
def exampleProfile (v : ℚ) : List TransitionLine :=
  exampleTriples.map fun t => TransitionLine.entry t.1 t.2.1 t.2.2 v

/-! ## Exponent tables, window values and valid windows -/

theorem geom_succ_mul (K n : Nat) : geom K (n + 1) = K * geom K n + 1 := by
  induction n with
  | zero => simp [geom]
  | succ n ih =>
    have h : geom K (n + 2) = geom K (n + 1) + K ^ (n + 1) := rfl
    have h2 : geom K (n + 1) = geom K n + K ^ n := rfl
    have e : K * geom K n + 1 = geom K n + K ^ n := ih.symm.trans h2
    rw [h, ih, pow_succ]
    nlinarith [e]

theorem init_pows_fst_length (K n : Nat) : (init_pows K n).1.length = n + 1 := by
  induction n with
  | zero => rfl
  | succ n ih => simp [init_pows, ih]

theorem init_pows_snd_length (K n : Nat) : (init_pows K n).2.length = n + 1 := by
  induction n with
  | zero => rfl
  | succ n ih => simp [init_pows, ih]

theorem init_pows_fst_get (K n i : Nat) (hi : i ≤ n) :
    (init_pows K n).1[i]? = some (K ^ (n - i)) := by
  induction n generalizing i with
  | zero =>
    have : i = 0 := by omega
    subst this; rfl
  | succ n ih =>
    cases i with
    | zero =>
      have h0 := ih 0 (Nat.zero_le _)
      have hh : (init_pows K n).1.headD 0 = K ^ n := by
        cases hl : (init_pows K n).1 with
        | nil => rw [hl] at h0; simp at h0
        | cons a l => rw [hl] at h0; simpa using h0
      simp only [init_pows, List.getElem?_cons_zero, hh, pow_succ, Nat.sub_zero]
    | succ j =>
      have := ih j (by omega)
      simpa [init_pows] using this

theorem init_pows_snd_get (K n i : Nat) (hi : i ≤ n) :
    (init_pows K n).2[i]? = some (geom K (n - i + 1)) := by
  induction n generalizing i with
  | zero =>
    have : i = 0 := by omega
    subst this; simp [init_pows, geom]
  | succ n ih =>
    cases i with
    | zero =>
      have h0 := ih 0 (Nat.zero_le _)
      have p0 := init_pows_fst_get K n 0 (Nat.zero_le _)
      have hh : (init_pows K n).2.headD 0 = geom K (n + 1) := by
        cases hl : (init_pows K n).2 with
        | nil => rw [hl] at h0; simp at h0
        | cons a l => rw [hl] at h0; simpa using h0
      have hp : (init_pows K n).1.headD 0 = K ^ n := by
        cases hl : (init_pows K n).1 with
        | nil => rw [hl] at p0; simp at p0
        | cons a l => rw [hl] at p0; simpa using p0
      have hg : geom K (n + 1 + 1) = geom K (n + 1) + K ^ (n + 1) := rfl
      simp only [init_pows, List.getElem?_cons_zero, hh, hp, hg, pow_succ, Nat.sub_zero]
    | succ j =>
      have := ih j (by omega)
      simpa [init_pows] using this

theorem Built.pows_get {m : Recomodel} {K H : Nat} (hb : Built m K H) {i : Nat} (hi : i < H) :
    m.pows[i]? = some (K ^ (H - 1 - i)) := by
  obtain ⟨_, _, _, _, hp, _⟩ := hb
  rw [hp]
  have hH : H ≠ 0 := by omega
  simp only [create, hH, if_false]
  exact init_pows_fst_get K (H - 1) i (by omega)

theorem Built.acpows_get {m : Recomodel} {K H : Nat} (hb : Built m K H) {i : Nat} (hi : i < H) :
    m.acpows[i]? = some (geom K (H - i)) := by
  obtain ⟨_, _, _, _, _, ha⟩ := hb
  rw [ha]
  have hH : H ≠ 0 := by omega
  simp only [create, hH, if_false]
  rw [init_pows_snd_get K (H - 1) i (by omega)]
  congr 2; omega

theorem windowValue_append (K : Nat) (s t : List Nat) :
    windowValue K (s ++ t) = windowValue K s * K ^ t.length + windowValue K t := by
  induction s with
  | nil => simp [windowValue]
  | cons d s ih =>
    rw [List.cons_append, windowValue, windowValue, ih, List.length_append, pow_add]
    ring

theorem windowValue_snoc (K : Nat) (s : List Nat) (d : Nat) :
    windowValue K (s ++ [d]) = windowValue K s * K + d := by
  rw [windowValue_append]; simp [windowValue]

theorem windowValue_replicate_zero (K n : Nat) : windowValue K (List.replicate n 0) = 0 := by
  induction n with
  | zero => rfl
  | succ n ih => simp [List.replicate_succ, windowValue, ih]

theorem state_to_id_loop_eq {m : Recomodel} {K H : Nat} (hb : Built m K H) (state : List Nat)
    (hlen : state.length = H) (n i id : Nat) (hn : i + n = H) (hid : id < 2 ^ 64) :
    state_to_id_loop m state n i id = some ((id + windowValue K (state.drop i)) % 2 ^ 64) := by
  induction n generalizing i id with
  | zero =>
    have hi : state.length ≤ i := by omega
    rw [List.drop_eq_nil_of_le hi]
    have h64 : id < 18446744073709551616 := by simpa using hid
    simp only [state_to_id_loop, windowValue, Nat.add_zero]
    congr 1
    omega
  | succ n ih =>
    have hi : i < state.length := by omega
    have hd : state.drop i = state[i] :: state.drop (i + 1) := List.drop_eq_getElem_cons hi
    have hp := hb.pows_get (show i < H by omega)
    have hl : (state.drop (i + 1)).length = H - 1 - i := by simp; omega
    rw [state_to_id_loop, List.getElem?_eq_getElem hi, hp]
    simp only []
    rw [ih (i + 1) _ (by omega) (Nat.mod_lt _ (by norm_num)), hd, windowValue, hl]
    congr 1
    omega

theorem state_to_id_eq {m : Recomodel} {K H : Nat} (hb : Built m K H) (state : List Nat)
    (hlen : state.length = H) :
    m.state_to_id state = some (windowValue K state % 2 ^ 64) := by
  have h := state_to_id_loop_eq hb state hlen H 0 0 (by omega) (by norm_num)
  have hh : m.hlength = H := hb.2.1
  simpa [state_to_id, hh] using h

theorem geom_pos (K n : Nat) : 0 < geom K (n + 1) := by
  rw [geom_succ_mul]; omega

theorem geom_succ_add (K n : Nat) : geom K (n + 1) = geom K n + K ^ n := rfl

theorem validWindow_cons_zero {K H : Nat} {s : List Nat} :
    validWindow K (H + 1) (0 :: s) ↔ validWindow K H s := by
  simp [validWindow]

theorem validWindow_cons_pos {K H d : Nat} {s : List Nat} (hd : d ≠ 0) :
    validWindow K (H + 1) (d :: s) ↔
      d ≤ K ∧ s.length = H ∧ ∀ x ∈ s, 1 ≤ x ∧ x ≤ K := by
  simp only [validWindow, List.length_cons, Nat.add_right_cancel_iff, List.mem_cons,
    forall_eq_or_imp, List.dropWhile_cons, beq_iff_eq, hd, if_false, ne_eq, not_false_eq_true,
    true_and]
  constructor
  · rintro ⟨hl, ⟨hdk, hk⟩, hz⟩
    exact ⟨hdk, hl, fun x hx => ⟨Nat.pos_of_ne_zero (hz x hx), hk x hx⟩⟩
  · rintro ⟨hdk, hl, hf⟩
    exact ⟨hl, ⟨hdk, fun x hx => (hf x hx).2⟩, fun x hx => by have := (hf x hx).1; omega⟩

theorem full_bounds (K : Nat) (s : List Nat) (hf : ∀ x ∈ s, 1 ≤ x ∧ x ≤ K) :
    geom K s.length ≤ windowValue K s ∧ windowValue K s ≤ K * geom K s.length := by
  induction s with
  | nil => simp [windowValue, geom]
  | cons d s ih =>
    have hd := hf d (List.mem_cons_self _ _)
    have ih := ih (fun x hx => hf x (List.mem_cons_of_mem _ hx))
    simp only [windowValue, List.length_cons, geom_succ_add]
    have h1 : 1 * K ^ s.length ≤ d * K ^ s.length := Nat.mul_le_mul_right _ hd.1
    have h2 : d * K ^ s.length ≤ K * K ^ s.length := Nat.mul_le_mul_right _ hd.2
    constructor
    · omega
    · rw [Nat.mul_add]; omega

theorem valid_bound {K H : Nat} {s : List Nat} (hv : validWindow K H s) :
    windowValue K s ≤ K * geom K H := by
  induction s generalizing H with
  | nil => simp [windowValue]
  | cons d s ih =>
    obtain ⟨hl, -, -⟩ := id hv
    obtain ⟨H, rfl⟩ : ∃ H', H = H' + 1 := ⟨s.length, by simpa using hl.symm⟩
    by_cases hd : d = 0
    · subst hd
      have := ih (validWindow_cons_zero.mp hv)
      simp only [windowValue, Nat.zero_mul, Nat.zero_add, geom_succ_add, Nat.mul_add]
      omega
    · obtain ⟨hdk, hl, hf⟩ := (validWindow_cons_pos hd).mp hv
      have := (full_bounds K (d :: s) (by
        intro x hx
        rcases List.mem_cons.mp hx with rfl | hx
        · exact ⟨Nat.pos_of_ne_zero hd, hdk⟩
        · exact hf x hx)).2
      simpa [hl] using this

theorem full_inj (K : Nat) (s t : List Nat) (hs : ∀ x ∈ s, 1 ≤ x ∧ x ≤ K)
    (ht : ∀ x ∈ t, 1 ≤ x ∧ x ≤ K) (hl : s.length = t.length)
    (hv : windowValue K s = windowValue K t) : s = t := by
  induction s generalizing t with
  | nil => cases t with
    | nil => rfl
    | cons _ _ => simp at hl
  | cons d s ih =>
    cases t with
    | nil => simp at hl
    | cons e t =>
      have hl' : s.length = t.length := by simpa using hl
      have bs := full_bounds K s (fun x hx => hs x (List.mem_cons_of_mem _ hx))
      have bt := full_bounds K t (fun x hx => ht x (List.mem_cons_of_mem _ hx))
      rw [← hl'] at bt
      simp only [windowValue, ← hl'] at hv
      have hg := geom_succ_mul K s.length
      have hg' := geom_succ_add K s.length
      have hde : d = e := by
        rcases Nat.lt_trichotomy d e with h | h | h
        · have : (d + 1) * K ^ s.length ≤ e * K ^ s.length := Nat.mul_le_mul_right _ h
          rw [Nat.add_mul] at this; omega
        · exact h
        · have : (e + 1) * K ^ s.length ≤ d * K ^ s.length := Nat.mul_le_mul_right _ h
          rw [Nat.add_mul] at this; omega
      subst hde
      have := ih t (fun x hx => hs x (List.mem_cons_of_mem _ hx))
        (fun x hx => ht x (List.mem_cons_of_mem _ hx)) hl' (by omega)
      rw [this]

theorem valid_inj {K H : Nat} {s t : List Nat} (hs : validWindow K H s) (ht : validWindow K H t)
    (hv : windowValue K s = windowValue K t) : s = t := by
  induction s generalizing t H with
  | nil =>
    have : t.length = 0 := by rw [ht.1, ← hs.1]; rfl
    exact (List.length_eq_zero.mp this).symm
  | cons d s ih =>
    have hl := hs.1
    obtain ⟨H, rfl⟩ : ∃ H', H = H' + 1 := ⟨s.length, by simpa using hl.symm⟩
    cases t with
    | nil => have := ht.1; simp at this
    | cons e t =>
      have hls : s.length = H := by simpa using hs.1
      have hlt : t.length = H := by simpa using ht.1
      have hg := geom_succ_mul K H
      have hg' := geom_succ_add K H
      by_cases hd : d = 0 <;> by_cases he : e = 0
      · subst hd; subst he
        have hs' := validWindow_cons_zero.mp hs
        have ht' := validWindow_cons_zero.mp ht
        simp only [windowValue, Nat.zero_mul, Nat.zero_add] at hv
        rw [ih hs' ht' hv]
      · subst hd
        have hs' := valid_bound (validWindow_cons_zero.mp hs)
        obtain ⟨hek, _, hf⟩ := (validWindow_cons_pos he).mp ht
        have bt := (full_bounds K t hf).1
        simp only [windowValue, Nat.zero_mul, Nat.zero_add, hls, hlt] at hv bt
        have : 1 * K ^ H ≤ e * K ^ H := Nat.mul_le_mul_right _ (Nat.pos_of_ne_zero he)
        omega
      · subst he
        have ht' := valid_bound (validWindow_cons_zero.mp ht)
        obtain ⟨hdk, _, hf⟩ := (validWindow_cons_pos hd).mp hs
        have bs := (full_bounds K s hf).1
        simp only [windowValue, Nat.zero_mul, Nat.zero_add, hls, hlt] at hv bs
        have : 1 * K ^ H ≤ d * K ^ H := Nat.mul_le_mul_right _ (Nat.pos_of_ne_zero hd)
        omega
      · obtain ⟨hdk, _, hfs⟩ := (validWindow_cons_pos hd).mp hs
        obtain ⟨hek, _, hft⟩ := (validWindow_cons_pos he).mp ht
        refine full_inj K (d :: s) (e :: t) ?_ ?_ (by simp [hls, hlt]) hv
        · intro x hx
          rcases List.mem_cons.mp hx with rfl | hx
          · exact ⟨Nat.pos_of_ne_zero hd, hdk⟩
          · exact hfs x hx
        · intro x hx
          rcases List.mem_cons.mp hx with rfl | hx
          · exact ⟨Nat.pos_of_ne_zero he, hek⟩
          · exact hft x hx

theorem validWindow_zeros (K n : Nat) : validWindow K n (List.replicate n 0) := by
  induction n with
  | zero => simp [validWindow]
  | succ n ih => rw [List.replicate_succ]; exact validWindow_cons_zero.mpr ih

theorem validWindow_snoc {K H d : Nat} {s : List Nat} (hv : validWindow K H s) (h1 : 1 ≤ d)
    (hk : d ≤ K) : validWindow K (H + 1) (s ++ [d]) := by
  induction s generalizing H with
  | nil =>
    have hH : H = 0 := by simpa using hv.1.symm
    subst hH
    exact (validWindow_cons_pos (by omega)).mpr ⟨hk, rfl, by simp⟩
  | cons a s ih =>
    obtain ⟨H, rfl⟩ : ∃ H', H = H' + 1 := ⟨s.length, by simpa using hv.1.symm⟩
    by_cases ha : a = 0
    · subst ha
      exact validWindow_cons_zero.mpr (ih (validWindow_cons_zero.mp hv))
    · obtain ⟨hak, hl, hf⟩ := (validWindow_cons_pos ha).mp hv
      refine (validWindow_cons_pos ha).mpr ⟨hak, by simp [hl], ?_⟩
      intro x hx
      rcases List.mem_append.mp hx with hx | hx
      · exact hf x hx
      · have : x = d := by simpa using hx
        subst this; exact ⟨h1, hk⟩

theorem validWindow_tail {K H d : Nat} {s : List Nat} (hv : validWindow K (H + 1) (d :: s)) :
    validWindow K H s := by
  by_cases hd : d = 0
  · subst hd; exact validWindow_cons_zero.mp hv
  · obtain ⟨_, hl, hf⟩ := (validWindow_cons_pos hd).mp hv
    cases s with
    | nil => subst hl; simp [validWindow]
    | cons e s =>
      obtain ⟨H, rfl⟩ : ∃ H', H = H' + 1 := ⟨s.length, by simpa using hl.symm⟩
      have he := hf e (List.mem_cons_self _ _)
      exact (validWindow_cons_pos (by omega)).mpr
        ⟨he.2, by simpa using hl, fun x hx => hf x (List.mem_cons_of_mem _ hx)⟩

theorem exists_window {K : Nat} (hK : 1 ≤ K) (H i : Nat) (hi : i ≤ K * geom K H) :
    ∃ s, validWindow K H s ∧ windowValue K s = i := by
  induction H generalizing i with
  | zero =>
    have : i = 0 := by simpa [geom] using hi
    subst this
    exact ⟨[], by simp [validWindow], rfl⟩
  | succ H ih =>
    by_cases h0 : i = 0
    · subst h0
      exact ⟨List.replicate (H + 1) 0, validWindow_zeros K _, windowValue_replicate_zero K _⟩
    · have hdm := Nat.div_add_mod (i - 1) K
      have hmod : (i - 1) % K < K := Nat.mod_lt _ hK
      have hq : (i - 1) / K ≤ K * geom K H := by
        have : (i - 1) / K < K * geom K H + 1 := by
          rw [Nat.div_lt_iff_lt_mul hK]
          rw [geom_succ_mul] at hi
          have : K * (K * geom K H + 1) = (K * geom K H + 1) * K := Nat.mul_comm _ _
          omega
        omega
      obtain ⟨s, hs, hv⟩ := ih _ hq
      refine ⟨s ++ [(i - 1) % K + 1], validWindow_snoc hs (by omega) (by omega), ?_⟩
      rw [windowValue_snoc, hv, Nat.mul_comm]
      omega

theorem nodeCount_eq (K H : Nat) : nodeCount K H = K * geom K H + 1 := geom_succ_mul K H

theorem state_to_id_valid {m : Recomodel} {K H : Nat} (hb : Built m K H) (hfit : fitsInt K H)
    {s : List Nat} (hv : validWindow K H s) :
    m.state_to_id s = some (windowValue K s) ∧ windowValue K s < nodeCount K H := by
  have hbd := valid_bound hv
  have hN := nodeCount_eq K H
  have hf : nodeCount K H < 2147483648 := by simpa [fitsInt] using hfit
  refine ⟨?_, by omega⟩
  rw [state_to_id_eq hb s hv.1]
  congr 1
  have : windowValue K s < 18446744073709551616 := by omega
  simpa using Nat.mod_eq_of_lt this

/-- C3: on valid recency windows `state_to_id` is injective, takes its values in
`[0, N)` and reaches every id of `[0, N)`, where `N = 1 + K + ... + K ^ H`. -/
theorem state_to_id_unique_dense (m : Recomodel) (K H : Nat) (hb : Built m K H) (hK : 2 ≤ K)
    (hH : 1 ≤ H) (hfit : fitsInt K H) :
    (∀ s t, validWindow K H s → validWindow K H t →
        m.state_to_id s = m.state_to_id t → s = t) ∧
    (∀ s, validWindow K H s → ∃ i, i < nodeCount K H ∧ m.state_to_id s = some i) ∧
    (∀ i, i < nodeCount K H → ∃ s, validWindow K H s ∧ m.state_to_id s = some i) := by
  have _ := hH
  refine ⟨?_, ?_, ?_⟩
  · intro s t hs ht he
    rw [(state_to_id_valid hb hfit hs).1, (state_to_id_valid hb hfit ht).1] at he
    exact valid_inj hs ht (Option.some.inj he)
  · intro s hs
    exact ⟨windowValue K s, (state_to_id_valid hb hfit hs).2, (state_to_id_valid hb hfit hs).1⟩
  · intro i hi
    rw [nodeCount_eq] at hi
    obtain ⟨s, hs, hv⟩ := exists_window (by omega : 1 ≤ K) H i (by omega)
    exact ⟨s, hs, by rw [(state_to_id_valid hb hfit hs).1, hv]⟩

theorem state_to_id_unique_dense_witness :
    Built (create 7 2 1 2 false) 2 2 ∧ validWindow 2 2 [1, 2] ∧
      ∃ i, i < nodeCount 2 2 ∧ (create 7 2 1 2 false).state_to_id [1, 2] = some i :=
  ⟨by decide, by decide,
    (state_to_id_unique_dense (create 7 2 1 2 false) 2 2 (by decide) (by decide) (by decide)
      (by decide)).2.1 [1, 2] (by decide)⟩

theorem div_natCast (a b : Nat) (hb : b ≠ 0) :
    div (a : Int) (b : Int) = some ⟨((a / b : Nat) : Int), ((a % b : Nat) : Int)⟩ := by
  have : (b : Int) ≠ 0 := by exact_mod_cast hb
  simp only [div, this, if_false, Int.ofNat_tdiv, Int.ofNat_tmod]

theorem toSizeT_natCast (n : Nat) (h : n < 2 ^ 64) : toSizeT (n : Int) = n := by
  have h' : n < 18446744073709551616 := by simpa using h
  unfold toSizeT; omega

theorem set_done_zeros (done : List Nat) (n v : Nat) :
    (done ++ List.replicate (n + 1) 0).set done.length v =
      (done ++ [v]) ++ List.replicate n 0 := by
  rw [List.set_append_right _ _ (Nat.le_refl _), Nat.sub_self, List.replicate_succ,
    List.set_cons_zero, List.append_assoc]
  rfl

theorem set_last_zeros (done : List Nat) (n v : Nat) :
    (done ++ List.replicate (n + 1) 0).set (done.length + n) v =
      (done ++ List.replicate n 0) ++ [v] := by
  rw [List.replicate_succ', ← List.append_assoc]
  have hl : (done ++ List.replicate n 0).length = done.length + n := by simp
  rw [← hl, List.set_append_right _ _ (Nat.le_refl _), Nat.sub_self, List.set_cons_zero]

theorem pow_le_geom (K n : Nat) : K ^ n ≤ geom K (n + 1) := by
  rw [geom_succ_add]; omega

theorem geom_mono (K : Nat) {a b : Nat} (h : a ≤ b) : geom K a ≤ geom K b := by
  induction h with
  | refl => exact Nat.le_refl _
  | step _ ih => rw [geom_succ_add]; omega

theorem id_to_state_loop_spec {m : Recomodel} {K H : Nat} (hb : Built m K H) (hK : 1 ≤ K)
    (hfit : fitsInt K H) (fuel : Nat) (done : List Nat) (id : Nat)
    (hlt : done.length < H) (hfuel : fuel + done.length = H)
    (hid : id ≤ K * geom K (H - done.length)) :
    ∃ done' id', id_to_state_loop m fuel (done ++ List.replicate (H - done.length) 0)
          done.length id = some (done' ++ List.replicate (H - done'.length) 0, id') ∧
      done'.length < H ∧ id' ≤ K ∧
      (windowValue K done' * K ^ (H - done'.length) + id') % 2 ^ 64 =
        (windowValue K done * K ^ (H - done.length) + id) % 2 ^ 64 := by
  have hKa : m.n_actions = K := hb.1
  have hN := nodeCount_eq K H
  have hf : nodeCount K H < 2147483648 := by simpa [fitsInt] using hfit
  induction fuel generalizing done id with
  | zero => omega
  | succ fuel ih =>
    rw [id_to_state_loop]
    by_cases hgt : id > K
    · -- one more iteration
      have hind : done.length + 1 < H := by
        by_contra hc
        have : H - done.length = 1 := by omega
        rw [this] at hid
        simp [geom] at hid
        omega
      obtain ⟨n, hn⟩ : ∃ n, H - done.length = n + 2 := ⟨H - done.length - 2, by omega⟩
      have hp := hb.pows_get hlt
      have hac := hb.acpows_get hind
      have e1 : H - 1 - done.length = n + 1 := by omega
      have e2 : H - (done.length + 1) = n + 1 := by omega
      rw [e1] at hp
      rw [e2] at hac
      have hppos : 0 < K ^ (n + 1) := pow_pos (by omega) _
      have hg1 : geom K (n + 2) = geom K (n + 1) + K ^ (n + 1) := geom_succ_add K (n + 1)
      have hg2 : geom K (n + 2) = K * geom K (n + 1) + 1 := geom_succ_mul K (n + 1)
      have hg3 : geom K (n + 1) = K * geom K n + 1 := geom_succ_mul K n
      have hg4 : geom K (n + 1) = geom K n + K ^ n := geom_succ_add K n
      have hpow : K ^ (n + 1) = K ^ n * K := pow_succ K n
      have hpow2 : K ^ (n + 2) = K ^ (n + 1) * K := pow_succ K (n + 1)
      have hdm := Nat.div_add_mod id (K ^ (n + 1))
      have hml := Nat.mod_lt id hppos
      have hgH : geom K (n + 2) ≤ geom K H := geom_mono K (by omega)
      have hKg : K * geom K (n + 2) ≤ K * geom K H := Nat.mul_le_mul_left _ hgH
      have hgK : 1 * geom K H ≤ K * geom K H := Nat.mul_le_mul_right _ hK
      rw [hn] at hid
      have hq : id / K ^ (n + 1) * K ^ (n + 1) ≤ id := Nat.div_mul_le_self _ _
      have hq1 : id / K ^ (n + 1) * 1 ≤ id / K ^ (n + 1) * K ^ (n + 1) :=
        Nat.mul_le_mul_left _ hppos
      have hlen : done.length < (done ++ List.replicate (H - done.length) 0).length := by
        simp; omega
      simp only [hKa, hgt, if_true, hp, hac, div_natCast id _ (Nat.pos_iff_ne_zero.mp hppos), hlen]
      have hstate : ∀ v, (done ++ List.replicate (H - done.length) 0).set done.length v =
          (done ++ [v]) ++ List.replicate (H - (done ++ [v]).length) 0 := by
        intro v
        have : H - (done ++ [v]).length = n + 1 := by simp; omega
        rw [this, hn]
        exact set_done_zeros done (n + 1) v
      have hl1 : ∀ v, (done ++ [v]).length = done.length + 1 := by intro v; simp
      by_cases hrem : ((id % K ^ (n + 1) : Nat) : Int) < ((geom K (n + 1) : Nat) : Int)
      · have hrem' : id % K ^ (n + 1) < geom K (n + 1) := by exact_mod_cast hrem
        simp only [hrem, if_true]
        have hid' : toSizeT (((K ^ (n + 1) : Nat) : Int) + ((id % K ^ (n + 1) : Nat) : Int)) =
            K ^ (n + 1) + id % K ^ (n + 1) := by
          rw [← Nat.cast_add]; apply toSizeT_natCast
          have : K ^ (n + 1) + id % K ^ (n + 1) < 18446744073709551616 := by omega
          simpa using this
        rw [hid', hstate, ← hl1 (toSizeT (((id / K ^ (n + 1) : Nat) : Int) - 1))]
        obtain ⟨done', id', h1, h2, h3, h4⟩ := ih (done ++ [toSizeT (((id / K ^ (n + 1) : Nat) : Int) - 1)])
          (K ^ (n + 1) + id % K ^ (n + 1)) (by rw [hl1]; omega) (by rw [hl1]; omega)
          (by rw [hl1, e2]; omega)
        refine ⟨done', id', h1, h2, h3, ?_⟩
        rw [h4, hl1, e2, hn, windowValue_snoc]
        have hv : (toSizeT (((id / K ^ (n + 1) : Nat) : Int) - 1) + 1 = id / K ^ (n + 1)) ∨
            (id / K ^ (n + 1) = 0 ∧
              toSizeT (((id / K ^ (n + 1) : Nat) : Int) - 1) = 18446744073709551615) := by
          unfold toSizeT; omega
        generalize toSizeT (((id / K ^ (n + 1) : Nat) : Int) - 1) = v at hv ⊢
        generalize id / K ^ (n + 1) = q at hdm hv ⊢
        generalize id % K ^ (n + 1) = r at hdm ⊢
        rw [← hdm, hpow2]
        rcases hv with hv | ⟨hq0, hv⟩
        · rw [← hv]; congr 1; ring
        · rw [hq0, hv]
          have e : (windowValue K done * K + 18446744073709551615) * K ^ (n + 1) +
              (K ^ (n + 1) + r) =
              (windowValue K done * (K ^ (n + 1) * K) + (K ^ (n + 1) * 0 + r)) +
                2 ^ 64 * K ^ (n + 1) := by ring
          rw [e, Nat.add_mul_mod_self_left]
      · have hrem' : geom K (n + 1) ≤ id % K ^ (n + 1) := by
          have := not_lt.mp hrem
          exact_mod_cast this
        simp only [hrem, if_false]
        have hq' : toSizeT ((id / K ^ (n + 1) : Nat) : Int) = id / K ^ (n + 1) := by
          apply toSizeT_natCast
          have : id / K ^ (n + 1) < 18446744073709551616 := by omega
          simpa using this
        have hr' : toSizeT ((id % K ^ (n + 1) : Nat) : Int) = id % K ^ (n + 1) := by
          apply toSizeT_natCast
          have : id % K ^ (n + 1) < 18446744073709551616 := by omega
          simpa using this
        rw [hq', hr', hstate, ← hl1 (id / K ^ (n + 1))]
        obtain ⟨done', id', h1, h2, h3, h4⟩ := ih (done ++ [id / K ^ (n + 1)])
          (id % K ^ (n + 1)) (by rw [hl1]; omega) (by rw [hl1]; omega)
          (by
            rw [hl1, e2]
            have : K ^ (n + 1) ≤ K * geom K (n + 1) := by
              rw [hpow, Nat.mul_comm]; exact Nat.mul_le_mul_left _ (by omega)
            omega)
        refine ⟨done', id', h1, h2, h3, ?_⟩
        rw [h4, hl1, e2, hn, windowValue_snoc]
        generalize id / K ^ (n + 1) = q at hdm ⊢
        generalize id % K ^ (n + 1) = r at hdm ⊢
        rw [← hdm, hpow2]
        congr 1; ring
    · refine ⟨done, id, ?_, hlt, by omega, rfl⟩
      simp [hKa, hgt]

theorem id_to_state_spec {m : Recomodel} {K H : Nat} (hb : Built m K H) (hK : 1 ≤ K)
    (hH : 1 ≤ H) (hfit : fitsInt K H) (i : Nat) (hi : i < nodeCount K H) :
    ∃ done n id', done.length + n + 1 = H ∧ id' ≤ K ∧
      m.id_to_state i = some ((done ++ List.replicate n 0) ++ [id']) ∧
      (windowValue K done * K ^ (n + 1) + id') % 2 ^ 64 = i := by
  have hN := nodeCount_eq K H
  have hf : nodeCount K H < 2147483648 := by simpa [fitsInt] using hfit
  have hHm : m.hlength = H := hb.2.1
  obtain ⟨done, id', h1, h2, h3, h4⟩ :=
    id_to_state_loop_spec hb hK hfit H [] i (by simpa using hH) (by simp) (by simp; omega)
  obtain ⟨n, hn⟩ : ∃ n, H - done.length = n + 1 := ⟨H - done.length - 1, by omega⟩
  refine ⟨done, n, id', by omega, h3, ?_, ?_⟩
  · simp only [List.length_nil, Nat.sub_zero, List.nil_append] at h1
    have hidx : H - 1 = done.length + n := by omega
    have hlen : done.length + n < (done ++ List.replicate (n + 1) 0).length := by simp
    rw [id_to_state, hHm, h1]
    simp only [hn, hidx, hlen, if_true, set_last_zeros]
  · rw [hn] at h4
    rw [h4]
    simp only [windowValue, List.length_nil, Nat.sub_zero, Nat.zero_mul, Nat.zero_add]
    have : i < 18446744073709551616 := by omega
    simpa using Nat.mod_eq_of_lt this

/-- C2: for every node id `i` in `[0, N)`, `state_to_id(id_to_state(i)) == i`. -/
theorem state_to_id_id_to_state (m : Recomodel) (K H : Nat) (hb : Built m K H) (hK : 2 ≤ K)
    (hH : 1 ≤ H) (hfit : fitsInt K H) (i : Nat) (hi : i < nodeCount K H) :
    (m.id_to_state i).bind m.state_to_id = some i := by
  obtain ⟨done, n, id', hl, _, hs, hv⟩ := id_to_state_spec hb (by omega) hH hfit i hi
  rw [hs, Option.some_bind, state_to_id_eq hb _ (by simp; omega), windowValue_snoc,
    windowValue_append, windowValue_replicate_zero, List.length_replicate, Nat.add_zero,
    Nat.mul_assoc, ← pow_succ, hv]

theorem state_to_id_id_to_state_witness :
    Built (create 31 2 1 4 false) 2 4 ∧ fitsInt 2 4 ∧ 3 < nodeCount 2 4 ∧
      ((create 31 2 1 4 false).id_to_state 3).bind (create 31 2 1 4 false).state_to_id
        = some 3 :=
  ⟨by decide, by decide, by decide,
    state_to_id_id_to_state (create 31 2 1 4 false) 2 4 (by decide) (by decide) (by decide)
      (by decide) 3 (by decide)⟩

/-- C1 fails on the code: with `K = 2`, `H = 4` the valid window `[0, 0, 1, 1]` has id 3,
and `id_to_state 3` is `[2 ^ 64 - 1, 2, 1, 1]`. -/
theorem id_to_state_state_to_id_fails :
    validWindow 2 4 [0, 0, 1, 1] ∧
      (create 31 2 1 4 false).state_to_id [0, 0, 1, 1] = some 3 ∧
      (create 31 2 1 4 false).id_to_state 3 = some [18446744073709551615, 2, 1, 1] ∧
      ((create 31 2 1 4 false).state_to_id [0, 0, 1, 1]).bind (create 31 2 1 4 false).id_to_state
        ≠ some [0, 0, 1, 1] := by
  decide

theorem Built.pows_zero {m : Recomodel} {K H : Nat} (hb : Built m K H) (hH : 2 ≤ H) :
    m.pows[0]? = some (K ^ (H - 1)) := by
  simpa using hb.pows_get (show 0 < H by omega)

theorem Built.acpows_one {m : Recomodel} {K H : Nat} (hb : Built m K H) (hH : 2 ≤ H) :
    m.acpows[1]? = some (geom K (H - 1)) :=
  hb.acpows_get (show 1 < H by omega)

theorem next_state_eq {m : Recomodel} {K H : Nat} (hb : Built m K H) (hK : 1 ≤ K) (hH : 2 ≤ H)
    (state item : Nat) :
    m.next_state state item = some (suffixValue K H state * K + item + 1) := by
  have hp : K ^ (H - 1) ≠ 0 := (pow_pos (by omega) _).ne'
  have hKa : m.n_actions = K := hb.1
  simp only [next_state, hb.pows_zero hH, hb.acpows_one hH, hp, if_false, suffixValue, hKa]
  split <;> rfl

/-- The facts on `P = K ^ (H - 1)` and `A = geom K (H - 1)` behind the id arithmetic:
`K * A + 1 = A + P`, and `1 ≤ A ≤ P` once `K ≥ 2` and `H ≥ 2`. -/
theorem weights_facts (K H : Nat) (hK : 2 ≤ K) (hH : 2 ≤ H) :
    K * geom K (H - 1) + 1 = geom K (H - 1) + K ^ (H - 1) ∧ 1 ≤ geom K (H - 1) ∧
      geom K (H - 1) ≤ K ^ (H - 1) ∧ nodeCount K H = K * (geom K (H - 1) + K ^ (H - 1)) + 1 := by
  obtain ⟨n, rfl⟩ : ∃ n, H = n + 2 := ⟨H - 2, by omega⟩
  have h1 : geom K (n + 2) = K * geom K (n + 1) + 1 := geom_succ_mul K (n + 1)
  have h2 : geom K (n + 2) = geom K (n + 1) + K ^ (n + 1) := geom_succ_add K (n + 1)
  have h3 : 0 < geom K (n + 1) := geom_pos K n
  have h4 : 2 * geom K (n + 1) ≤ K * geom K (n + 1) := Nat.mul_le_mul_right _ hK
  have h5 : nodeCount K (n + 2) = K * geom K (n + 2) + 1 := nodeCount_eq K (n + 2)
  simp only [Nat.add_sub_cancel, show n + 2 - 1 = n + 1 from rfl]
  refine ⟨by omega, by omega, by omega, ?_⟩
  rw [h5, h2]

theorem suffixValue_le (K H : Nat) (hK : 2 ≤ K) (hH : 2 ≤ H) (state : Nat) :
    suffixValue K H state ≤ K * geom K (H - 1) := by
  obtain ⟨h1, h2, h3, _⟩ := weights_facts K H hK hH
  have hm : state % K ^ (H - 1) < K ^ (H - 1) := Nat.mod_lt _ (by omega)
  unfold suffixValue
  split
  · omega
  · omega

theorem suffixValue_window {K H : Nat} (hK : 2 ≤ K) (hH : 1 ≤ H) {d : Nat} {s : List Nat}
    (hv : validWindow K (H + 1) (d :: s)) :
    suffixValue K (H + 1) (windowValue K (d :: s)) = windowValue K s := by
  obtain ⟨h1, h2, h3, _⟩ := weights_facts K (H + 1) hK (by omega)
  simp only [Nat.add_sub_cancel] at h1 h2 h3
  have hl : s.length = H := by simpa using hv.1
  have hb := valid_bound (validWindow_tail hv)
  have hmod : (d * K ^ H + windowValue K s) % K ^ H = windowValue K s % K ^ H := by
    rw [Nat.add_comm, Nat.add_mul_mod_self_right]
  have hlow : d ≠ 0 → geom K H ≤ windowValue K s := by
    intro hd
    obtain ⟨_, _, hf⟩ := (validWindow_cons_pos hd).mp hv
    simpa [hl] using (full_bounds K s hf).1
  have hdP : d ≠ 0 → K ^ H ≤ d * K ^ H := fun hd =>
    Nat.le_mul_of_pos_left _ (Nat.pos_of_ne_zero hd)
  have hd0 : d = 0 → d * K ^ H = 0 := fun hd => by rw [hd, Nat.zero_mul]
  simp only [suffixValue, windowValue, hl, Nat.add_sub_cancel, hmod]
  by_cases hw : windowValue K s < K ^ H
  · rw [Nat.mod_eq_of_lt hw]
    by_cases hd : d = 0
    · have := hd0 hd
      rw [if_pos (by omega)]
    · have := hlow hd
      rw [if_pos (by omega)]
  · have hsub : windowValue K s % K ^ H = windowValue K s - K ^ H := by
      rw [Nat.mod_eq_sub_mod (by omega), Nat.mod_eq_of_lt (by omega)]
    rw [hsub, if_neg (by omega)]
    omega

/-- C4: `next_state` appends the item to the window: from the id of a valid window `seq`
it leads to the id of `seq` without its first slot, followed by the digit `item + 1`. -/
theorem next_state_appends (m : Recomodel) (K H : Nat) (hb : Built m K H) (hK : 2 ≤ K)
    (hH : 2 ≤ H) (hfit : fitsInt K H) (seq : List Nat) (hv : validWindow K H seq) (item : Nat)
    (hitem : item < K) :
    validWindow K H (seq.tail ++ [item + 1]) ∧
      ∃ id id', m.state_to_id seq = some id ∧ m.next_state id item = some id' ∧
        m.state_to_id (seq.tail ++ [item + 1]) = some id' := by
  obtain ⟨H, rfl⟩ : ∃ n, H = n + 1 := ⟨H - 1, by omega⟩
  cases seq with
  | nil => have := hv.1; simp at this
  | cons d s =>
    have hv' : validWindow K (H + 1) (s ++ [item + 1]) :=
      validWindow_snoc (validWindow_tail hv) (by omega) (by omega)
    refine ⟨hv', windowValue K (d :: s), windowValue K (s ++ [item + 1]),
      (state_to_id_valid hb hfit hv).1, ?_, (state_to_id_valid hb hfit hv').1⟩
    rw [next_state_eq hb (by omega) hH, suffixValue_window hK (by omega) hv, windowValue_snoc]
    rfl

theorem next_state_appends_witness :
    validWindow 2 3 ([1, 2, 1].tail ++ [1 + 1]) ∧
      ∃ id id', (create 15 2 1 3 false).state_to_id [1, 2, 1] = some id ∧
        (create 15 2 1 3 false).next_state id 1 = some id' ∧
        (create 15 2 1 3 false).state_to_id ([1, 2, 1].tail ++ [1 + 1]) = some id' :=
  next_state_appends (create 15 2 1 3 false) 2 3 (by decide) (by decide) (by decide) (by decide)
    [1, 2, 1] (by decide) 1 (by decide)

/-! ## Tree navigation and the table-driven queries -/

theorem suffixValue_eq_iff (K H : Nat) (hK : 2 ≤ K) (hH : 2 ≤ H) (p pre : Nat)
    (hp : p < nodeCount K H) (hpre : pre < geom K (H - 1) + K ^ (H - 1)) :
    suffixValue K H p = pre ↔
      (pre < geom K (H - 1) ∧ p = pre) ∨
        (geom K (H - 1) ≤ pre ∧ ∃ a, a ≤ K ∧ p = pre + a * K ^ (H - 1)) := by
  obtain ⟨h1, h2, h3, h4⟩ := weights_facts K H hK hH
  rw [h4, Nat.mul_add] at hp
  unfold suffixValue
  generalize geom K (H - 1) = A at *
  generalize K ^ (H - 1) = P at *
  have hP : 0 < P := by omega
  have hdm := Nat.div_add_mod p P
  have hml := Nat.mod_lt p hP
  constructor
  · intro hs
    by_cases hpa : pre < A
    · left
      refine ⟨hpa, ?_⟩
      split at hs
      · rename_i hc
        rcases hc with hc | hc
        · omega
        · rw [Nat.mod_eq_of_lt hc] at hs; exact hs
      · omega
    · right
      refine ⟨by omega, ?_⟩
      split at hs
      · refine ⟨p / P, ?_, ?_⟩
        · by_contra hq
          have : P * (K + 1) ≤ P * (p / P) := Nat.mul_le_mul_left _ (by omega)
          rw [Nat.mul_add, Nat.mul_comm P K] at this
          omega
        · rw [Nat.mul_comm]; omega
      · rename_i hc
        have hc' : p % P < A ∧ P ≤ p := by omega
        have hq1 : 1 ≤ p / P := (Nat.one_le_div_iff hP).mpr hc'.2
        refine ⟨p / P - 1, ?_, ?_⟩
        · by_contra hq
          have : P * (K + 2) ≤ P * (p / P) := Nat.mul_le_mul_left _ (by omega)
          rw [Nat.mul_add, Nat.mul_comm P K] at this
          omega
        · have : P * (p / P) = (p / P - 1) * P + P := by
            rw [Nat.mul_comm, ← Nat.succ_mul]; congr 1; omega
          omega
  · rintro (⟨hpa, rfl⟩ | ⟨hpa, a, ha, rfl⟩)
    · rw [Nat.mod_eq_of_lt (by omega), if_pos (Or.inr (by omega))]
    · have hmod : (pre + a * P) % P = pre % P := Nat.add_mul_mod_self_right _ _ _
      rw [hmod]
      by_cases hw : pre < P
      · rw [Nat.mod_eq_of_lt hw, if_pos (Or.inl hpa)]
      · have hsub : pre % P = pre - P := by
          rw [Nat.mod_eq_sub_mod (by omega), Nat.mod_eq_of_lt (by omega)]
        have : P ≤ pre + a * P := by omega
        rw [hsub, if_neg (by omega)]
        omega

theorem exists_item_iff (K : Nat) (hK : 1 ≤ K) (x node : Nat) (hnode : node ≠ 0) :
    (∃ item, item < K ∧ x * K + item + 1 = node) ↔ x = (node - 1) / K := by
  have hdm := Nat.div_add_mod (node - 1) K
  have hml := Nat.mod_lt (node - 1) hK
  constructor
  · rintro ⟨item, hi, rfl⟩
    have : x * K + item + 1 - 1 = item + K * x := by rw [Nat.mul_comm]; omega
    rw [this, Nat.add_mul_div_left _ _ hK, Nat.div_eq_of_lt hi, Nat.zero_add]
  · intro hx
    refine ⟨(node - 1) % K, hml, ?_⟩
    rw [hx, Nat.mul_comm]
    omega

theorem prefix_eq (K : Nat) (hK : 1 ≤ K) (node : Nat) (hnode : node ≠ 0) :
    (if node % K = 0 then node / K - 1 else node / K) = (node - 1) / K ∧
      (node % K = 0 → 1 ≤ node / K) := by
  have hdm := Nat.div_add_mod node K
  have hml := Nat.mod_lt node hK
  have key : ∀ q r, r < K → K * q + r = node - 1 → (node - 1) / K = q := by
    intro q r hr he
    rw [← he, Nat.add_comm, Nat.add_mul_div_left _ _ hK, Nat.div_eq_of_lt hr, Nat.zero_add]
  by_cases h0 : node % K = 0
  · have hq : 1 ≤ node / K := by
      rcases Nat.eq_zero_or_pos (node / K) with hc | hc
      · rw [hc, Nat.mul_zero] at hdm
        omega
      · exact hc
    refine ⟨?_, fun _ => hq⟩
    rw [if_pos h0]
    refine (key (node / K - 1) (K - 1) (by omega) ?_).symm
    have : K * (node / K) = K * (node / K - 1) + K := by
      rw [← Nat.mul_succ]; congr 1; omega
    omega
  · refine ⟨?_, fun h => absurd h h0⟩
    rw [if_neg h0]
    exact (key (node / K) (node % K - 1) (by omega) (by omega)).symm

theorem prefix_lt (K H : Nat) (hK : 2 ≤ K) (hH : 2 ≤ H) (node : Nat)
    (hnode : node < nodeCount K H) : (node - 1) / K < geom K (H - 1) + K ^ (H - 1) := by
  obtain ⟨_, _, _, h4⟩ := weights_facts K H hK hH
  rw [Nat.div_lt_iff_lt_mul (by omega)]
  have : K * (geom K (H - 1) + K ^ (H - 1)) = (geom K (H - 1) + K ^ (H - 1)) * K :=
    Nat.mul_comm _ _
  have hpos : 0 < K * (geom K (H - 1) + K ^ (H - 1)) := Nat.mul_pos (by omega) (by omega)
  omega

theorem previous_states_eq {m : Recomodel} {K H : Nat} (hb : Built m K H) (hK : 2 ≤ K)
    (hH : 2 ≤ H) (hfit : fitsInt K H) (node : Nat) (hnode : node < nodeCount K H)
    (h0 : node ≠ 0) :
    m.previous_states node = some
      (if (node - 1) / K < geom K (H - 1) then [(node - 1) / K]
       else (List.range (K + 1)).map fun a => (node - 1) / K + a * K ^ (H - 1)) := by
  have hKa : m.n_actions = K := hb.1
  have hf : nodeCount K H < 2147483648 := by simpa [fitsInt] using hfit
  obtain ⟨h1, h2, h3, h4⟩ := weights_facts K H hK hH
  have hpl := prefix_lt K H hK hH node hnode
  obtain ⟨hpre, hq1⟩ := prefix_eq K (by omega) node h0
  have hprefix : (if ((node % K : Nat) : Int) = 0 then ((node / K : Nat) : Int) - 1
      else ((node / K : Nat) : Int)) = (((node - 1) / K : Nat) : Int) := by
    rw [← hpre]
    by_cases hr : node % K = 0
    · have := hq1 hr
      simp only [hr, Nat.cast_zero, if_true]
      omega
    · have hr' : ((node % K : Nat) : Int) ≠ 0 := by exact_mod_cast hr
      simp only [hr, hr', if_false]
  rw [h4, Nat.mul_add] at hf
  simp only [previous_states, hKa, div_natCast node K (by omega), hprefix, h0, if_false,
    hb.pows_zero hH, hb.acpows_one hH, Nat.cast_lt]
  have hs : toSizeT ((((node - 1) / K : Nat)) : Int) = (node - 1) / K :=
    toSizeT_natCast _ (by
      have : (node - 1) / K < 18446744073709551616 := by omega
      simpa using this)
  by_cases hlt : (node - 1) / K < geom K (H - 1)
  · simp only [hlt, if_true, hs]
  · simp only [hlt, if_false]
    congr 1
    apply List.map_congr_left
    intro a ha
    have ha' : a ≤ K := by have := List.mem_range.mp ha; omega
    have hmul : a * K ^ (H - 1) ≤ K * K ^ (H - 1) := Nat.mul_le_mul_right _ ha'
    rw [← Nat.cast_mul, ← Nat.cast_add]
    apply toSizeT_natCast
    have : (node - 1) / K + a * K ^ (H - 1) < 18446744073709551616 := by omega
    simpa using this

theorem previous_states_zero {m : Recomodel} {K H : Nat} (hb : Built m K H) (hK : 2 ≤ K) :
    m.previous_states 0 = some [] := by
  have hKa : m.n_actions = K := hb.1
  simp only [previous_states, hKa, div_natCast 0 K (by omega), if_true]

/-- C5: `previous_states` inverts `next_state`: for node ids `node`, `p` below `N`, `p` is
listed by `previous_states(node)` if and only if some item leads from `p` to `node`;
the root has no parents. -/
theorem previous_states_inverts_next_state (m : Recomodel) (K H : Nat) (hb : Built m K H)
    (hK : 2 ≤ K) (hH : 2 ≤ H) (hfit : fitsInt K H) (node p : Nat)
    (hnode : node < nodeCount K H) (hp : p < nodeCount K H) :
    (∃ prev, m.previous_states node = some prev ∧
        (p ∈ prev ↔ ∃ item, item < K ∧ m.next_state p item = some node)) ∧
      m.previous_states 0 = some [] := by
  refine ⟨?_, previous_states_zero hb hK⟩
  by_cases h0 : node = 0
  · subst h0
    refine ⟨[], previous_states_zero hb hK, ?_⟩
    simp only [List.not_mem_nil, false_iff, not_exists, not_and]
    intro item _
    rw [next_state_eq hb (by omega) hH]
    simp
  · refine ⟨_, previous_states_eq hb hK hH hfit node hnode h0, ?_⟩
    have hpl := prefix_lt K H hK hH node hnode
    have hnext : (∃ item, item < K ∧ m.next_state p item = some node) ↔
        suffixValue K H p = (node - 1) / K := by
      rw [← exists_item_iff K (by omega) (suffixValue K H p) node h0]
      simp only [next_state_eq hb (by omega : 1 ≤ K) hH, Option.some.injEq]
    rw [hnext, suffixValue_eq_iff K H hK hH p _ hp hpl]
    by_cases hlt : (node - 1) / K < geom K (H - 1)
    · simp only [hlt, if_true, List.mem_singleton, true_and]
      constructor
      · intro h; exact Or.inl h
      · rintro (h | ⟨h, _⟩)
        · exact h
        · omega
    · simp only [hlt, if_false, List.mem_map, List.mem_range, false_and, false_or]
      constructor
      · rintro ⟨a, ha, rfl⟩
        exact ⟨by omega, a, by omega, rfl⟩
      · rintro ⟨_, a, ha, rfl⟩
        exact ⟨a, by omega, rfl⟩

theorem previous_states_inverts_next_state_witness :
    (∃ prev, (create 7 2 1 2 false).previous_states 5 = some prev ∧
        (4 ∈ prev ↔ ∃ item, item < 2 ∧ (create 7 2 1 2 false).next_state 4 item = some 5)) ∧
      (create 7 2 1 2 false).previous_states 0 = some [] :=
  previous_states_inverts_next_state (create 7 2 1 2 false) 2 2 (by decide) (by decide)
    (by decide) (by decide) 5 4 (by decide) (by decide)

theorem last_eq (K : Nat) (hK : 1 ≤ K) (node : Nat) (hnode : node ≠ 0) :
    (if node % K = 0 then K - 1 else node % K - 1) = (node - 1) % K := by
  have hdm := Nat.div_add_mod node K
  have hml := Nat.mod_lt node hK
  have key : ∀ q r, r < K → K * q + r = node - 1 → (node - 1) % K = r := by
    intro q r hr he
    rw [← he, Nat.mul_add_mod, Nat.mod_eq_of_lt hr]
  by_cases h0 : node % K = 0
  · have hq : 1 ≤ node / K := (prefix_eq K hK node hnode).2 h0
    rw [if_pos h0]
    refine (key (node / K - 1) (K - 1) (by omega) ?_).symm
    have : K * (node / K) = K * (node / K - 1) + K := by
      rw [← Nat.mul_succ]; congr 1; omega
    omega
  · rw [if_neg h0]
    exact (key (node / K) (node % K - 1) (by omega) (by omega)).symm

theorem Built.get_rep_lt {m : Recomodel} {K H : Nat} (hb : Built m K H) (s : Nat) :
    m.get_rep s < nodeCount K H := by
  have hN : m.n_observations = nodeCount K H := hb.2.2.1
  have := nodeCount_eq K H
  rw [get_rep, hN]
  exact Nat.mod_lt _ (by omega)

theorem Built.node_of_state {m : Recomodel} {K H : Nat} (hb : Built m K H) {s : Nat}
    (hs : s < m.n_states) : (if m.is_mdp then s else m.get_rep s) = m.get_rep s := by
  have hS : m.n_states = _ := hb.2.2.2.1
  by_cases hm : m.is_mdp = true
  · simp only [hm, if_true] at hS ⊢
    rw [get_rep, Nat.mod_eq_of_lt (by omega)]
  · simp [hm]

theorem is_connected_eq {m : Recomodel} {K H : Nat} (hb : Built m K H) (hK : 2 ≤ K)
    (hH : 2 ≤ H) (hfit : fitsInt K H) (s1 s2 : Nat) (hs1 : s1 < m.n_states)
    (hs2 : s2 < m.n_states) :
    m.is_connected s1 s2 = some (linkOf m K H s1 s2) := by
  have hKa : m.n_actions = K := hb.1
  have hf : nodeCount K H < 2147483648 := by simpa [fitsInt] using hfit
  obtain ⟨h1, h2, h3, h4⟩ := weights_facts K H hK hH
  have hp : K ^ (H - 1) ≠ 0 := by omega
  unfold linkOf
  by_cases henv : m.get_env s1 = m.get_env s2
  · simp only [is_connected, henv, ne_eq, not_true_eq_false, if_false, hb.node_of_state hs1,
      hb.node_of_state hs2, hb.pows_zero hH, hb.acpows_one hH, hp, hKa,
      div_natCast _ K (by omega : K ≠ 0), true_and]
    have hsuf : (if ((m.get_rep s1 % K ^ (H - 1) : Nat) : Int) ≥ ((geom K (H - 1) : Nat) : Int) ∨
          m.get_rep s1 < K ^ (H - 1)
        then ((m.get_rep s1 % K ^ (H - 1) : Nat) : Int) - ((geom K (H - 1) : Nat) : Int)
        else ((m.get_rep s1 % K ^ (H - 1) : Nat) : Int) + ((K ^ (H - 1) : Nat) : Int) -
          ((geom K (H - 1) : Nat) : Int)) =
        ((suffixValue K H (m.get_rep s1) : Nat) : Int) - ((geom K (H - 1) : Nat) : Int) := by
      unfold suffixValue
      by_cases hc : m.get_rep s1 % K ^ (H - 1) ≥ geom K (H - 1) ∨ m.get_rep s1 < K ^ (H - 1)
      · have hc' : ((m.get_rep s1 % K ^ (H - 1) : Nat) : Int) ≥ ((geom K (H - 1) : Nat) : Int) ∨
            m.get_rep s1 < K ^ (H - 1) := by
          rcases hc with hc | hc
          · left; exact_mod_cast hc
          · right; exact hc
        rw [if_pos hc, if_pos hc']
      · have hc' : ¬ (((m.get_rep s1 % K ^ (H - 1) : Nat) : Int) ≥
            ((geom K (H - 1) : Nat) : Int) ∨ m.get_rep s1 < K ^ (H - 1)) := by
          intro h
          apply hc
          rcases h with h | h
          · left; exact_mod_cast h
          · right; exact h
        rw [if_neg hc, if_neg hc']
        push_cast
        ring
    rw [hsuf]
    clear hsuf
    have hn2 := hb.get_rep_lt s2
    have hK64 : K < 18446744073709551616 := by
      have : K * 1 ≤ K * (geom K (H - 1) + K ^ (H - 1)) := Nat.mul_le_mul_left _ (by omega)
      omega
    generalize suffixValue K H (m.get_rep s1) = sv
    generalize m.get_rep s2 = n2 at hn2 ⊢
    generalize geom K (H - 1) = A
    by_cases h0 : n2 = 0
    · subst h0
      simp only [Nat.zero_mod, Nat.zero_div, Nat.cast_zero, if_true, not_true_eq_false, false_and,
        if_false]
      rw [if_neg (by omega)]
    · obtain ⟨hpre, hq1⟩ := prefix_eq K (by omega) n2 h0
      have hlast := last_eq K (by omega) n2 h0
      have hml := Nat.mod_lt n2 (by omega : 0 < K)
      rw [← hpre, ← hlast]
      by_cases hr : n2 % K = 0
      · have hq := hq1 hr
        have hts : toSizeT ((K : Int) - 1) = K - 1 := by unfold toSizeT; omega
        simp only [hr, Nat.cast_zero, if_true, hts, h0, not_false_eq_true, true_and]
        by_cases he : sv = n2 / K - 1
        · rw [if_pos he, if_pos (by omega)]
        · rw [if_neg he, if_neg (by omega)]
      · have hr' : ((n2 % K : Nat) : Int) ≠ 0 := by exact_mod_cast hr
        have hts : toSizeT (((n2 % K : Nat) : Int) - 1) = n2 % K - 1 := by
          unfold toSizeT; omega
        simp only [hr, hr', if_false, hts, h0, not_false_eq_true, true_and]
        by_cases he : sv = n2 / K
        · rw [if_pos he, if_pos (by omega)]
        · rw [if_neg he, if_neg (by omega)]
  · simp only [is_connected, henv, ne_eq, not_false_eq_true, if_true, hKa, false_and, if_false]

theorem link_iff (K : Nat) (hK : 1 ≤ K) (sv a n2 : Nat) (ha : a < K) :
    sv * K + a + 1 = n2 ↔ n2 ≠ 0 ∧ sv = (n2 - 1) / K ∧ (n2 - 1) % K = a := by
  constructor
  · rintro rfl
    have e : sv * K + a + 1 - 1 = a + K * sv := by rw [Nat.mul_comm]; omega
    refine ⟨by omega, ?_, ?_⟩
    · rw [e, Nat.add_mul_div_left _ _ hK, Nat.div_eq_of_lt ha, Nat.zero_add]
    · rw [e, Nat.add_mul_mod_self_left, Nat.mod_eq_of_lt ha]
  · rintro ⟨h0, hsv, hmod⟩
    have hdm := Nat.div_add_mod (n2 - 1) K
    rw [hsv, ← hmod, Nat.mul_comm]
    omega

theorem linkOf_le (m : Recomodel) (K H s1 s2 : Nat) (hK : 1 ≤ K) : linkOf m K H s1 s2 ≤ K := by
  unfold linkOf
  split
  · exact (Nat.mod_lt _ hK).le
  · exact Nat.le_refl _

theorem linkOf_eq_iff {m : Recomodel} {K H : Nat} (hb : Built m K H) (hK : 2 ≤ K) (hH : 2 ≤ H)
    (s1 s2 a : Nat) (ha : a < K) :
    linkOf m K H s1 s2 = a ↔
      m.get_env s1 = m.get_env s2 ∧ m.next_state (m.get_rep s1) a = some (m.get_rep s2) := by
  rw [next_state_eq hb (by omega) hH, Option.some.injEq, link_iff K (by omega) _ _ _ ha]
  unfold linkOf
  constructor
  · intro h
    split at h
    · rename_i hc
      exact ⟨hc.1, hc.2.1, hc.2.2, h⟩
    · omega
  · rintro ⟨h1, h2, h3, h4⟩
    rw [if_pos ⟨h1, h2, h3⟩, h4]

/-- C6: `is_connected(s1, s2)` is the action `a` exactly when both states have the same
environment and `next_state` leads from the node of `s1` to the node of `s2` by `a`; when no
action does, it is the sentinel `K`. -/
theorem is_connected_iff_next_state (m : Recomodel) (K H : Nat) (hb : Built m K H) (hK : 2 ≤ K)
    (hH : 2 ≤ H) (hfit : fitsInt K H) (s1 s2 a : Nat) (hs1 : s1 < m.n_states)
    (hs2 : s2 < m.n_states) (ha : a < K) :
    (m.is_connected s1 s2 = some a ↔
        m.get_env s1 = m.get_env s2 ∧
          m.next_state (m.get_rep s1) a = some (m.get_rep s2)) ∧
      ((¬ ∃ b, b < K ∧ m.get_env s1 = m.get_env s2 ∧
            m.next_state (m.get_rep s1) b = some (m.get_rep s2)) →
        m.is_connected s1 s2 = some K) := by
  rw [is_connected_eq hb hK hH hfit s1 s2 hs1 hs2, Option.some.injEq]
  refine ⟨linkOf_eq_iff hb hK hH s1 s2 a ha, ?_⟩
  intro hno
  have hle := linkOf_le m K H s1 s2 (by omega)
  rcases Nat.lt_or_ge (linkOf m K H s1 s2) K with hlt | hge
  · exact absurd ⟨_, hlt, (linkOf_eq_iff hb hK hH s1 s2 _ hlt).mp rfl⟩ hno
  · congr 1; omega

theorem is_connected_iff_next_state_witness :
    ((create 7 2 2 2 false).is_connected 8 11 = some 1 ↔
        (create 7 2 2 2 false).get_env 8 = (create 7 2 2 2 false).get_env 11 ∧
          (create 7 2 2 2 false).next_state ((create 7 2 2 2 false).get_rep 8) 1 =
            some ((create 7 2 2 2 false).get_rep 11)) ∧
      ((¬ ∃ b, b < 2 ∧ (create 7 2 2 2 false).get_env 8 = (create 7 2 2 2 false).get_env 11 ∧
            (create 7 2 2 2 false).next_state ((create 7 2 2 2 false).get_rep 8) b =
              some ((create 7 2 2 2 false).get_rep 11)) →
        (create 7 2 2 2 false).is_connected 8 11 = some 2) :=
  is_connected_iff_next_state (create 7 2 2 2 false) 2 2 (by decide) (by decide) (by decide)
    (by decide) 8 11 1 (by decide) (by decide) (by decide)

theorem Built.get_env_lt {m : Recomodel} {K H : Nat} (hb : Built m K H) {s : Nat}
    (hs : s < m.n_states) :
    m.get_env s < (if m.is_mdp then 1 else m.n_environments) ∧
      (m.is_mdp = true → m.get_env s = 0 ∧ m.get_rep s = s) := by
  have hS : m.n_states = _ := hb.2.2.2.1
  have hN : m.n_observations = nodeCount K H := hb.2.2.1
  have hpos : 0 < m.n_observations := by rw [hN, nodeCount_eq]; omega
  cases hm : m.is_mdp with
  | true =>
    rw [hm] at hS
    simp only [if_true] at hS ⊢
    have h0 : m.get_env s = 0 := Nat.div_eq_of_lt (by omega)
    exact ⟨by omega, fun _ => ⟨h0, Nat.mod_eq_of_lt (by omega)⟩⟩
  | false =>
    rw [hm] at hS
    simp only [Bool.false_eq_true, if_false] at hS ⊢
    refine ⟨?_, fun h => absurd h (by simp)⟩
    rw [get_env, Nat.div_lt_iff_lt_mul hpos]
    omega

theorem offset_lt (m : Recomodel) (P env s a link : Nat) (henv : env < P)
    (hs : s < m.n_observations) (ha : a < m.n_actions) (hl : link < m.n_actions) :
    m.offset env s a link < P * m.n_observations * m.n_actions * m.n_actions := by
  unfold offset
  generalize m.n_observations = N at *
  generalize m.n_actions = K at *
  have h1 : N * (env + 1) ≤ N * P := Nat.mul_le_mul_left _ henv
  have h2 : K * (s + N * env + 1) ≤ K * (N * P) := Nat.mul_le_mul_left _ (by
    rw [Nat.mul_add] at h1; omega)
  have h3 : K * (a + K * (s + N * env) + 1) ≤ K * (K * (N * P)) := Nat.mul_le_mul_left _ (by
    rw [Nat.mul_add] at h2; omega)
  have h4 : P * N * K * K = K * (K * (N * P)) := by ring
  rw [h4]
  rw [Nat.mul_add] at h3
  omega

theorem toInt_of_lt (n : Nat) (h : n < 2147483648) : toInt n = (n : Int) := by
  unfold toInt
  rw [Nat.mod_eq_of_lt (by omega : n < 4294967296), if_pos h]

theorem index_eq_offset (m : Recomodel) (env s a link : Nat)
    (h : m.offset env s a link < 2 ^ 31) :
    m.index env s a link = (m.offset env s a link : Int) := by
  have h' : m.offset env s a link < 2147483648 := by simpa using h
  unfold index
  unfold offset at h'
  rw [Nat.mod_eq_of_lt (by omega)]
  exact toInt_of_lt _ h'

theorem cell_natCast (table : List ℚ) (n : Nat) : cell table (n : Int) = table[n]? := by
  unfold cell
  rw [if_neg (by omega), Int.toNat_ofNat]

theorem offset_fits (m : Recomodel) (env s a link : Nat) (hfit : fitsTable m)
    (henv : env < profileCount m) (hs : s < m.n_observations) (ha : a < m.n_actions)
    (hl : link < m.n_actions) : m.offset env s a link < 2 ^ 31 :=
  lt_of_lt_of_le (offset_lt m _ env s a link henv hs ha hl) hfit

/-- The read at `index(env, s, a, link)` is the read of the cell at the offset of the
tuple, when that offset fits an `int`. -/
theorem cell_index (m : Recomodel) (table : List ℚ) (env s a link : Nat)
    (h : m.offset env s a link < 2 ^ 31) :
    cell table (m.index env s a link) = table[m.offset env s a link]? := by
  rw [index_eq_offset m env s a link h, cell_natCast]

/-- Beyond `fitsTable` the offset no longer fits the `int` that `index` returns: for
`K = 100`, `H = 2` (`N = 10101`) and 22 environments the table has 2222220000 cells, and
the offset 2222219999 of its last cell comes back negative, outside the table. -/
theorem index_beyond_int :
    ¬ fitsTable (create 10101 100 22 2 false) ∧
      (create 10101 100 22 2 false).offset 21 10100 99 99 = 2222219999 ∧
      (create 10101 100 22 2 false).index 21 10100 99 99 = -2072747297 ∧
      ∀ table : List ℚ, cell table ((create 10101 100 22 2 false).index 21 10100 99 99) = none := by
  have h : (create 10101 100 22 2 false).index 21 10100 99 99 = -2072747297 := by decide
  refine ⟨by decide, by decide, h, fun table => ?_⟩
  rw [h]
  rfl

/-- C8: `getExpectedReward(s1, a, s2)` is `rewards[a]` when `is_connected(s1, s2) == a` and 0
otherwise; it is non-zero only when `s2` is the successor of `s1` under `a` in the same
environment. -/
theorem getExpectedReward_spec (m : Recomodel) (K H : Nat) (hb : Built m K H)
    (hK : 2 ≤ K) (hH : 2 ≤ H) (hfit : fitsInt K H) (hrew : m.rewards.length = m.n_actions)
    (s1 s2 a : Nat) (hs1 : s1 < m.n_states) (hs2 : s2 < m.n_states) (ha : a < K) :
    (m.is_connected s1 s2 = some a → ∃ r, m.rewards[a]? = some r ∧
        m.getExpectedReward s1 a s2 = some r) ∧
      (m.is_connected s1 s2 ≠ some a → m.getExpectedReward s1 a s2 = some 0) ∧
      (m.getExpectedReward s1 a s2 ≠ some 0 →
        m.is_connected s1 s2 = some a ∧ m.get_env s1 = m.get_env s2 ∧
          m.next_state (m.get_rep s1) a = some (m.get_rep s2)) := by
  have hKa : m.n_actions = K := hb.1
  have hc := is_connected_eq hb hK hH hfit s1 s2 hs1 hs2
  have hra : a < m.rewards.length := by omega
  have hzero : m.is_connected s1 s2 ≠ some a → m.getExpectedReward s1 a s2 = some 0 := by
    intro hne
    rw [hc, ne_eq, Option.some.injEq] at hne
    simp only [getExpectedReward, hc, ne_eq, hne, not_false_eq_true, if_true]
  refine ⟨?_, hzero, ?_⟩
  · intro he
    rw [hc, Option.some.injEq] at he
    refine ⟨m.rewards[a], List.getElem?_eq_getElem hra, ?_⟩
    simp only [getExpectedReward, hc, he, ne_eq, not_true_eq_false, if_false]
    exact List.getElem?_eq_getElem hra
  · intro hnz
    have hca : m.is_connected s1 s2 = some a := by
      by_contra hne
      exact hnz (hzero hne)
    refine ⟨hca, ?_⟩
    rw [hc, Option.some.injEq] at hca
    exact (linkOf_eq_iff hb hK hH s1 s2 a ha).mp hca

theorem getExpectedReward_spec_witness :
    (scenario.is_connected 1 4 = some 1 → ∃ r,
        scenario.rewards[1]? = some r ∧
        scenario.getExpectedReward 1 1 4 = some r) ∧
      (scenario.is_connected 1 4 ≠ some 1 →
        scenario.getExpectedReward 1 1 4 = some 0) ∧
      (scenario.getExpectedReward 1 1 4 ≠ some 0 →
        scenario.is_connected 1 4 = some 1 ∧
          scenario.get_env 1 = scenario.get_env 4 ∧
          scenario.next_state (scenario.get_rep 1) 1 =
            some (scenario.get_rep 4)) :=
  getExpectedReward_spec scenario 2 2 (by decide) (by decide) (by decide)
    (by decide) (by decide) 1 4 1 (by decide) (by decide) (by decide)

/-- C9: `getObservationProbability(s1, a, o)` is 1 if `o` is the node component of `s1` and 0
otherwise; exactly one `o` in `[0, N)` has probability 1 and the probabilities sum to 1. -/
theorem getObservationProbability_spec (m : Recomodel) (hN : 0 < m.n_observations)
    (s1 a : Nat) :
    (∀ o, m.getObservationProbability s1 a o = if o = s1 % m.n_observations then 1 else 0) ∧
      (∃! o, o < m.n_observations ∧ m.getObservationProbability s1 a o = 1) ∧
      (∑ o in Finset.range m.n_observations, m.getObservationProbability s1 a o) = 1 := by
  have hval : ∀ o, m.getObservationProbability s1 a o =
      if o = s1 % m.n_observations then 1 else 0 := by
    intro o
    unfold getObservationProbability get_rep
    by_cases h : s1 % m.n_observations = o
    · rw [if_pos h, if_pos h.symm]
    · rw [if_neg h, if_neg (fun h' => h h'.symm)]
  have hlt : s1 % m.n_observations < m.n_observations := Nat.mod_lt _ hN
  refine ⟨hval, ⟨s1 % m.n_observations, ⟨hlt, by rw [hval, if_pos rfl]⟩, ?_⟩, ?_⟩
  · rintro o ⟨_, ho⟩
    rw [hval] at ho
    by_contra hne
    rw [if_neg hne] at ho
    exact zero_ne_one ho
  · simp only [hval]
    rw [Finset.sum_ite_eq']
    simp [hlt]

theorem getObservationProbability_spec_witness :
    (∀ o, scenario.getObservationProbability 4 1 o =
        if o = 4 % scenario.n_observations then 1 else 0) ∧
      (∃! o, o < scenario.n_observations ∧ scenario.getObservationProbability 4 1 o = 1) ∧
      (∑ o in Finset.range scenario.n_observations, scenario.getObservationProbability 4 1 o)
        = 1 :=
  getObservationProbability_spec scenario (by decide) 4 1

theorem next_state_lt {m : Recomodel} {K H : Nat} (hb : Built m K H) (hK : 2 ≤ K) (hH : 2 ≤ H)
    (state item : Nat) (hitem : item < K) :
    ∃ o2, m.next_state state item = some o2 ∧ o2 < nodeCount K H ∧
      o2 = suffixValue K H state * K + item + 1 := by
  refine ⟨_, next_state_eq hb (by omega) hH state item, ?_, rfl⟩
  obtain ⟨h1, _, _, h4⟩ := weights_facts K H hK hH
  have hs := suffixValue_le K H hK hH state
  have h5 : suffixValue K H state * K ≤ K * geom K (H - 1) * K := Nat.mul_le_mul_right _ hs
  have h6 : K * (geom K (H - 1) + K ^ (H - 1)) = K * geom K (H - 1) * K + K := by
    rw [← h1, Nat.mul_add, Nat.mul_one, Nat.mul_comm K (K * geom K (H - 1))]
  omega

/-- C10: with the random draw given as `link`, `sampleSR(s, a)` returns `(s2, r)` where `s2`
is a state of the same environment as `s` whose node is `next_state(node(s), link)`, and
`r` is `rewards[link]` if `link == a` and 0 otherwise. -/
theorem sampleSR_spec (m : Recomodel) (K H : Nat) (hb : Built m K H) (hK : 2 ≤ K) (hH : 2 ≤ H)
    (hrew : m.rewards.length = m.n_actions) (s a link : Nat) (hs : s < m.n_states)
    (ha : a < K) (hlink : link < K) :
    ∃ s2 r, m.sampleSR s a link = some (s2, r) ∧
      m.get_env s2 = m.get_env s ∧
      m.next_state (m.get_rep s) link = some (m.get_rep s2) ∧
      s2 < m.n_states ∧
      (link = a → m.rewards[link]? = some r) ∧ (link ≠ a → r = 0) := by
  have _ := ha
  have hKa : m.n_actions = K := hb.1
  have hN : m.n_observations = nodeCount K H := hb.2.2.1
  have hS : m.n_states = _ := hb.2.2.2.1
  obtain ⟨o2, ho2, hlt, -⟩ := next_state_lt hb hK hH (m.get_rep s) link hlink
  rw [← hN] at hlt
  obtain ⟨henv, hmdp⟩ := hb.get_env_lt hs
  have hrl : link < m.rewards.length := by omega
  have henv2 : m.get_env (m.get_env s * m.n_observations + o2) = m.get_env s := by
    unfold get_env
    rw [Nat.mul_comm, Nat.mul_add_div (by omega), Nat.div_eq_of_lt hlt, Nat.add_zero]
  have hrep2 : m.get_rep (m.get_env s * m.n_observations + o2) = o2 := by
    unfold get_rep
    rw [Nat.mul_comm, Nat.mul_add_mod, Nat.mod_eq_of_lt hlt]
  have hlt2 : m.get_env s * m.n_observations + o2 < m.n_states := by
    rw [hS]
    cases hm : m.is_mdp with
    | true =>
      have := (hmdp hm).1
      rw [this]; simp only [if_true]; omega
    | false =>
      rw [hm] at henv
      simp only [Bool.false_eq_true, if_false] at henv ⊢
      have : (m.get_env s + 1) * m.n_observations ≤ m.n_environments * m.n_observations :=
        Nat.mul_le_mul_right _ henv
      rw [Nat.add_mul, Nat.one_mul] at this
      omega
  by_cases hal : a = link
  · refine ⟨m.get_env s * m.n_observations + o2, m.rewards[link], ?_, henv2, ?_, hlt2,
      fun _ => List.getElem?_eq_getElem hrl, fun h => absurd hal.symm h⟩
    · simp only [sampleSR, ho2, hal, if_true, List.getElem?_eq_getElem hrl, Option.map_some']
    · rw [hrep2]; exact ho2
  · refine ⟨m.get_env s * m.n_observations + o2, 0, ?_, henv2, ?_, hlt2,
      fun h => absurd h.symm hal, fun _ => rfl⟩
    · simp only [sampleSR, ho2, hal, if_false]
    · rw [hrep2]; exact ho2

theorem sampleSR_spec_witness :
    ∃ s2 r, scenario.sampleSR 1 1 1 = some (s2, r) ∧
      scenario.get_env s2 = scenario.get_env 1 ∧
      scenario.next_state (scenario.get_rep 1) 1 = some (scenario.get_rep s2) ∧
      s2 < scenario.n_states ∧
      (1 = 1 → scenario.rewards[1]? = some r) ∧ (1 ≠ 1 → r = 0) :=
  sampleSR_spec scenario 2 2 (by decide) (by decide) (by decide) (by decide) 1 1 1 (by decide)
    (by decide) (by decide)

/-! ## Sampling with observation, query safety -/

theorem sampleSOR_forget (m : Recomodel) (s a link : Nat) :
    (m.sampleSOR s a link).map (fun x => (x.1, x.2.2)) = m.sampleSR s a link := by
  unfold sampleSOR sampleSR
  cases m.next_state (m.get_rep s) link with
  | none => rfl
  | some o2 =>
    by_cases h : a = link
    · simp only [h, if_true, Option.map_map]
      cases m.rewards[link]? <;> rfl
    · simp only [h, if_false, Option.map_some']

/-- C11: for the same drawn link, `sampleSOR(s, a)` returns `(s2, o2, r)` where `(s2, r)` is
what `sampleSR(s, a)` returns, and `o2` is the node component of `s2`, equal to
`next_state(node(s), link)`. -/
theorem sampleSOR_refines_sampleSR (m : Recomodel) (K H : Nat) (hb : Built m K H) (hK : 2 ≤ K)
    (hH : 2 ≤ H) (hrew : m.rewards.length = m.n_actions) (s a link : Nat)
    (hlink : link < K) :
    (m.sampleSOR s a link).map (fun x => (x.1, x.2.2)) = m.sampleSR s a link ∧
      ∃ s2 o2 r, m.sampleSOR s a link = some (s2, o2, r) ∧
        m.sampleSR s a link = some (s2, r) ∧
        o2 = s2 % m.n_observations ∧ o2 = m.get_rep s2 ∧
        m.next_state (m.get_rep s) link = some o2 := by
  have hKa : m.n_actions = K := hb.1
  have hN : m.n_observations = nodeCount K H := hb.2.2.1
  obtain ⟨o2, ho2, hlt, -⟩ := next_state_lt hb hK hH (m.get_rep s) link hlink
  rw [← hN] at hlt
  have hrl : link < m.rewards.length := by omega
  have hmod : (m.get_env s * m.n_observations + o2) % m.n_observations = o2 := by
    rw [Nat.mul_comm, Nat.mul_add_mod, Nat.mod_eq_of_lt hlt]
  refine ⟨sampleSOR_forget m s a link, ?_⟩
  by_cases hal : a = link
  · refine ⟨m.get_env s * m.n_observations + o2, o2, m.rewards[link], ?_, ?_, hmod.symm,
      hmod.symm, ho2⟩
    · simp only [sampleSOR, ho2, hal, if_true, List.getElem?_eq_getElem hrl, Option.map_some']
    · simp only [sampleSR, ho2, hal, if_true, List.getElem?_eq_getElem hrl, Option.map_some']
  · refine ⟨m.get_env s * m.n_observations + o2, o2, 0, ?_, ?_, hmod.symm, hmod.symm, ho2⟩
    · simp only [sampleSOR, ho2, hal, if_false]
    · simp only [sampleSR, ho2, hal, if_false]

theorem sampleSOR_refines_sampleSR_witness :
    (scenario.sampleSOR 1 1 1).map (fun x => (x.1, x.2.2)) = scenario.sampleSR 1 1 1 ∧
      ∃ s2 o2 r, scenario.sampleSOR 1 1 1 = some (s2, o2, r) ∧
        scenario.sampleSR 1 1 1 = some (s2, r) ∧
        o2 = s2 % scenario.n_observations ∧ o2 = scenario.get_rep s2 ∧
        scenario.next_state (scenario.get_rep 1) 1 = some o2 :=
  sampleSOR_refines_sampleSR scenario 2 2 (by decide) (by decide) (by decide) (by decide) 1 1 1
    (by decide)

theorem windowDepth_cons_zero (s : List Nat) : windowDepth (0 :: s) = windowDepth s := by
  simp [windowDepth]

theorem windowDepth_full (K : Nat) (s : List Nat) (hf : ∀ x ∈ s, 1 ≤ x ∧ x ≤ K) :
    windowDepth s = s.length := by
  unfold windowDepth
  rw [List.filter_eq_self.mpr]
  intro x hx
  have := (hf x hx).1
  simp only [bne_iff_ne, ne_eq]
  omega

theorem depth_bounds {K H : Nat} {s : List Nat} (hv : validWindow K H s) :
    windowDepth s ≤ H ∧ geom K (windowDepth s) ≤ windowValue K s ∧
      windowValue K s ≤ K * geom K (windowDepth s) := by
  induction s generalizing H with
  | nil => simp [windowDepth, windowValue, geom]
  | cons d s ih =>
    obtain ⟨H, rfl⟩ : ∃ H', H = H' + 1 := ⟨s.length, by simpa using hv.1.symm⟩
    by_cases hd : d = 0
    · subst hd
      obtain ⟨h1, h2, h3⟩ := ih (validWindow_cons_zero.mp hv)
      rw [windowDepth_cons_zero]
      simp only [windowValue, Nat.zero_mul, Nat.zero_add]
      exact ⟨by omega, h2, h3⟩
    · obtain ⟨hdk, hl, hf⟩ := (validWindow_cons_pos hd).mp hv
      have hfull : ∀ x ∈ d :: s, 1 ≤ x ∧ x ≤ K := by
        intro x hx
        rcases List.mem_cons.mp hx with rfl | hx
        · exact ⟨Nat.pos_of_ne_zero hd, hdk⟩
        · exact hf x hx
      rw [windowDepth_full K _ hfull]
      have := full_bounds K (d :: s) hfull
      simp only [List.length_cons, hl] at this ⊢
      exact ⟨Nat.le_refl _, this.1, this.2⟩

theorem validWindow_init {K H x : Nat} {s : List Nat} (hv : validWindow K (H + 1) (s ++ [x])) :
    validWindow K H s ∧ x ≤ K ∧ (x = 0 → windowDepth (s ++ [x]) = 0) := by
  induction s generalizing H with
  | nil =>
    have hH : H = 0 := by have := hv.1; simp at this; omega
    subst hH
    refine ⟨by simp [validWindow], hv.2.1 x (by simp), ?_⟩
    intro hx; subst hx; rfl
  | cons a s ih =>
    obtain ⟨H, rfl⟩ : ∃ H', H = H' + 1 := ⟨s.length, by have := hv.1; simp at this; omega⟩
    rw [List.cons_append] at hv ⊢
    by_cases ha : a = 0
    · subst ha
      obtain ⟨h1, h2, h3⟩ := ih (validWindow_cons_zero.mp hv)
      exact ⟨validWindow_cons_zero.mpr h1, h2, by rw [windowDepth_cons_zero]; exact h3⟩
    · obtain ⟨hak, hl, hf⟩ := (validWindow_cons_pos ha).mp hv
      have hx := hf x (by simp)
      refine ⟨(validWindow_cons_pos ha).mpr ⟨hak, by simpa using hl,
        fun y hy => hf y (List.mem_append_left _ hy)⟩, hx.2, fun h => by omega⟩

theorem parent_ok {m : Recomodel} {K H : Nat} (hb : Built m K H) (hK : 2 ≤ K) (hH : 2 ≤ H)
    (node : Nat) (hnode : node < nodeCount K H) (h0 : node ≠ 0) (p : Nat)
    (hp : (node - 1) / K < geom K (H - 1) ∧ p = (node - 1) / K ∨
      geom K (H - 1) ≤ (node - 1) / K ∧ ∃ a, a ≤ K ∧ p = (node - 1) / K + a * K ^ (H - 1)) :
    p < nodeCount K H ∧ ∃ item, item < K ∧ m.next_state p item = some node := by
  obtain ⟨h1, h2, h3, h4⟩ := weights_facts K H hK hH
  have hpl := prefix_lt K H hK hH node hnode
  have hplt : p < nodeCount K H := by
    rw [h4, Nat.mul_add]
    rcases hp with ⟨hlt, rfl⟩ | ⟨_, a, ha, rfl⟩
    · have : 1 * geom K (H - 1) ≤ K * geom K (H - 1) := Nat.mul_le_mul_right _ (by omega)
      omega
    · have : a * K ^ (H - 1) ≤ K * K ^ (H - 1) := Nat.mul_le_mul_right _ ha
      omega
  refine ⟨hplt, ?_⟩
  have hsv : suffixValue K H p = (node - 1) / K :=
    (suffixValue_eq_iff K H hK hH p _ hplt hpl).mpr hp
  obtain ⟨item, hi, he⟩ := (exists_item_iff K (by omega) (suffixValue K H p) node h0).mpr hsv
  exact ⟨item, hi, by rw [next_state_eq hb (by omega) hH, he]⟩

theorem previous_states_shape_window {m : Recomodel} {K H : Nat} (hb : Built m K H)
    (hK : 2 ≤ K) (hH : 2 ≤ H) (hfit : fitsInt K H) (seq : List Nat)
    (hv : validWindow K H seq) :
    ∃ prev, m.previous_states (windowValue K seq) = some prev ∧ prev.Nodup ∧
      (∀ p ∈ prev, p < nodeCount K H ∧
        ∃ item, item < K ∧ m.next_state p item = some (windowValue K seq)) ∧
      (windowDepth seq = 0 → windowValue K seq = 0 ∧ prev = []) ∧
      (1 ≤ windowDepth seq → windowDepth seq < H →
        prev = [windowValue K (0 :: seq.dropLast)] ∧ validWindow K H (0 :: seq.dropLast)) ∧
      (windowDepth seq = H → prev.length = K + 1) := by
  obtain ⟨n, rfl⟩ : ∃ n, H = n + 2 := ⟨H - 2, by omega⟩
  obtain ⟨h1, h2, h3, h4⟩ := weights_facts K (n + 2) hK hH
  have hA : n + 2 - 1 = n + 1 := rfl
  rw [hA] at h1 h2 h3 h4
  have hgH : geom K (n + 2) = geom K (n + 1) + K ^ (n + 1) := geom_succ_add K (n + 1)
  obtain ⟨hd1, hd2, hd3⟩ := depth_bounds hv
  have hnode := (state_to_id_valid hb hfit hv).2
  by_cases h0 : windowValue K seq = 0
  · -- the root
    have hdepth : windowDepth seq = 0 := by
      rcases Nat.eq_zero_or_pos (windowDepth seq) with h | h
      · exact h
      · have : geom K 1 ≤ geom K (windowDepth seq) := geom_mono K h
        simp [geom] at this
        omega
    rw [h0]
    refine ⟨[], previous_states_zero hb hK, List.nodup_nil, by simp, fun _ => ⟨rfl, rfl⟩,
      fun h => by omega, fun h => by omega⟩
  · have hdpos : 1 ≤ windowDepth seq := by
      rcases Nat.eq_zero_or_pos (windowDepth seq) with h | h
      · rw [h] at hd3; simp [geom] at hd3; omega
      · exact h
    have hprev := previous_states_eq hb hK hH hfit _ hnode h0
    rw [hA] at hprev
    by_cases hdH : windowDepth seq < n + 2
    · -- a node of depth 1 .. H - 1
      have hg : geom K (windowDepth seq) ≤ geom K (n + 1) := geom_mono K (by omega)
      have hle : windowValue K seq ≤ K * geom K (n + 1) :=
        Nat.le_trans hd3 (Nat.mul_le_mul_left _ hg)
      have hlt : (windowValue K seq - 1) / K < geom K (n + 1) := by
        rw [Nat.div_lt_iff_lt_mul (by omega), Nat.mul_comm]
        omega
      rw [if_pos hlt] at hprev
      rcases List.eq_nil_or_concat seq with hnil | ⟨s, x, hsx⟩
      · rw [hnil] at h0; exact absurd rfl h0
      · rw [List.concat_eq_append] at hsx
        subst hsx
        obtain ⟨hvs, hxk, hx0⟩ := validWindow_init hv
        have hx : x ≠ 0 := fun h => by have := hx0 h; omega
        have hval : windowValue K (s ++ [x]) = windowValue K s * K + x := windowValue_snoc K s x
        have hpre : (windowValue K (s ++ [x]) - 1) / K = windowValue K s := by
          have e : windowValue K (s ++ [x]) - 1 = (x - 1) + K * windowValue K s := by
            rw [hval, Nat.mul_comm]; omega
          rw [e, Nat.add_mul_div_left _ _ (by omega : 0 < K), Nat.div_eq_of_lt (by omega),
            Nat.zero_add]
        have hdl : (s ++ [x]).dropLast = s := List.dropLast_concat
        refine ⟨_, hprev, List.nodup_singleton _, ?_, fun h => by omega, fun _ _ => ?_,
          fun h => by omega⟩
        · intro p hp
          rw [List.mem_singleton] at hp
          exact parent_ok hb hK hH _ hnode h0 p (Or.inl ⟨hlt, hp⟩)
        · rw [hdl, hpre]
          exact ⟨by simp [windowValue], validWindow_cons_zero.mpr hvs⟩
    · -- a node of full depth
      have hdeq : windowDepth seq = n + 2 := by omega
      rw [hdeq] at hd2
      have hge : ¬ (windowValue K seq - 1) / K < geom K (n + 1) := by
        rw [Nat.not_lt, Nat.le_div_iff_mul_le (by omega), Nat.mul_comm]
        omega
      rw [if_neg hge] at hprev
      refine ⟨_, hprev, ?_, ?_, fun h => by omega, fun _ h => by omega, fun _ => by simp⟩
      · refine List.Nodup.map ?_ (List.nodup_range _)
        intro a b hab
        have hab' : a * K ^ (n + 1) = b * K ^ (n + 1) := by
          simpa using hab
        exact Nat.eq_of_mul_eq_mul_right (by omega) hab'
      · intro p hp
        obtain ⟨a, ha, rfl⟩ := List.mem_map.mp hp
        have ha' : a ≤ K := by have := List.mem_range.mp ha; omega
        exact parent_ok hb hK hH _ hnode h0 _ (Or.inr ⟨Nat.le_of_not_lt hge, a, ha', rfl⟩)

/-- C20: for a node id below `N`, `previous_states` lists no id twice and only ids below
`N` from which `next_state` reaches the node; the list is empty for the root, holds
exactly the id of the window without its last item for a node of depth `1 .. H - 1`, and
holds exactly `K + 1` ids for a node of depth `H`. -/
theorem previous_states_shape (m : Recomodel) (K H : Nat) (hb : Built m K H) (hK : 2 ≤ K)
    (hH : 2 ≤ H) (hfit : fitsInt K H) (node : Nat) (hnode : node < nodeCount K H) :
    ∃ seq prev, validWindow K H seq ∧ m.state_to_id seq = some node ∧
      m.previous_states node = some prev ∧ prev.Nodup ∧
      (∀ p ∈ prev, p < nodeCount K H ∧ ∃ item, item < K ∧ m.next_state p item = some node) ∧
      (windowDepth seq = 0 → node = 0 ∧ prev.length = 0) ∧
      (1 ≤ windowDepth seq → windowDepth seq < H →
        prev.length = 1 ∧ validWindow K H (0 :: seq.dropLast) ∧
          (m.state_to_id (0 :: seq.dropLast)).map (fun p => [p]) = some prev) ∧
      (windowDepth seq = H → prev.length = K + 1) := by
  rw [nodeCount_eq] at hnode
  obtain ⟨seq, hv, hval⟩ := exists_window (by omega : 1 ≤ K) H node (by omega)
  obtain ⟨prev, h1, h2, h3, h4, h5, h6⟩ := previous_states_shape_window hb hK hH hfit seq hv
  rw [hval] at h1 h3 h4
  refine ⟨seq, prev, hv, by rw [(state_to_id_valid hb hfit hv).1, hval], h1, h2, h3, ?_, ?_, h6⟩
  · intro hd
    obtain ⟨hn, hp⟩ := h4 hd
    exact ⟨hn, by rw [hp]; rfl⟩
  · intro hd1 hd2
    obtain ⟨hp, hv'⟩ := h5 hd1 hd2
    refine ⟨by rw [hp]; rfl, hv', ?_⟩
    rw [(state_to_id_valid hb hfit hv').1, hp]
    rfl

theorem previous_states_shape_witness :
    ∃ seq prev, validWindow 2 3 seq ∧ (create 15 2 1 3 false).state_to_id seq = some 9 ∧
      (create 15 2 1 3 false).previous_states 9 = some prev ∧ prev.Nodup ∧
      (∀ p ∈ prev, p < nodeCount 2 3 ∧
        ∃ item, item < 2 ∧ (create 15 2 1 3 false).next_state p item = some 9) ∧
      (windowDepth seq = 0 → 9 = 0 ∧ prev.length = 0) ∧
      (1 ≤ windowDepth seq → windowDepth seq < 3 →
        prev.length = 1 ∧ validWindow 2 3 (0 :: seq.dropLast) ∧
          ((create 15 2 1 3 false).state_to_id (0 :: seq.dropLast)).map (fun p => [p])
            = some prev) ∧
      (windowDepth seq = 3 → prev.length = 2 + 1) :=
  previous_states_shape (create 15 2 1 3 false) 2 3 (by decide) (by decide) (by decide)
    (by decide) 9 (by decide)

/-! ## The constructor's summary check and the rewards loader -/

theorem summary_check_true (n_actions hlength : Nat) : summary_check n_actions hlength = true := by
  unfold summary_check
  split
  · rfl
  · rename_i hden
    rw [decide_eq_true_eq]
    have hK1 : n_actions ≠ 1 := by
      rintro rfl
      exact hden (by decide)
    have hpow : n_actions ^ (hlength + 1) ≠ 1 := by
      intro h
      exact hK1 ((pow_eq_one_iff (Nat.succ_ne_zero hlength)).mp h)
    have hnum : ((n_actions : ℚ) ^ (hlength + 1) - 1) ≠ 0 := by
      intro h
      apply hpow
      have h' : ((n_actions ^ (hlength + 1) : Nat) : ℚ) = ((1 : Nat) : ℚ) := by
        push_cast
        linarith
      exact_mod_cast h'
    have hd : ((toSizeT ((n_actions : Int) - 1) : Nat) : ℚ) ≠ 0 := by
      exact_mod_cast hden
    exact div_ne_zero hnum hd

theorem construct_never_fails (n_observations n_actions n_environments hlength : Nat)
    (is_mdp : Bool) :
    construct n_observations n_actions n_environments hlength is_mdp =
      .ok (create n_observations n_actions n_environments hlength is_mdp) := by
  simp only [construct, summary_check_true, if_true]

/-- C14 fails on the code: the summary `8, 2, 1, 2` declares 8 nodes where
`1 + K + K ^ 2 = 7`, and the constructor builds the model with 8 observations. -/
theorem construct_accepts_inconsistent_summary :
    nodeCount 2 2 = 7 ∧ construct 8 2 1 2 false = .ok (create 8 2 1 2 false) ∧
      (create 8 2 1 2 false).n_observations = 8 :=
  ⟨by decide, construct_never_fails 8 2 1 2 false, rfl⟩

theorem load_rewards_loop_ignores_lines (m : Recomodel) (loc : RewardsLocals)
    (f1 f2 : List (Nat × ℚ)) (hlen : f1.length = f2.length) (rewards : List ℚ) (found : Nat) :
    load_rewards_loop m loc f1 rewards found = load_rewards_loop m loc f2 rewards found := by
  induction f1 generalizing f2 rewards found with
  | nil =>
    cases f2 with
    | nil => rfl
    | cons _ _ => simp at hlen
  | cons l1 r1 ih =>
    cases f2 with
    | nil => simp at hlen
    | cons l2 r2 =>
      have hl : r1.length = r2.length := by simpa using hlen
      simp only [load_rewards_loop]
      split
      · rfl
      · split
        · rfl
        · split
          · rfl
          · split
            · exact ih r2 hl _ _
            · rfl

theorem load_rewards_ignores_lines (m : Recomodel) (loc : RewardsLocals)
    (f1 f2 : List (Nat × ℚ)) (hlen : f1.length = f2.length) :
    load_rewards m loc f1 = load_rewards m loc f2 := by
  unfold load_rewards
  rw [load_rewards_loop_ignores_lines m loc f1 f2 hlen]

/-- C15 fails on the code: with `K = 2`, a rewards file giving item 1 twice and item 2
never is loaded without error (for locals `temp1 = 4`, `a = 1`, `temp2 = 0`, `v = 7`),
`rewards[0]` is the local `v` and not a value of the file; the outcome is the same for
every file of two lines. -/
theorem load_rewards_accepts_duplicate :
    load_rewards (create 7 2 1 2 false) ⟨1, 7, 4, 0⟩ [(1, 1), (1, 1 / 2)] =
        .ok { create 7 2 1 2 false with rewards := [7, 0] } ∧
      ∀ file : List (Nat × ℚ), file.length = 2 →
        load_rewards (create 7 2 1 2 false) ⟨1, 7, 4, 0⟩ file =
          .ok { create 7 2 1 2 false with rewards := [7, 0] } := by
  have h : load_rewards (create 7 2 1 2 false) ⟨1, 7, 4, 0⟩ [(1, 1), (1, 1 / 2)] =
      .ok { create 7 2 1 2 false with rewards := [7, 0] } := by rfl
  refine ⟨h, fun file hlen => ?_⟩
  rw [load_rewards_ignores_lines _ _ file [(1, 1), (1, 1 / 2)] (by simpa using hlen)]
  exact h

/-! ## The transitions loader: the parse loop -/

theorem load_transitions_loop_append (m : Recomodel) (pre post : List TransitionLine)
    (st : ParseState) :
    load_transitions_loop m (pre ++ post) st =
      match load_transitions_loop m pre st with
      | .ok st' => load_transitions_loop m post st'
      | .fatal => .fatal
      | .undefined => .undefined := by
  induction pre generalizing st with
  | nil => rfl
  | cons line rest ih =>
    simp only [List.cons_append, load_transitions_loop]
    cases load_transitions_line m st line with
    | ok st' => exact ih st'
    | fatal => rfl
    | undefined => rfl

theorem load_transitions_line_unconnected (m : Recomodel) (st : ParseState)
    (s1 a s2 : Nat) (v : ℚ) (link : Nat) (hc : m.is_connected s1 s2 = some link)
    (hl : m.n_actions ≤ link) :
    load_transitions_line m st (.entry s1 a s2 v) = .fatal := by
  simp only [load_transitions_line, hc, Nat.not_lt.mpr hl, not_false_eq_true, if_true]

theorem load_transitions_loop_fails (m : Recomodel) (line : TransitionLine)
    (hline : ∀ st st', load_transitions_line m st line ≠ .ok st')
    (file : List TransitionLine) (hmem : line ∈ file) (st st' : ParseState) :
    load_transitions_loop m file st ≠ .ok st' := by
  induction file generalizing st with
  | nil => simp at hmem
  | cons l rest ih =>
    simp only [load_transitions_loop]
    rcases List.mem_cons.mp hmem with rfl | hmem
    · cases h : load_transitions_line m st line with
      | ok st'' => exact absurd h (hline st st'')
      | fatal => simp
      | undefined => simp
    · cases h : load_transitions_line m st l with
      | ok st'' => exact ih hmem st''
      | fatal => simp
      | undefined => simp

theorem load_transitions_ok_loop (m : Recomodel) (i : Int) (file : List TransitionLine)
    (precision : Bool) (m' : Recomodel) (h : load_transitions m i file precision = .ok m') :
    ∃ st, load_transitions_loop m file ⟨m.transition_matrix, 0, 0⟩ = .ok st ∧
      st.profiles_found = m.n_environments := by
  unfold load_transitions at h
  cases hl : load_transitions_loop m file ⟨m.transition_matrix, 0, 0⟩ with
  | ok st =>
    rw [hl] at h
    simp only [] at h
    by_cases hp : st.profiles_found = m.n_environments
    · exact ⟨st, rfl, hp⟩
    · simp [hp] at h
  | fatal => rw [hl] at h; simp at h
  | undefined => rw [hl] at h; simp at h

theorem load_transitions_line_profiles (m : Recomodel) (st st' : ParseState)
    (line : TransitionLine) (h : load_transitions_line m st line = .ok st') :
    st'.profiles_found = st.profiles_found + [line].count .separator := by
  cases line with
  | separator =>
    simp only [load_transitions_line] at h
    split at h
    · simp at h
    · split at h
      · simp at h
      · simp only [Outcome.ok.injEq] at h
        rw [← h]; simp
  | entry s1 a s2 v =>
    simp only [load_transitions_line] at h
    split at h
    · simp at h
    · split at h
      · simp at h
      · split at h
        · simp at h
        · simp only [Outcome.ok.injEq] at h
          rw [← h]; simp

theorem load_transitions_loop_profiles (m : Recomodel) (file : List TransitionLine)
    (st st' : ParseState) (h : load_transitions_loop m file st = .ok st') :
    st'.profiles_found = st.profiles_found + file.count .separator := by
  induction file generalizing st with
  | nil =>
    simp only [load_transitions_loop, Outcome.ok.injEq] at h
    rw [← h]; simp
  | cons line rest ih =>
    simp only [load_transitions_loop] at h
    cases hl : load_transitions_line m st line with
    | ok st'' =>
      rw [hl] at h
      have h1 := load_transitions_line_profiles m st st'' line hl
      have h2 := ih st'' h
      rw [h2, h1, List.count_cons]
      simp only [List.count_cons, List.count_nil, Nat.zero_add]
      omega
    | fatal => rw [hl] at h; simp at h
    | undefined => rw [hl] at h; simp at h

theorem normalize_profiles_skip (m : Recomodel) (i : Int) (precision : Bool)
    (hi : (if m.is_mdp then 1 else (m.n_environments : Int)) ≤ i) (fuel p : Nat) (tm : List ℚ) :
    normalize_profiles m i precision fuel p tm = .ok tm := by
  unfold normalize_profiles
  rw [if_neg (not_lt.mpr hi)]

theorem normalize_profiles_stuck (m : Recomodel) (i : Int) (precision : Bool)
    (hi : i < (if m.is_mdp then 1 else (m.n_environments : Int))) (fuel p : Nat)
    (tm tm' : List ℚ) :
    normalize_profiles m i precision fuel p tm ≠ .ok tm' := by
  induction fuel generalizing p tm with
  | zero =>
    unfold normalize_profiles
    rw [if_pos hi]
    simp
  | succ fuel ih =>
    unfold normalize_profiles
    rw [if_pos hi]
    simp only []
    cases normalize_states m precision p m.n_observations 0 tm with
    | none => simp
    | some tm'' => exact ih (p + 1) tm''

theorem toSizeT_pred_le (a : Nat) (ha : 1 ≤ a) : toSizeT ((a : Int) - 1) ≤ a - 1 := by
  unfold toSizeT; omega

theorem load_transitions_line_good (m : Recomodel) (st : ParseState) (line : TransitionLine)
    (hg : goodEntry m line) (hfitT : fitsTable m)
    (hlen : st.transition_matrix.length =
      profileCount m * m.n_observations * m.n_actions * m.n_actions)
    (hp : m.is_mdp = true ∨ st.profiles_found < m.n_environments) :
    ∃ st', load_transitions_line m st line = .ok st' ∧
      st'.transitions_found = st.transitions_found + 1 ∧
      st'.profiles_found = st.profiles_found ∧
      st'.transition_matrix.length = st.transition_matrix.length ∧
      (m.is_mdp = false → ∀ x ∈ st'.transition_matrix,
        x ∈ st.transition_matrix ∨ ∃ s1 a s2, line = .entry s1 a s2 x) := by
  cases line with
  | separator => exact absurd hg (by simp [goodEntry])
  | entry s1 a s2 v =>
    obtain ⟨hs1, ha1, haK, link, hlink, hc⟩ := hg
    have hpc : (if m.is_mdp then 0 else st.profiles_found) < profileCount m := by
      unfold profileCount
      rcases hp with hp | hp
      · simp [hp]
      · by_cases hm : m.is_mdp = true
        · simp [hm]
        · simpa [hm] using hp
    have ha' : toSizeT ((a : Int) - 1) < m.n_actions :=
      Nat.lt_of_le_of_lt (toSizeT_pred_le a ha1) (by omega)
    have hidx := offset_lt m _ _ s1 _ link hpc hs1 ha' hlink
    have hio := index_eq_offset m _ _ _ _ (lt_of_lt_of_le hidx hfitT)
    rw [← hlen] at hidx
    simp only [load_transitions_line, hc, hlink, not_true_eq_false, if_false, hio,
      cell_natCast, Int.toNat_ofNat, List.getElem?_eq_getElem hidx]
    refine ⟨_, rfl, rfl, rfl, by simp, ?_⟩
    intro hm x hx
    simp only [hm, Bool.false_eq_true, if_false] at hx
    rcases List.mem_or_eq_of_mem_set hx with hx | hx
    · exact Or.inl hx
    · exact Or.inr ⟨s1, a, s2, by rw [hx]⟩

theorem load_transitions_loop_good (m : Recomodel) (lines : List TransitionLine)
    (hg : ∀ line ∈ lines, goodEntry m line) (hfitT : fitsTable m) (st : ParseState)
    (hlen : st.transition_matrix.length =
      profileCount m * m.n_observations * m.n_actions * m.n_actions)
    (hp : m.is_mdp = true ∨ st.profiles_found < m.n_environments) :
    ∃ st', load_transitions_loop m lines st = .ok st' ∧
      st'.transitions_found = st.transitions_found + lines.length ∧
      st'.profiles_found = st.profiles_found ∧
      st'.transition_matrix.length = st.transition_matrix.length ∧
      (m.is_mdp = false → ∀ x ∈ st'.transition_matrix,
        x ∈ st.transition_matrix ∨ ∃ s1 a s2, .entry s1 a s2 x ∈ lines) := by
  induction lines generalizing st with
  | nil => exact ⟨st, rfl, rfl, rfl, rfl, fun _ x hx => Or.inl hx⟩
  | cons line rest ih =>
    obtain ⟨st1, h1, htf, hpf, hl, hx1⟩ :=
      load_transitions_line_good m st line (hg line (List.mem_cons_self _ _)) hfitT hlen hp
    obtain ⟨st2, h2, htf2, hpf2, hl2, hx2⟩ :=
      ih (fun l hl => hg l (List.mem_cons_of_mem _ hl)) st1 (by rw [hl, hlen])
        (by rw [hpf]; exact hp)
    refine ⟨st2, ?_, ?_, by rw [hpf2, hpf], by rw [hl2, hl], ?_⟩
    · simp only [load_transitions_loop, h1, h2]
    · rw [htf2, htf, List.length_cons]; omega
    · intro hm x hx
      rcases hx2 hm x hx with hx | ⟨s1, a, s2, hx⟩
      · rcases hx1 hm x hx with hx | ⟨s1, a, s2, hx⟩
        · exact Or.inl hx
        · exact Or.inr ⟨s1, a, s2, by rw [hx]; exact List.mem_cons_self _ _⟩
      · exact Or.inr ⟨s1, a, s2, List.mem_cons_of_mem _ hx⟩

theorem load_transitions_loop_profile (m : Recomodel) (lines : List TransitionLine)
    (hg : ∀ line ∈ lines, goodEntry m line) (hfitT : fitsTable m)
    (st : ParseState)
    (hcount : st.transitions_found + lines.length =
      m.n_observations * m.n_actions * m.n_actions)
    (hlen : st.transition_matrix.length =
      profileCount m * m.n_observations * m.n_actions * m.n_actions)
    (hp : st.profiles_found < m.n_environments) :
    ∃ st', load_transitions_loop m (lines ++ [.separator]) st = .ok st' ∧
      st'.transitions_found = 0 ∧
      st'.profiles_found = st.profiles_found + 1 ∧
      st'.transition_matrix.length = st.transition_matrix.length ∧
      (m.is_mdp = false → ∀ x ∈ st'.transition_matrix,
        x ∈ st.transition_matrix ∨ ∃ s1 a s2, .entry s1 a s2 x ∈ lines) := by
  obtain ⟨st1, h1, htf1, hpf1, hl1, hx1⟩ :=
    load_transitions_loop_good m lines hg hfitT st hlen (Or.inr hp)
  have htf1' : st1.transitions_found = m.n_observations * m.n_actions * m.n_actions := by
    rw [htf1, hcount]
  refine ⟨{ st1 with transitions_found := 0, profiles_found := st1.profiles_found + 1 }, ?_, rfl,
    by simp [hpf1], by simpa using hl1, by simpa using hx1⟩
  rw [load_transitions_loop_append, h1]
  have hle : st1.profiles_found + 1 ≤ m.n_environments := by omega
  simp only [load_transitions_loop, load_transitions_line, htf1', ne_eq, not_true_eq_false,
    if_false, hle]

theorem is_connected_create_env (N K E H : Nat) (mdp : Bool) (s1 s2 : Nat) :
    (create N K E H mdp).is_connected s1 s2 = (create N K 0 H mdp).is_connected s1 s2 := rfl

theorem exampleTriples_good_aux (mdp : Bool) :
    ∀ t ∈ exampleTriples, t.1 < 7 ∧ 1 ≤ t.2.1 ∧ t.2.1 ≤ 2 ∧
      ∃ link, link < 2 ∧ (create 7 2 0 2 mdp).is_connected t.1 t.2.2 = some link := by
  cases mdp <;> decide

theorem exampleProfile_length (v : ℚ) : (exampleProfile v).length = 28 := by
  unfold exampleProfile
  rw [List.length_map]
  decide

theorem exampleProfile_good (E : Nat) (mdp : Bool) (v : ℚ) :
    ∀ line ∈ exampleProfile v, goodEntry (create 7 2 E 2 mdp) line := by
  intro line hline
  obtain ⟨t, ht, rfl⟩ := List.mem_map.mp hline
  obtain ⟨h1, h2, h3, link, h4, h5⟩ := exampleTriples_good_aux mdp t ht
  exact ⟨h1, h2, h3, link, h4, by rw [is_connected_create_env]; exact h5⟩

theorem exampleProfile_value (v x : ℚ) (s1 a s2 : Nat)
    (h : TransitionLine.entry s1 a s2 x ∈ exampleProfile v) : x = v := by
  obtain ⟨t, _, ht⟩ := List.mem_map.mp h
  simp only [TransitionLine.entry.injEq] at ht
  exact ht.2.2.2.symm

theorem create_table_length (N K E H : Nat) (mdp : Bool) :
    (create N K E H mdp).transition_matrix.length =
      profileCount (create N K E H mdp) * N * K * K := by
  cases mdp <;> simp [create, profileCount]

/-- The parse loop on one complete example profile from the initial state, for a
model with `K = 2`, `H = 2` and at least one environment. -/
theorem load_example_profile (E : Nat) (hE : 0 < E) (mdp : Bool) (v : ℚ) (st : ParseState)
    (htf : st.transitions_found = 0) (hlen : st.transition_matrix.length =
      profileCount (create 7 2 E 2 mdp) * 7 * 2 * 2) (hp : st.profiles_found < E)
    (hfitT : fitsTable (create 7 2 E 2 mdp)) :
    ∃ st', load_transitions_loop (create 7 2 E 2 mdp) (exampleProfile v ++ [.separator]) st
        = .ok st' ∧
      st'.transitions_found = 0 ∧ st'.profiles_found = st.profiles_found + 1 ∧
      st'.transition_matrix.length = st.transition_matrix.length ∧
      (mdp = false → ∀ x ∈ st'.transition_matrix, x ∈ st.transition_matrix ∨ x = v) := by
  have _ := hE
  obtain ⟨st', h1, h2, h3, h4, h5⟩ := load_transitions_loop_profile (create 7 2 E 2 mdp)
    (exampleProfile v) (exampleProfile_good E mdp v) hfitT st
    (by rw [htf, exampleProfile_length]; rfl) hlen hp
  refine ⟨st', h1, h2, h3, h4, fun hm x hx => ?_⟩
  rcases h5 hm x hx with h | ⟨s1, a, s2, h⟩
  · exact Or.inl h
  · exact Or.inr (exampleProfile_value v x s1 a s2 h)

theorem load_transitions_of_loop (m : Recomodel) (i : Int) (file : List TransitionLine)
    (precision : Bool) (st : ParseState)
    (hl : load_transitions_loop m file ⟨m.transition_matrix, 0, 0⟩ = .ok st)
    (hpf : st.profiles_found = m.n_environments)
    (hi : (if m.is_mdp then 1 else (m.n_environments : Int)) ≤ i) :
    load_transitions m i file precision =
      .ok { m with transition_matrix := st.transition_matrix } := by
  simp only [load_transitions, hl, hpf, ne_eq, not_true_eq_false, if_false,
    normalize_profiles_skip m i precision hi]

theorem load_transitions_fatal_of_loop (m : Recomodel) (i : Int) (file : List TransitionLine)
    (precision : Bool)
    (hl : load_transitions_loop m file ⟨m.transition_matrix, 0, 0⟩ = .fatal) :
    load_transitions m i file precision = .fatal := by
  simp only [load_transitions, hl]

/-- C16: a transition line whose pair `(s1, s2)` is not connected (`is_connected` gives a
link `>= K`) is a fatal error in every parsing state; `load_transitions` does not succeed
on any file that contains such a line, and ends in the fatal error when the lines before
it are parsed without failure. -/
theorem load_transitions_rejects_unconnected (m : Recomodel) (i : Int) (precision : Bool)
    (file : List TransitionLine) (s1 a s2 : Nat) (v : ℚ) (link : Nat)
    (hmem : TransitionLine.entry s1 a s2 v ∈ file) (hv : 0 < v)
    (hc : m.is_connected s1 s2 = some link) (hl : m.n_actions ≤ link) :
    (∀ st, load_transitions_line m st (.entry s1 a s2 v) = .fatal) ∧
      (∀ m', load_transitions m i file precision ≠ .ok m') ∧
      ∀ pre post st, file = pre ++ .entry s1 a s2 v :: post →
        load_transitions_loop m pre ⟨m.transition_matrix, 0, 0⟩ = .ok st →
        load_transitions m i file precision = .fatal := by
  have _ := hv
  have hline := fun st => load_transitions_line_unconnected m st s1 a s2 v link hc hl
  refine ⟨hline, fun m' h => ?_, fun pre post st hfile hpre => ?_⟩
  · obtain ⟨st, hst, _⟩ := load_transitions_ok_loop m i file precision m' h
    refine load_transitions_loop_fails m _ (fun st st' => ?_) file hmem _ st hst
    rw [hline st]
    simp
  · apply load_transitions_fatal_of_loop
    rw [hfile, load_transitions_loop_append, hpre]
    simp only [load_transitions_loop, hline st]

theorem load_transitions_rejects_unconnected_witness :
    (∀ st, load_transitions_line (create 7 2 1 2 false) st (.entry 0 1 3 1) = .fatal) ∧
      (∀ m', load_transitions (create 7 2 1 2 false) 1
        (exampleProfile 1 ++ [.entry 0 1 3 1, .separator]) false ≠ .ok m') ∧
      ∀ pre post st,
        exampleProfile 1 ++ [.entry 0 1 3 1, .separator] = pre ++ .entry 0 1 3 1 :: post →
        load_transitions_loop (create 7 2 1 2 false) pre
          ⟨(create 7 2 1 2 false).transition_matrix, 0, 0⟩ = .ok st →
        load_transitions (create 7 2 1 2 false) 1
          (exampleProfile 1 ++ [.entry 0 1 3 1, .separator]) false = .fatal :=
  load_transitions_rejects_unconnected (create 7 2 1 2 false) 1 false
    (exampleProfile 1 ++ [.entry 0 1 3 1, .separator]) 0 1 3 1 2 (by simp) one_pos
    (by decide) (by decide)

/-- C17 as amended: `load_transitions` succeeds only if the number of profiles found (the
separator lines of the file) equals the declared environment count `E`, in MDP mode as
well as with environments enabled. -/
theorem load_transitions_profile_count (m : Recomodel) (i : Int) (file : List TransitionLine)
    (precision : Bool) (m' : Recomodel)
    (h : load_transitions m i file precision = .ok m') :
    file.count .separator = m.n_environments := by
  obtain ⟨st, hst, hpf⟩ := load_transitions_ok_loop m i file precision m' h
  have := load_transitions_loop_profiles m file _ st hst
  simp only [Nat.zero_add] at this
  rw [← this, hpf]

theorem load_example_ok (v : ℚ) :
    ∃ st, load_transitions_loop (create 7 2 1 2 false) (exampleProfile v ++ [.separator])
        ⟨(create 7 2 1 2 false).transition_matrix, 0, 0⟩ = .ok st ∧
      st.profiles_found = 1 ∧ st.transition_matrix.length = 28 ∧
      (∀ x ∈ st.transition_matrix, x = 0 ∨ x = v) ∧
      ∀ precision, load_transitions (create 7 2 1 2 false) 1
        (exampleProfile v ++ [.separator]) precision =
          .ok { create 7 2 1 2 false with transition_matrix := st.transition_matrix } := by
  obtain ⟨st, h1, _, h3, h4, h5⟩ := load_example_profile 1 (by decide) false v
    ⟨(create 7 2 1 2 false).transition_matrix, 0, 0⟩ rfl (create_table_length 7 2 1 2 false)
    (by decide) (by decide)
  refine ⟨st, h1, h3, by rw [h4]; rfl, fun x hx => ?_, fun precision => ?_⟩
  · rcases h5 rfl x hx with h | h
    · left
      exact List.eq_of_mem_replicate h
    · exact Or.inr h
  · exact load_transitions_of_loop _ 1 _ precision st h1 h3 (by decide)

theorem load_transitions_profile_count_witness :
    (exampleProfile 1 ++ [TransitionLine.separator]).count .separator =
      (create 7 2 1 2 false).n_environments := by
  obtain ⟨st, _, _, _, _, h⟩ := load_example_ok 1
  exact load_transitions_profile_count (create 7 2 1 2 false) 1 _ false _ (h false)

/-- C17 fails on the code as stated: in MDP mode with `E = 2` declared environments a
file with two profiles is loaded without error, the number of profiles found being 2
and not 1. -/
theorem load_transitions_mdp_two_profiles :
    (create 7 2 2 2 true).is_mdp = true ∧
      ((exampleProfile 1 ++ [TransitionLine.separator]) ++
        (exampleProfile 1 ++ [TransitionLine.separator])).count .separator = 2 ∧
      ∃ m', load_transitions (create 7 2 2 2 true) 1
        ((exampleProfile 1 ++ [.separator]) ++ (exampleProfile 1 ++ [.separator])) false
          = .ok m' := by
  obtain ⟨st1, h1, t1, p1, l1, _⟩ := load_example_profile 2 (by decide) true 1
    ⟨(create 7 2 2 2 true).transition_matrix, 0, 0⟩ rfl (create_table_length 7 2 2 2 true)
    (by decide) (by decide)
  obtain ⟨st2, h2, t2, p2, l2, _⟩ := load_example_profile 2 (by decide) true 1 st1 t1
    (by rw [l1]; exact create_table_length 7 2 2 2 true) (by rw [p1]; decide) (by decide)
  have hloop : load_transitions_loop (create 7 2 2 2 true)
      ((exampleProfile 1 ++ [.separator]) ++ (exampleProfile 1 ++ [.separator]))
      ⟨(create 7 2 2 2 true).transition_matrix, 0, 0⟩ = .ok st2 := by
    rw [load_transitions_loop_append, h1]
    exact h2
  refine ⟨rfl, ?_, _, load_transitions_of_loop _ 1 _ false st2 hloop (by rw [p2, p1]; rfl)
    (by decide)⟩
  simp only [List.count_append, List.count_cons_self, List.count_nil]
  have : (exampleProfile 1).count .separator = 0 := by
    rw [List.count_eq_zero]
    intro h
    exact exampleProfile_good 0 false 1 _ h
  rw [this]

theorem is_connected_example_0_1 (E : Nat) (mdp : Bool) :
    (create 7 2 E 2 mdp).is_connected 0 1 = some 0 := by
  rw [is_connected_create_env]
  cases mdp <;> decide

theorem load_transitions_trailing_mdp :
    ∃ m0 m1 x,
      load_transitions (create 7 2 1 2 true) 1 (exampleProfile 1 ++ [.separator]) false
        = .ok m0 ∧
      load_transitions (create 7 2 1 2 true) 1
        ((exampleProfile 1 ++ [.separator]) ++ [.entry 0 1 1 (1 / 2)]) false = .ok m1 ∧
      m0.transition_matrix[0]? = some x ∧ m1.transition_matrix[0]? = some (x + 1 / 2) := by
  obtain ⟨st, h1, t1, p1, l1, _⟩ := load_example_profile 1 (by decide) true 1
    ⟨(create 7 2 1 2 true).transition_matrix, 0, 0⟩ rfl (create_table_length 7 2 1 2 true)
    (by decide) (by decide)
  have hlen : st.transition_matrix.length = 28 := by rw [l1]; rfl
  have h0 : 0 < st.transition_matrix.length := by omega
  have hidx : (create 7 2 1 2 true).index 0 0 (toSizeT (((1 : Nat) : Int) - 1)) 0 = 0 := by
    decide
  have hcell : cell st.transition_matrix 0 = some st.transition_matrix[0] := by
    rw [← List.getElem?_eq_getElem h0]
    exact cell_natCast _ 0
  have hline : load_transitions_line (create 7 2 1 2 true) st (.entry 0 1 1 (1 / 2)) =
      .ok { st with
        transition_matrix := st.transition_matrix.set 0 (st.transition_matrix[0] + 1 / 2)
        transitions_found := st.transitions_found + 1 } := by
    have hmdp : (create 7 2 1 2 true).is_mdp = true := rfl
    have hK : (create 7 2 1 2 true).n_actions = 2 := rfl
    simp only [load_transitions_line, is_connected_example_0_1, hmdp, hK, if_true, hidx,
      hcell]
    simp
  refine ⟨_, _, st.transition_matrix[0],
    load_transitions_of_loop _ 1 _ false st h1 p1 (by decide),
    load_transitions_of_loop _ 1 _ false
      { st with
        transition_matrix := st.transition_matrix.set 0 (st.transition_matrix[0] + 1 / 2)
        transitions_found := st.transitions_found + 1 } ?_ p1 (by decide),
    List.getElem?_eq_getElem h0, ?_⟩
  · rw [load_transitions_loop_append, h1]
    simp only [load_transitions_loop, hline]
  · simp [h0]

theorem load_transitions_undefined_of_loop (m : Recomodel) (i : Int)
    (file : List TransitionLine) (precision : Bool)
    (hl : load_transitions_loop m file ⟨m.transition_matrix, 0, 0⟩ = .undefined) :
    load_transitions m i file precision = .undefined := by
  simp only [load_transitions, hl]

theorem load_transitions_trailing_outside :
    load_transitions (create 7 2 1 2 false) 1
        ((exampleProfile 1 ++ [.separator]) ++ [.entry 0 1 1 (1 / 2)]) false = .undefined := by
  obtain ⟨st, h1, t1, p1, l1, _⟩ := load_example_profile 1 (by decide) false 1
    ⟨(create 7 2 1 2 false).transition_matrix, 0, 0⟩ rfl (create_table_length 7 2 1 2 false)
    (by decide) (by decide)
  have hlen : st.transition_matrix.length = 28 := by rw [l1]; rfl
  have hpf : st.profiles_found = 1 := p1
  have hidx : (create 7 2 1 2 false).index 1 0 (toSizeT (((1 : Nat) : Int) - 1)) 0
      = 28 := by decide
  have hline : load_transitions_line (create 7 2 1 2 false) st (.entry 0 1 1 (1 / 2)) =
      .undefined := by
    have hmdp : (create 7 2 1 2 false).is_mdp = false := rfl
    have hK : (create 7 2 1 2 false).n_actions = 2 := rfl
    have hnone : cell st.transition_matrix 28 = none := by
      rw [show (28 : Int) = ((28 : Nat) : Int) from rfl, cell_natCast,
        List.getElem?_eq_none_iff]
      omega
    simp only [load_transitions_line, is_connected_example_0_1, hmdp, hK, hpf, hidx, hnone,
      Bool.false_eq_true, if_false]
    simp
  apply load_transitions_undefined_of_loop
  rw [load_transitions_loop_append, h1]
  simp only [load_transitions_loop, hline]

/-- C18 fails on the code: in MDP mode with `E = 1`, the file made of one complete profile,
its separator line and one more transition line `0 1 1 0.5` is loaded without error, and
the trailing line is added to the table entry 0; with environments enabled the same
trailing line is written outside the table. -/
theorem load_transitions_accepts_trailing_line :
    (∃ m0 m1 x,
      load_transitions (create 7 2 1 2 true) 1 (exampleProfile 1 ++ [.separator]) false
        = .ok m0 ∧
      load_transitions (create 7 2 1 2 true) 1
        ((exampleProfile 1 ++ [.separator]) ++ [.entry 0 1 1 (1 / 2)]) false = .ok m1 ∧
      m0.transition_matrix[0]? = some x ∧ m1.transition_matrix[0]? = some (x + 1 / 2)) ∧
    load_transitions (create 7 2 1 2 false) 1
      ((exampleProfile 1 ++ [.separator]) ++ [.entry 0 1 1 (1 / 2)]) false = .undefined :=
  ⟨load_transitions_trailing_mdp, load_transitions_trailing_outside⟩

theorem load_transitions_line_entry (m : Recomodel) (st : ParseState) (s1 a s2 : Nat) (v : ℚ)
    (link idx : Nat) (old : ℚ) (hc : m.is_connected s1 s2 = some link)
    (hl : link < m.n_actions)
    (hidx : m.index (if m.is_mdp then 0 else st.profiles_found) s1 (toSizeT ((a : Int) - 1))
      link = (idx : Int))
    (hold : st.transition_matrix[idx]? = some old) :
    load_transitions_line m st (.entry s1 a s2 v) =
      .ok { st with
        transition_matrix := st.transition_matrix.set idx (if m.is_mdp then old + v else v)
        transitions_found := st.transitions_found + 1 } := by
  simp only [load_transitions_line, hc, hl, not_true_eq_false, if_false, hidx, cell_natCast,
    Int.toNat_ofNat, hold]

theorem load_transitions_loop_cons_ok (m : Recomodel) (line : TransitionLine)
    (rest : List TransitionLine) (st st' : ParseState)
    (h : load_transitions_line m st line = .ok st') :
    load_transitions_loop m (line :: rest) st = load_transitions_loop m rest st' := by
  simp only [load_transitions_loop, h]

/-- C19 fails on the code: a transition line with action 3 (`K = 2`) is stored in the cell
of another row (`index(0, 1, 0, 0) = 4`) and the file that contains it is loaded without
error; with two environments a line with state ids 8 and 11 (`N = 7`) is stored in the
cell 33 of profile 1 while profile 0 is being read. -/
theorem load_transitions_accepts_out_of_range :
    load_transitions_line (create 7 2 1 2 false) ⟨List.replicate 28 0, 0, 0⟩
        (.entry 0 3 1 (1 / 2)) = .ok ⟨(List.replicate 28 0).set 4 (1 / 2), 1, 0⟩ ∧
      (create 7 2 1 2 false).index 0 1 0 0 = 4 ∧
      load_transitions_line (create 7 2 2 2 false) ⟨List.replicate 56 0, 0, 0⟩
        (.entry 8 1 11 (1 / 2)) = .ok ⟨(List.replicate 56 0).set 33 (1 / 2), 1, 0⟩ ∧
      (create 7 2 2 2 false).index 1 1 0 1 = 33 ∧
      ∃ m', load_transitions (create 7 2 1 2 false) 1
        (.entry 0 3 1 (1 / 2) :: ((exampleProfile (1 / 2)).tail ++ [.separator])) false
          = .ok m' := by
  have hline : load_transitions_line (create 7 2 1 2 false) ⟨List.replicate 28 0, 0, 0⟩
      (.entry 0 3 1 (1 / 2)) = .ok ⟨(List.replicate 28 0).set 4 (1 / 2), 1, 0⟩ := by
    have h := load_transitions_line_entry (create 7 2 1 2 false) ⟨List.replicate 28 0, 0, 0⟩
      0 3 1 (1 / 2) 0 4 0 (by decide) (by decide) (by decide) (by decide)
    have hmdp : (create 7 2 1 2 false).is_mdp = false := rfl
    rw [h]
    simp only [hmdp, Bool.false_eq_true, if_false, Nat.zero_add]
  have hline2 : load_transitions_line (create 7 2 2 2 false) ⟨List.replicate 56 0, 0, 0⟩
      (.entry 8 1 11 (1 / 2)) = .ok ⟨(List.replicate 56 0).set 33 (1 / 2), 1, 0⟩ := by
    have h := load_transitions_line_entry (create 7 2 2 2 false) ⟨List.replicate 56 0, 0, 0⟩
      8 1 11 (1 / 2) 1 33 0 (by decide) (by decide) (by decide) (by decide)
    have hmdp : (create 7 2 2 2 false).is_mdp = false := rfl
    rw [h]
    simp only [hmdp, Bool.false_eq_true, if_false, Nat.zero_add]
  refine ⟨hline, by decide, hline2, by decide, ?_⟩
  have hgood : ∀ line ∈ (exampleProfile (1 / 2)).tail, goodEntry (create 7 2 1 2 false) line :=
    fun line hl => exampleProfile_good 1 false _ line (List.mem_of_mem_tail hl)
  have hlen : (exampleProfile (1 / 2)).tail.length = 27 := by
    rw [List.length_tail, exampleProfile_length]
  obtain ⟨st, h1, _, p1, _, _⟩ := load_transitions_loop_profile (create 7 2 1 2 false) _ hgood
    (by decide)
    ⟨(List.replicate 28 0).set 4 (1 / 2), 1, 0⟩ (by rw [hlen]; rfl)
    (by rw [List.length_set]; rfl) (by decide)
  refine ⟨_, load_transitions_of_loop _ 1 _ false st ?_ p1 (by decide)⟩
  have hinit : (create 7 2 1 2 false).transition_matrix = List.replicate 28 0 := rfl
  rw [hinit, load_transitions_loop_cons_ok _ _ _ _ _ hline]
  exact h1

/-! ## The transitions loader: the normalisation pass -/

theorem normalize_profiles_undefined (m : Recomodel) (i : Int) (precision : Bool)
    (hi : i < (if m.is_mdp then 1 else (m.n_environments : Int))) (fuel p : Nat)
    (tm : List ℚ) :
    normalize_profiles m i precision fuel p tm = .undefined := by
  induction fuel generalizing p tm with
  | zero =>
    unfold normalize_profiles
    rw [if_pos hi]
  | succ fuel ih =>
    unfold normalize_profiles
    rw [if_pos hi]
    simp only []
    cases normalize_states m precision p m.n_observations 0 tm with
    | none => rfl
    | some tm'' => exact ih (p + 1) tm''

theorem load_transitions_stuck (m : Recomodel) (i : Int) (file : List TransitionLine)
    (precision : Bool) (st : ParseState)
    (hl : load_transitions_loop m file ⟨m.transition_matrix, 0, 0⟩ = .ok st)
    (hpf : st.profiles_found = m.n_environments)
    (hi : i < (if m.is_mdp then 1 else (m.n_environments : Int))) :
    load_transitions m i file precision = .undefined := by
  simp only [load_transitions, hl, hpf, ne_eq, not_true_eq_false, if_false,
    normalize_profiles_undefined m i precision hi]

theorem getD_set (l : List ℚ) (i j : Nat) (v : ℚ) (hi : i < l.length) :
    (l.set i v).getD j 0 = if i = j then v else l.getD j 0 := by
  rw [List.getD_eq_getElem?_getD, List.getD_eq_getElem?_getD, List.getElem?_set]
  by_cases h : i = j
  · rw [if_pos h, if_pos h, if_pos hi]
    rfl
  · rw [if_neg h, if_neg h]

/-- The cells written by the parse loop on transition lines that all carry the value
`v`, environments enabled: a cell that holds `v` keeps it, and the cell of every line
holds `v` at the end. -/
theorem load_transitions_loop_written (m : Recomodel) (hm : m.is_mdp = false) (v : ℚ)
    (lines : List TransitionLine) (hg : ∀ line ∈ lines, goodEntry m line)
    (hv : ∀ line ∈ lines, ∃ s1 a s2, line = .entry s1 a s2 v) (hfitT : fitsTable m)
    (st st' : ParseState)
    (hlen : st.transition_matrix.length =
      profileCount m * m.n_observations * m.n_actions * m.n_actions)
    (hp : st.profiles_found < m.n_environments)
    (h : load_transitions_loop m lines st = .ok st') (j : Nat)
    (hj : st.transition_matrix.getD j 0 = v ∨ ∃ s1 a s2 link,
      TransitionLine.entry s1 a s2 v ∈ lines ∧ m.is_connected s1 s2 = some link ∧
      j = m.offset st.profiles_found s1 (toSizeT ((a : Int) - 1)) link) :
    st'.transition_matrix.getD j 0 = v := by
  induction lines generalizing st with
  | nil =>
    simp only [load_transitions_loop, Outcome.ok.injEq] at h
    subst h
    rcases hj with hj | ⟨_, _, _, _, hmem, _⟩
    · exact hj
    · simp at hmem
  | cons line rest ih =>
    obtain ⟨s1, a, s2, rfl⟩ := hv _ (List.mem_cons_self _ _)
    obtain ⟨hs1, ha1, haK, link, hlink, hc⟩ := hg _ (List.mem_cons_self _ _)
    have hpc : st.profiles_found < profileCount m := by
      unfold profileCount; simpa [hm] using hp
    have ha' : toSizeT ((a : Int) - 1) < m.n_actions :=
      Nat.lt_of_le_of_lt (toSizeT_pred_le a ha1) (by omega)
    have hidx := offset_lt m _ _ s1 _ link hpc hs1 ha' hlink
    have hio := index_eq_offset m _ _ _ _ (lt_of_lt_of_le hidx hfitT)
    rw [← hlen] at hidx
    have hline := load_transitions_line_entry m st s1 a s2 v link
      (m.offset st.profiles_found s1 (toSizeT ((a : Int) - 1)) link)
      st.transition_matrix[m.offset st.profiles_found s1 (toSizeT ((a : Int) - 1)) link] hc hlink
      (by simp only [hm, Bool.false_eq_true, if_false]; exact hio)
      (List.getElem?_eq_getElem hidx)
    simp only [hm, Bool.false_eq_true, if_false] at hline
    rw [load_transitions_loop_cons_ok _ _ _ _ _ hline] at h
    refine ih (fun l hl => hg l (List.mem_cons_of_mem _ hl))
      (fun l hl => hv l (List.mem_cons_of_mem _ hl))
      ⟨st.transition_matrix.set (m.offset st.profiles_found s1 (toSizeT ((a : Int) - 1)) link) v,
        st.transitions_found + 1, st.profiles_found⟩
      (by rw [List.length_set]; exact hlen) hp h ?_
    rw [getD_set _ _ _ _ hidx]
    rcases hj with hj | ⟨t1, ta, t2, tl, hmem, htc, hjt⟩
    · left
      split
      · rfl
      · exact hj
    · rcases List.mem_cons.mp hmem with heq | hmem
      · left
        simp only [TransitionLine.entry.injEq] at heq
        obtain ⟨rfl, rfl, rfl, -⟩ := heq
        rw [hc, Option.some.injEq] at htc
        subst htc
        rw [if_pos hjt.symm]
      · exact Or.inr ⟨t1, ta, t2, tl, hmem, htc, hjt⟩

theorem exampleTriples_cover :
    ∀ j, j < 28 → ∃ t ∈ exampleTriples,
      ((create 7 2 1 2 false).is_connected t.1 t.2.2).map
        (fun link => (create 7 2 1 2 false).offset 0 t.1 (toSizeT ((t.2.1 : Int) - 1)) link) =
          some j := by
  decide

/-- The parse loop on the complete example profile with value `v`, environments enabled:
it ends normally with one profile found and every cell of the table equal to `v`. -/
theorem load_example_table (v : ℚ) :
    ∃ st, load_transitions_loop (create 7 2 1 2 false) (exampleProfile v ++ [.separator])
        ⟨(create 7 2 1 2 false).transition_matrix, 0, 0⟩ = .ok st ∧
      st.profiles_found = 1 ∧ st.transition_matrix = List.replicate 28 v := by
  have hfitT : fitsTable (create 7 2 1 2 false) := by decide
  have hlen0 := create_table_length 7 2 1 2 false
  obtain ⟨st1, h1, htf1, hpf1, hl1, -⟩ := load_transitions_loop_good (create 7 2 1 2 false)
    (exampleProfile v) (exampleProfile_good 1 false v) hfitT
    ⟨(create 7 2 1 2 false).transition_matrix, 0, 0⟩ hlen0 (Or.inr (by decide))
  have hlen1 : st1.transition_matrix.length = 28 := by rw [hl1]; rfl
  have hcells : ∀ j, j < 28 → st1.transition_matrix.getD j 0 = v := by
    intro j hj
    obtain ⟨t, ht, hcov⟩ := exampleTriples_cover j hj
    obtain ⟨link, hc, hjl⟩ : ∃ link, (create 7 2 1 2 false).is_connected t.1 t.2.2 = some link ∧
        (create 7 2 1 2 false).offset 0 t.1 (toSizeT ((t.2.1 : Int) - 1)) link = j := by
      cases hc : (create 7 2 1 2 false).is_connected t.1 t.2.2 with
      | none => rw [hc] at hcov; simp at hcov
      | some link =>
        rw [hc] at hcov
        exact ⟨link, rfl, by simpa using hcov⟩
    refine load_transitions_loop_written (create 7 2 1 2 false) rfl v (exampleProfile v)
      (exampleProfile_good 1 false v)
      (fun line hl => by
        obtain ⟨t', _, rfl⟩ := List.mem_map.mp hl
        exact ⟨_, _, _, rfl⟩) hfitT _ st1 hlen0 (by decide) h1 j
      (Or.inr ⟨t.1, t.2.1, t.2.2, link, List.mem_map.mpr ⟨t, ht, rfl⟩, hc, hjl.symm⟩)
  have htm : st1.transition_matrix = List.replicate 28 v := by
    apply List.ext_getElem
    · rw [hlen1, List.length_replicate]
    · intro j h1 h2
      have := hcells j (by omega)
      rw [List.getD_eq_getElem?_getD, List.getElem?_eq_getElem h1] at this
      rw [List.getElem_replicate]
      exact this
  have htf1' : st1.transitions_found = 28 := by
    rw [htf1, exampleProfile_length]
  refine ⟨{ st1 with transitions_found := 0, profiles_found := st1.profiles_found + 1 }, ?_,
    by simp [hpf1], htm⟩
  rw [load_transitions_loop_append, h1]
  have hN : (create 7 2 1 2 false).n_observations * (create 7 2 1 2 false).n_actions *
      (create 7 2 1 2 false).n_actions = 28 := rfl
  have hE : (create 7 2 1 2 false).n_environments = 1 := rfl
  simp only [load_transitions_loop, load_transitions_line, htf1', hN, hE, hpf1, ne_eq,
    not_true_eq_false, if_false, Nat.zero_add, Nat.le_refl]

theorem rowTotal_replicate (m : Recomodel) (n : Nat) (v : ℚ) (p s1 a : Nat)
    (hn : n ≤ 2 ^ 31)
    (hin : ∀ link, link < m.n_actions → m.offset p s1 a link < n) :
    rowTotal m (List.replicate n v) p s1 a = m.n_actions * v ∧
      ∀ link, link < m.n_actions →
        cell (List.replicate n v) (m.index p s1 a link) = some v := by
  have hget : ∀ link, link < m.n_actions →
      cell (List.replicate n v) (m.index p s1 a link) = some v := by
    intro link hl
    rw [cell_index m _ _ _ _ _ (lt_of_lt_of_le (hin link hl) hn), List.getElem?_replicate,
      if_pos (hin link hl)]
  refine ⟨?_, hget⟩
  unfold rowTotal
  rw [List.map_congr_left (fun link hl => by rw [hget link (List.mem_range.mp hl)])]
  simp only [Option.getD_some, List.map_const', List.sum_replicate, List.length_range,
    nsmul_eq_mul]

theorem example_offset_lt (tm : List ℚ) (s1 a link : Nat) (hs : s1 < 7) (ha : a < 2)
    (hl : link < 2) :
    ({ create 7 2 1 2 false with transition_matrix := tm } : Recomodel).offset 0 s1 a link
      < 28 := by
  have h := offset_lt { create 7 2 1 2 false with transition_matrix := tm } 1 0 s1 a link
    Nat.one_pos hs ha hl
  exact h

/-- C13 fails on the code: on the file of one complete profile whose 28 probabilities are
all 1 (`K = 2`, `H = 2`, every row sums to 2), the normalisation pass never makes the rows
stochastic. Its loop over the profiles tests a variable `i` that the function does not
declare: for `i < 1` the loop is never left normally, and for `i >= 1` the pass is skipped
and the load returns the table as parsed, every cell 1 and every row of sum 2. -/
theorem load_transitions_never_normalises :
    (∀ (i : Int) (precision : Bool), i < 1 →
      load_transitions (create 7 2 1 2 false) i (exampleProfile 1 ++ [.separator]) precision =
        .undefined) ∧
    (∀ (i : Int) (precision : Bool), 1 ≤ i →
      ∃ m', load_transitions (create 7 2 1 2 false) i (exampleProfile 1 ++ [.separator])
          precision = .ok m' ∧
        m'.transition_matrix = List.replicate 28 1 ∧
        (∀ s1 a link, s1 < 7 → a < 2 → link < 2 →
          cell m'.transition_matrix (m'.index 0 s1 a link) = some 1) ∧
        ∀ s1 a, s1 < 7 → a < 2 → rowTotal m' m'.transition_matrix 0 s1 a = 2) := by
  obtain ⟨st, hloop, hpf, htm⟩ := load_example_table 1
  refine ⟨fun i precision hi => ?_, fun i precision hi => ?_⟩
  · exact load_transitions_stuck _ i _ precision st hloop hpf (by simpa using hi)
  · refine ⟨_, load_transitions_of_loop _ i _ precision st hloop hpf (by simpa using hi),
      htm, ?_, ?_⟩
    · intro s1 a link hs ha hl
      simp only [htm]
      exact (rowTotal_replicate _ 28 1 0 s1 a (by norm_num) (fun link hl =>
        example_offset_lt _ s1 a link hs ha hl)).2 link hl
    · intro s1 a hs ha
      simp only [htm]
      rw [(rowTotal_replicate _ 28 1 0 s1 a (by norm_num) (fun link hl =>
        example_offset_lt _ s1 a link hs ha hl)).1]
      show ((2 : Nat) : ℚ) * 1 = 2
      norm_num

theorem offset_succ (m : Recomodel) (p s1 a s2 : Nat) :
    m.offset p s1 a (s2 + 1) = m.offset p s1 a s2 + 1 := by
  unfold offset; omega

theorem segment_get (A r post : List ℚ) (l : Nat) (hl : l < r.length) :
    (A ++ r ++ post)[A.length + l]? = some r[l] := by
  rw [List.append_assoc, List.getElem?_append_right (by omega), Nat.add_sub_cancel_left,
    List.getElem?_append_left hl, List.getElem?_eq_getElem hl]

theorem row_sum_segment (m : Recomodel) (p s1 a : Nat) (r A post : List ℚ) (s2 : Nat) (nrm : ℚ)
    (hA : A.length = m.offset p s1 a s2) (hfit : A.length + r.length ≤ 2147483648) :
    row_sum m (A ++ r ++ post) p s1 a r.length s2 nrm = some (nrm + r.sum) := by
  induction r generalizing A s2 nrm with
  | nil => simp [row_sum]
  | cons x r ih =>
    have hoff : m.offset p s1 a s2 < 2 ^ 31 := by
      rw [← hA]
      simp only [List.length_cons] at hfit
      norm_num
      omega
    have hfit' : (A ++ [x]).length + r.length ≤ 2147483648 := by
      simp only [List.length_cons] at hfit
      simp only [List.length_append, List.length_singleton]
      omega
    have hget : cell (A ++ (x :: r) ++ post) (m.index p s1 a s2) = some x := by
      have := segment_get A (x :: r) post 0 (by simp)
      rw [cell_index m _ _ _ _ _ hoff, ← hA]
      simpa using this
    have hA' : (A ++ [x]).length = m.offset p s1 a (s2 + 1) := by
      rw [offset_succ, ← hA]; simp
    have hsplit : A ++ (x :: r) ++ post = (A ++ [x]) ++ r ++ post := by simp
    rw [List.length_cons, row_sum, hget]
    simp only []
    rw [hsplit, ih (A ++ [x]) (s2 + 1) (nrm + x) hA' hfit', List.sum_cons, add_assoc]

theorem row_sum_kahan_segment (m : Recomodel) (p s1 a : Nat) (r A post : List ℚ) (s2 : Nat)
    (nrm : ℚ) (hA : A.length = m.offset p s1 a s2) (hfit : A.length + r.length ≤ 2147483648) :
    row_sum_kahan m (A ++ r ++ post) p s1 a r.length s2 nrm 0 = some (nrm + r.sum) := by
  induction r generalizing A s2 nrm with
  | nil => simp [row_sum_kahan]
  | cons x r ih =>
    have hoff : m.offset p s1 a s2 < 2 ^ 31 := by
      rw [← hA]
      simp only [List.length_cons] at hfit
      norm_num
      omega
    have hfit' : (A ++ [x]).length + r.length ≤ 2147483648 := by
      simp only [List.length_cons] at hfit
      simp only [List.length_append, List.length_singleton]
      omega
    have hget : cell (A ++ (x :: r) ++ post) (m.index p s1 a s2) = some x := by
      have := segment_get A (x :: r) post 0 (by simp)
      rw [cell_index m _ _ _ _ _ hoff, ← hA]
      simpa using this
    have hA' : (A ++ [x]).length = m.offset p s1 a (s2 + 1) := by
      rw [offset_succ, ← hA]; simp
    have hsplit : A ++ (x :: r) ++ post = (A ++ [x]) ++ r ++ post := by simp
    have hcorr : (nrm + (x - 0) - nrm) - (x - 0) = (0 : ℚ) := by ring
    have hval : nrm + (x - 0) = nrm + x := by ring
    rw [List.length_cons, row_sum_kahan, hget]
    simp only []
    rw [hcorr, hval, hsplit, ih (A ++ [x]) (s2 + 1) (nrm + x) hA' hfit', List.sum_cons,
      add_assoc]

theorem row_divide_segment (m : Recomodel) (p s1 a : Nat) (nrm : ℚ) (hnrm : nrm ≠ 0)
    (r A post : List ℚ) (s2 : Nat) (hA : A.length = m.offset p s1 a s2)
    (hfit : A.length + r.length ≤ 2147483648) :
    row_divide m p s1 a nrm r.length s2 (A ++ r ++ post) =
      some (A ++ r.map (fun x => x / nrm) ++ post) := by
  induction r generalizing A s2 with
  | nil => simp [row_divide]
  | cons x r ih =>
    have hoff : m.offset p s1 a s2 < 2 ^ 31 := by
      rw [← hA]
      simp only [List.length_cons] at hfit
      norm_num
      omega
    have hfit' : (A ++ [x]).length + r.length ≤ 2147483648 := by
      simp only [List.length_cons] at hfit
      simp only [List.length_append, List.length_singleton]
      omega
    have hget : cell (A ++ (x :: r) ++ post) (m.index p s1 a s2) = some x := by
      have := segment_get A (x :: r) post 0 (by simp)
      rw [cell_index m _ _ _ _ _ hoff, ← hA]
      simpa using this
    have hA' : (A ++ [x / nrm]).length = m.offset p s1 a (s2 + 1) := by
      rw [offset_succ, ← hA]; simp
    have hset : (A ++ (x :: r) ++ post).set (m.index p s1 a s2).toNat (x / nrm) =
        (A ++ [x / nrm]) ++ r ++ post := by
      rw [index_eq_offset m _ _ _ _ hoff, Int.toNat_ofNat, ← hA, List.append_assoc,
        List.set_append_right _ _ (Nat.le_refl _), Nat.sub_self]
      simp
    have hfit'' : (A ++ [x / nrm]).length + r.length ≤ 2147483648 := by
      simpa using hfit'
    rw [List.length_cons, row_divide, hget]
    simp only [hnrm, if_false]
    rw [hset, ih (A ++ [x / nrm]) (s2 + 1) hA' hfit'']
    simp

theorem rowTotal_segment (m : Recomodel) (p s1 a : Nat) (r A post : List ℚ)
    (hA : A.length = m.offset p s1 a 0) (hr : r.length = m.n_actions)
    (hfit : A.length + r.length ≤ 2147483648) :
    rowTotal m (A ++ r ++ post) p s1 a = r.sum ∧
      ∀ link, (h : link < r.length) →
        (A ++ r ++ post).getD (m.offset p s1 a link) 0 = r[link] := by
  have hidx : ∀ link, m.offset p s1 a link = A.length + link := by
    intro link; rw [hA]; unfold offset; omega
  have hpt : ∀ link, (h : link < r.length) →
      (A ++ r ++ post).getD (m.offset p s1 a link) 0 = r[link] := by
    intro link h
    rw [List.getD_eq_getElem?_getD, hidx, segment_get A r post link h]
    rfl
  refine ⟨?_, hpt⟩
  unfold rowTotal
  congr 1
  apply List.ext_getElem
  · simp [hr]
  · intro n h1 h2
    simp only [List.getElem_map, List.getElem_range]
    have hoff : m.offset p s1 a n < 2 ^ 31 := by
      rw [hidx]
      norm_num
      omega
    rw [cell_index m _ _ _ _ _ hoff, ← List.getD_eq_getElem?_getD]
    exact hpt n h2

theorem offset_link (m : Recomodel) (p s1 a link : Nat) :
    m.offset p s1 a link = m.offset p s1 a 0 + link := by
  unfold offset; omega

theorem offset_row_lt (m : Recomodel) (p s1 a b : Nat) (h : a < b) :
    m.offset p s1 a 0 + m.n_actions ≤ m.offset p s1 b 0 := by
  unfold offset
  have := Nat.mul_le_mul_left m.n_actions
    (show a + m.n_actions * (s1 + m.n_observations * p) + 1 ≤
      b + m.n_actions * (s1 + m.n_observations * p) by omega)
  rw [Nat.mul_add, Nat.mul_one] at this
  omega

theorem offset_row_succ (m : Recomodel) (p s1 a : Nat) :
    m.offset p s1 (a + 1) 0 = m.offset p s1 a 0 + m.n_actions := by
  unfold offset
  rw [show a + 1 + m.n_actions * (s1 + m.n_observations * p) =
    a + m.n_actions * (s1 + m.n_observations * p) + 1 by omega, Nat.mul_add, Nat.mul_one]
  omega

theorem offset_block_succ (m : Recomodel) (p s1 : Nat) :
    m.offset p (s1 + 1) 0 0 = m.offset p s1 m.n_actions 0 := by
  unfold offset
  congr 1
  ring

theorem offset_block_lt (m : Recomodel) (p s1 s1' : Nat) (h : s1 < s1') :
    m.offset p s1 m.n_actions 0 ≤ m.offset p s1' 0 0 := by
  rw [← offset_block_succ]
  unfold offset
  have h1 := Nat.mul_le_mul_left m.n_actions
    (show s1 + 1 + m.n_observations * p ≤ s1' + m.n_observations * p by omega)
  have h2 := Nat.mul_le_mul_left m.n_actions h1
  simpa using h2

theorem rowTotal_congr (m : Recomodel) (tm tm' : List ℚ) (p s1 a : Nat)
    (hoff : ∀ link, link < m.n_actions → m.offset p s1 a link < 2 ^ 31)
    (h : ∀ link, link < m.n_actions →
      tm'.getD (m.offset p s1 a link) 0 = tm.getD (m.offset p s1 a link) 0) :
    rowTotal m tm' p s1 a = rowTotal m tm p s1 a := by
  unfold rowTotal
  congr 1
  apply List.map_congr_left
  intro link hl
  have hl' := List.mem_range.mp hl
  rw [cell_index m _ _ _ _ _ (hoff link hl'), cell_index m _ _ _ _ _ (hoff link hl'),
    ← List.getD_eq_getElem?_getD, ← List.getD_eq_getElem?_getD]
  exact h link hl'

theorem segment_frame (A r r' post : List ℚ) (hr : r'.length = r.length) (j : Nat)
    (hj : j < A.length ∨ A.length + r.length ≤ j) :
    (A ++ r' ++ post).getD j 0 = (A ++ r ++ post).getD j 0 := by
  simp only [List.getD_eq_getElem?_getD, List.append_assoc]
  rcases hj with hj | hj
  · rw [List.getElem?_append_left hj, List.getElem?_append_left hj]
  · rw [List.getElem?_append_right (by omega), List.getElem?_append_right (by omega),
      List.getElem?_append_right (by omega), List.getElem?_append_right (by omega), hr]

/-- The normalisation of one row with non-negative entries and a positive sum: the row
becomes stochastic and no other cell of the table changes. -/
theorem normalize_row_ok (m : Recomodel) (precision : Bool) (p s1 a : Nat)
    (tm : List ℚ)
    (hin : ∀ link, link < m.n_actions → m.offset p s1 a link < tm.length)
    (hnn : ∀ link, link < m.n_actions → 0 ≤ tm.getD (m.offset p s1 a link) 0)
    (hpos : 0 < rowTotal m tm p s1 a) (hfit : tm.length ≤ 2 ^ 31) :
    ∃ tm', normalize_row m precision p s1 a tm = some tm' ∧
      tm'.length = tm.length ∧
      (∀ j, j < m.offset p s1 a 0 ∨ m.offset p s1 a 0 + m.n_actions ≤ j →
        tm'.getD j 0 = tm.getD j 0) ∧
      rowTotal m tm' p s1 a = 1 ∧
      ∀ link, link < m.n_actions → 0 ≤ tm'.getD (m.offset p s1 a link) 0 := by
  have hK : 0 < m.n_actions := by
    rcases Nat.eq_zero_or_pos m.n_actions with h | h
    · simp [rowTotal, h] at hpos
    · exact h
  have hbase : m.offset p s1 a 0 + m.n_actions ≤ tm.length := by
    have h1 := hin (m.n_actions - 1) (by omega)
    rw [offset_link] at h1
    omega
  obtain ⟨A, r, post, htm, hA, hr⟩ : ∃ A r post : List ℚ, tm = A ++ r ++ post ∧
      A.length = m.offset p s1 a 0 ∧ r.length = m.n_actions := by
    refine ⟨tm.take (m.offset p s1 a 0), (tm.drop (m.offset p s1 a 0)).take m.n_actions,
      (tm.drop (m.offset p s1 a 0)).drop m.n_actions, ?_, ?_, ?_⟩
    · rw [List.append_assoc, List.take_append_drop, List.take_append_drop]
    · rw [List.length_take]; omega
    · rw [List.length_take, List.length_drop]; omega
  subst htm
  have hfitA : A.length + r.length ≤ 2147483648 := by
    simp only [List.length_append] at hfit
    norm_num at hfit
    omega
  obtain ⟨htot, hpt⟩ := rowTotal_segment m p s1 a r A post hA hr hfitA
  rw [htot] at hpos
  have hne : r.sum ≠ 0 := ne_of_gt hpos
  have hsum : (if precision then row_sum_kahan m (A ++ r ++ post) p s1 a m.n_actions 0 0 0
      else row_sum m (A ++ r ++ post) p s1 a m.n_actions 0 0) = some r.sum := by
    cases precision with
    | true =>
      simp only [if_true]
      rw [← hr, row_sum_kahan_segment m p s1 a r A post 0 0 hA hfitA, zero_add]
    | false =>
      simp only [Bool.false_eq_true, if_false]
      rw [← hr, row_sum_segment m p s1 a r A post 0 0 hA hfitA, zero_add]
  have hdiv := row_divide_segment m p s1 a r.sum hne r A post 0 hA hfitA
  rw [hr] at hdiv
  obtain ⟨htot', hpt'⟩ := rowTotal_segment m p s1 a (r.map fun x => x / r.sum) A post hA
    (by rw [List.length_map, hr]) (by rw [List.length_map]; exact hfitA)
  refine ⟨A ++ r.map (fun x => x / r.sum) ++ post, ?_, by simp, ?_, ?_, ?_⟩
  · unfold normalize_row
    rw [hsum]
    exact hdiv
  · intro j hj
    rw [← hA, ← hr] at hj
    exact segment_frame A r _ post (List.length_map _ _) j hj
  · rw [htot']
    have : (r.map fun x => x / r.sum).sum = r.sum / r.sum := by
      simp only [div_eq_mul_inv]
      rw [List.sum_map_mul_right]
      simp
    rw [this, div_self hne]
  · intro link hl
    have hl' : link < (r.map fun x => x / r.sum).length := by rw [List.length_map, hr]; exact hl
    have hl'' : link < r.length := by rw [hr]; exact hl
    rw [hpt' link hl', List.getElem_map]
    have h0 := hnn link hl
    rw [hpt link hl''] at h0
    exact div_nonneg h0 (le_of_lt hpos)

theorem rowPositive_congr (m : Recomodel) (tm tm' : List ℚ) (p s1 a : Nat)
    (hlen : tm'.length = tm.length) (hfit : tm.length ≤ 2 ^ 31)
    (h : ∀ link, link < m.n_actions →
      tm'.getD (m.offset p s1 a link) 0 = tm.getD (m.offset p s1 a link) 0)
    (hp : rowPositive m tm p s1 a) : rowPositive m tm' p s1 a := by
  obtain ⟨h1, h2, h3⟩ := hp
  refine ⟨fun link hl => ?_, fun link hl => ?_, ?_⟩
  · rw [hlen]; exact h1 link hl
  · rw [h link hl]; exact h2 link hl
  · rw [rowTotal_congr m tm tm' p s1 a
      (fun link hl => lt_of_lt_of_le (h1 link hl) hfit) h]
    exact h3

theorem rowStochastic_congr (m : Recomodel) (tm tm' : List ℚ) (p s1 a : Nat)
    (hoff : ∀ link, link < m.n_actions → m.offset p s1 a link < 2 ^ 31)
    (h : ∀ link, link < m.n_actions →
      tm'.getD (m.offset p s1 a link) 0 = tm.getD (m.offset p s1 a link) 0)
    (hp : rowStochastic m tm p s1 a) : rowStochastic m tm' p s1 a := by
  obtain ⟨h1, h2⟩ := hp
  refine ⟨?_, fun link hl => ?_⟩
  · rw [rowTotal_congr m tm tm' p s1 a hoff h]; exact h1
  · rw [h link hl]; exact h2 link hl

theorem normalize_actions_ok (m : Recomodel) (precision : Bool) (p s1 : Nat) (n a0 : Nat)
    (tm : List ℚ)
    (hp : ∀ a, a0 ≤ a → a < a0 + n → rowPositive m tm p s1 a) (hfit : tm.length ≤ 2 ^ 31) :
    ∃ tm', normalize_actions m precision p s1 n a0 tm = some tm' ∧
      tm'.length = tm.length ∧
      (∀ j, j < m.offset p s1 a0 0 ∨ m.offset p s1 (a0 + n) 0 ≤ j →
        tm'.getD j 0 = tm.getD j 0) ∧
      ∀ a, a0 ≤ a → a < a0 + n → rowStochastic m tm' p s1 a := by
  induction n generalizing a0 tm with
  | zero =>
    exact ⟨tm, rfl, rfl, fun _ _ => rfl, fun a h1 h2 => by omega⟩
  | succ n ih =>
    obtain ⟨hin, hnn, hpos⟩ := hp a0 (le_refl _) (by omega)
    obtain ⟨tm1, hrow, hlen1, hframe1, hst1⟩ :=
      normalize_row_ok m precision p s1 a0 tm hin hnn hpos hfit
    have hp1 : ∀ a, a0 + 1 ≤ a → a < a0 + 1 + n → rowPositive m tm1 p s1 a := by
      intro a h1 h2
      refine rowPositive_congr m tm tm1 p s1 a hlen1 hfit (fun link _ => ?_)
        (hp a (by omega) (by omega))
      apply hframe1
      right
      have := offset_row_lt m p s1 a0 a (by omega)
      rw [offset_link m p s1 a link]
      omega
    obtain ⟨tm', hrec, hlen', hframe', hst'⟩ := ih (a0 + 1) tm1 hp1 (by rw [hlen1]; exact hfit)
    have hsucc := offset_row_succ m p s1 a0
    have hmono : m.offset p s1 (a0 + 1) 0 ≤ m.offset p s1 (a0 + 1 + n) 0 := by
      rcases Nat.eq_zero_or_pos n with h0 | h0
      · rw [h0]
      · have := offset_row_lt m p s1 (a0 + 1) (a0 + 1 + n) (by omega)
        omega
    refine ⟨tm', ?_, by rw [hlen', hlen1], fun j hj => ?_, fun a h1 h2 => ?_⟩
    · simp only [normalize_actions, hrow]
      exact hrec
    · rw [show a0 + (n + 1) = a0 + 1 + n by omega] at hj
      rw [hframe' j (by omega), hframe1 j (by omega)]
    · rcases Nat.eq_or_lt_of_le h1 with h | h
      · subst h
        refine rowStochastic_congr m tm1 tm' p s1 a0
          (fun link hl => lt_of_lt_of_le (hin link hl) hfit) (fun link hl => ?_) hst1
        apply hframe'
        left
        rw [offset_link m p s1 a0 link]
        omega
      · exact hst' a (by omega) (by omega)

theorem normalize_states_ok (m : Recomodel) (precision : Bool) (p : Nat) (n s0 : Nat)
    (tm : List ℚ)
    (hp : ∀ s1 a, s0 ≤ s1 → s1 < s0 + n → a < m.n_actions → rowPositive m tm p s1 a)
    (hfit : tm.length ≤ 2 ^ 31) :
    ∃ tm', normalize_states m precision p n s0 tm = some tm' ∧
      tm'.length = tm.length ∧
      (∀ j, j < m.offset p s0 0 0 ∨ m.offset p (s0 + n) 0 0 ≤ j →
        tm'.getD j 0 = tm.getD j 0) ∧
      ∀ s1 a, s0 ≤ s1 → s1 < s0 + n → a < m.n_actions → rowStochastic m tm' p s1 a := by
  induction n generalizing s0 tm with
  | zero =>
    exact ⟨tm, rfl, rfl, fun _ _ => rfl, fun s1 a h1 h2 => by omega⟩
  | succ n ih =>
    obtain ⟨tm1, hblock, hlen1, hframe1, hst1⟩ :=
      normalize_actions_ok m precision p s0 m.n_actions 0 tm
        (fun a _ ha => hp s0 a (le_refl _) (by omega) (by omega)) hfit
    rw [Nat.zero_add, ← offset_block_succ] at hframe1
    have hrow : ∀ s1 a link, a < m.n_actions → link < m.n_actions →
        m.offset p s1 0 0 ≤ m.offset p s1 a link ∧
          m.offset p s1 a link < m.offset p (s1 + 1) 0 0 := by
      intro s1 a link ha hl
      rw [offset_link m p s1 a link, offset_block_succ]
      rcases Nat.eq_zero_or_pos a with h0 | h0
      · subst h0
        have := offset_row_lt m p s1 0 m.n_actions ha
        omega
      · have h1 := offset_row_lt m p s1 0 a h0
        have h2 := offset_row_lt m p s1 a m.n_actions ha
        omega
    have hblk : ∀ s1, s0 < s1 → m.offset p (s0 + 1) 0 0 ≤ m.offset p s1 0 0 := by
      intro s1 h
      rw [offset_block_succ]
      exact offset_block_lt m p s0 s1 h
    have hp1 : ∀ s1 a, s0 + 1 ≤ s1 → s1 < s0 + 1 + n → a < m.n_actions →
        rowPositive m tm1 p s1 a := by
      intro s1 a h1 h2 ha
      refine rowPositive_congr m tm tm1 p s1 a hlen1 hfit (fun link hl => ?_)
        (hp s1 a (by omega) (by omega) ha)
      apply hframe1
      right
      have := hblk s1 (by omega)
      have := (hrow s1 a link ha hl).1
      omega
    obtain ⟨tm', hrec, hlen', hframe', hst'⟩ := ih (s0 + 1) tm1 hp1 (by rw [hlen1]; exact hfit)
    have hmono : m.offset p (s0 + 1) 0 0 ≤ m.offset p (s0 + 1 + n) 0 0 := by
      rcases Nat.eq_zero_or_pos n with h0 | h0
      · rw [h0]
      · exact hblk _ (by omega)
    have hle : m.offset p s0 0 0 ≤ m.offset p (s0 + 1) 0 0 := by
      rw [offset_block_succ]
      rcases Nat.eq_zero_or_pos m.n_actions with h0 | h0
      · rw [h0]
      · have := offset_row_lt m p s0 0 m.n_actions h0
        omega
    refine ⟨tm', ?_, by rw [hlen', hlen1], fun j hj => ?_, fun s1 a h1 h2 ha => ?_⟩
    · simp only [normalize_states, hblock]
      exact hrec
    · rw [show s0 + (n + 1) = s0 + 1 + n by omega] at hj
      rw [hframe' j (by omega), hframe1 j (by omega)]
    · rcases Nat.eq_or_lt_of_le h1 with h | h
      · subst h
        refine rowStochastic_congr m tm1 tm' p s0 a
          (fun link hl => lt_of_lt_of_le ((hp s0 a (le_refl _) (by omega) ha).1 link hl) hfit)
          (fun link hl => ?_) (hst1 a (Nat.zero_le _) (by omega))
        apply hframe'
        left
        exact (hrow s0 a link ha hl).2
      · exact hst' s1 a (by omega) (by omega) ha

theorem offset_profile_succ (m : Recomodel) (p : Nat) :
    m.offset p m.n_observations 0 0 = m.offset (p + 1) 0 0 0 := by
  unfold offset
  congr 1
  ring

theorem rowPositive_replicate (m : Recomodel) (n : Nat) (v : ℚ) (hv : 0 < v) (p s1 a : Nat)
    (hK : 0 < m.n_actions) (hn : n ≤ 2 ^ 31)
    (hin : ∀ link, link < m.n_actions → m.offset p s1 a link < n) :
    rowPositive m (List.replicate n v) p s1 a := by
  have hget : ∀ link, link < m.n_actions →
      (List.replicate n v).getD (m.offset p s1 a link) 0 = v := by
    intro link hl
    rw [List.getD_eq_getElem?_getD, List.getElem?_replicate, if_pos (hin link hl)]
    rfl
  refine ⟨fun link hl => by rw [List.length_replicate]; exact hin link hl,
    fun link hl => by rw [hget link hl]; exact le_of_lt hv, ?_⟩
  rw [(rowTotal_replicate m n v p s1 a hn hin).1]
  exact mul_pos (by exact_mod_cast hK) hv

/-- What the pass would do if its loop ran: with exact arithmetic and either value of the
precision flag, one run of the body of the loop over the profiles on a profile `p` whose
rows all lie in the table (of at most `2 ^ 31` cells), have non-negative entries and a
positive sum ends normally, leaves every row `(p, node, action)` with sum 1 over the links
and non-negative entries, and changes no cell outside the profile. -/
theorem normalize_states_stochastic (m : Recomodel) (precision : Bool) (p : Nat)
    (tm : List ℚ)
    (hp : ∀ s1 a, s1 < m.n_observations → a < m.n_actions → rowPositive m tm p s1 a)
    (hfit : tm.length ≤ 2 ^ 31) :
    ∃ tm', normalize_states m precision p m.n_observations 0 tm = some tm' ∧
      tm'.length = tm.length ∧
      (∀ s1 a, s1 < m.n_observations → a < m.n_actions →
        rowTotal m tm' p s1 a = 1 ∧
          ∀ link, link < m.n_actions → 0 ≤ tm'.getD (m.offset p s1 a link) 0) ∧
      ∀ j, j < m.offset p 0 0 0 ∨ m.offset (p + 1) 0 0 0 ≤ j →
        tm'.getD j 0 = tm.getD j 0 := by
  obtain ⟨tm', h1, h2, h3, h4⟩ := normalize_states_ok m precision p m.n_observations 0 tm
    (fun s1 a _ hs ha => hp s1 a (by omega) ha) hfit
  rw [Nat.zero_add, offset_profile_succ] at h3
  exact ⟨tm', h1, h2, fun s1 a hs ha => h4 s1 a (Nat.zero_le _) (by omega) ha, h3⟩

theorem normalize_states_stochastic_witness :
    ∃ tm', normalize_states scenario true 0 scenario.n_observations 0
        scenario.transition_matrix = some tm' ∧
      tm'.length = scenario.transition_matrix.length ∧
      (∀ s1 a, s1 < scenario.n_observations → a < scenario.n_actions →
        rowTotal scenario tm' 0 s1 a = 1 ∧
          ∀ link, link < scenario.n_actions → 0 ≤ tm'.getD (scenario.offset 0 s1 a link) 0) ∧
      ∀ j, j < scenario.offset 0 0 0 0 ∨ scenario.offset (0 + 1) 0 0 0 ≤ j →
        tm'.getD j 0 = scenario.transition_matrix.getD j 0 :=
  normalize_states_stochastic scenario true 0 scenario.transition_matrix
    (fun s1 a hs ha =>
      rowPositive_replicate scenario 28 (1 / 2) (by norm_num) 0 s1 a (by decide) (by norm_num)
        (fun link hl => offset_lt scenario 1 0 s1 a link Nat.one_pos hs ha hl))
    (by decide)

/-! ## The transitions loader: lines of unconnected pairs -/

theorem load_transitions_line_ok_connected (m : Recomodel) (st st' : ParseState)
    (s1 a s2 : Nat) (v : ℚ) (h : load_transitions_line m st (.entry s1 a s2 v) = .ok st') :
    ∃ link, link < m.n_actions ∧ m.is_connected s1 s2 = some link := by
  cases hc : m.is_connected s1 s2 with
  | none => simp [load_transitions_line, hc] at h
  | some link =>
    by_cases hl : link < m.n_actions
    · exact ⟨link, hl, rfl⟩
    · simp [load_transitions_line, hc, hl] at h

/-- C21 as amended: `load_transitions` succeeds only on files all of whose transition lines
`s1 a s2 v` have a connected pair (`is_connected(s1, s2) < K`), whatever the value `v`,
0 included. -/
theorem load_transitions_only_connected (m : Recomodel) (i : Int) (file : List TransitionLine)
    (precision : Bool) (m' : Recomodel) (s1 a s2 : Nat) (v : ℚ)
    (h : load_transitions m i file precision = .ok m')
    (hmem : TransitionLine.entry s1 a s2 v ∈ file) :
    ∃ link, link < m.n_actions ∧ m.is_connected s1 s2 = some link := by
  obtain ⟨st, hst, _⟩ := load_transitions_ok_loop m i file precision m' h
  by_contra hno
  exact load_transitions_loop_fails m _
    (fun st0 st1 hok => hno (load_transitions_line_ok_connected m st0 st1 s1 a s2 v hok))
    file hmem _ st hst

theorem load_transitions_only_connected_witness :
    ∃ link, link < (create 7 2 1 2 false).n_actions ∧
      (create 7 2 1 2 false).is_connected 0 1 = some link := by
  obtain ⟨st, _, _, _, _, h⟩ := load_example_ok 0
  have hmem : TransitionLine.entry 0 1 1 0 ∈ exampleProfile 0 ++ [TransitionLine.separator] :=
    List.mem_append_left _ (List.mem_map.mpr ⟨(0, 1, 1), by decide, rfl⟩)
  exact load_transitions_only_connected _ _ _ _ _ 0 1 1 0 (h false) hmem

/-- C21 fails on the code: with `K = 2`, `H = 2` the nodes 0 and 3 are in range and not
connected, and the line `0 1 3 0` is a fatal error in every parsing state; the file of 28
lines that starts with it and goes on with the other 27 lines of a complete profile is
not loaded. -/
theorem load_transitions_rejects_zero_probability :
    (create 7 2 1 2 false).is_connected 0 3 = some 2 ∧
      (∀ st, load_transitions_line (create 7 2 1 2 false) st (.entry 0 1 3 0) = .fatal) ∧
      ((TransitionLine.entry 0 1 3 0 :: (exampleProfile 1).tail).length = 7 * 2 * 2) ∧
      ∀ i precision, load_transitions (create 7 2 1 2 false) i
        (.entry 0 1 3 0 :: ((exampleProfile 1).tail ++ [.separator])) precision = .fatal := by
  have hc : (create 7 2 1 2 false).is_connected 0 3 = some 2 := by decide
  have hline := fun st =>
    load_transitions_line_unconnected (create 7 2 1 2 false) st 0 1 3 0 2 hc (by decide)
  refine ⟨hc, hline, ?_, fun i precision => ?_⟩
  · rw [List.length_cons, List.length_tail, exampleProfile_length]
  · apply load_transitions_fatal_of_loop
    simp only [load_transitions_loop, hline]

/-! ## Sampling against the point queries, conservation of the probability mass -/

theorem geom_le_pow (K : Nat) (hK : 2 ≤ K) (n : Nat) : geom K n ≤ K ^ n := by
  induction n with
  | zero => simp [geom]
  | succ n ih =>
    rw [geom_succ_add, pow_succ]
    have : K ^ n * 2 ≤ K ^ n * K := Nat.mul_le_mul_left _ hK
    omega

/-- A valid window whose value is at least `geom K n` has no empty slot. -/
theorem valid_full_of_ge {K n : Nat} {w : List Nat} (hv : validWindow K n w)
    (hge : geom K n ≤ windowValue K w) : ∀ x ∈ w, 1 ≤ x ∧ x ≤ K := by
  cases w with
  | nil => intro x hx; simp at hx
  | cons e t =>
    obtain ⟨n, rfl⟩ : ∃ n', n = n' + 1 := ⟨t.length, by simpa using hv.1.symm⟩
    by_cases he : e = 0
    · subst he
      have hb := valid_bound (validWindow_cons_zero.mp hv)
      have hg := geom_succ_mul K n
      simp only [windowValue, Nat.zero_mul, Nat.zero_add] at hge
      omega
    · obtain ⟨hek, _, hf⟩ := (validWindow_cons_pos he).mp hv
      intro x hx
      rcases List.mem_cons.mp hx with rfl | hx
      · exact ⟨Nat.pos_of_ne_zero he, hek⟩
      · exact hf x hx

theorem validWindow_zeros_snoc (K n id : Nat) (hid : id ≤ K) :
    validWindow K (n + 1) (List.replicate n 0 ++ [id]) := by
  by_cases h0 : id = 0
  · subst h0
    rw [← List.replicate_succ']
    exact validWindow_zeros K (n + 1)
  · exact validWindow_snoc (validWindow_zeros K n) (by omega) hid

theorem validWindow_cons_of {K n d : Nat} {w : List Nat} (hd : d ≤ K)
    (hv : validWindow K n w) (hfull : d ≠ 0 → geom K n ≤ windowValue K w) :
    validWindow K (n + 1) (d :: w) := by
  by_cases h0 : d = 0
  · subst h0
    exact validWindow_cons_zero.mpr hv
  · exact (validWindow_cons_pos h0).mpr ⟨hd, hv.1, valid_full_of_ge hv (hfull h0)⟩

/-- The loop of `id_to_state` for a history length of at most 3: started on the slots
`done` and an id of the remaining length, it ends normally, and the last store of
`id_to_state` completes `done` with the valid window whose value is the id. -/
theorem id_to_state_loop_exact {m : Recomodel} {K H : Nat} (hb : Built m K H) (hK : 2 ≤ K)
    (hfit : fitsInt K H) (hH3 : H ≤ 3) (fuel : Nat) (done : List Nat) (id : Nat)
    (hlt : done.length < H) (hfuel : fuel + done.length = H)
    (hid : id ≤ K * geom K (H - done.length)) :
    ∃ w st id', validWindow K (H - done.length) w ∧ windowValue K w = id ∧
      id_to_state_loop m fuel (done ++ List.replicate (H - done.length) 0) done.length id =
        some (st, id') ∧
      H - 1 < st.length ∧ st.set (H - 1) id' = done ++ w := by
  have hKa : m.n_actions = K := hb.1
  have hN := nodeCount_eq K H
  have hf : nodeCount K H < 2147483648 := by simpa [fitsInt] using hfit
  induction fuel generalizing done id with
  | zero => omega
  | succ fuel ih =>
    rw [id_to_state_loop]
    by_cases hgt : id > K
    · have hind : done.length + 1 < H := by
        by_contra hc
        have : H - done.length = 1 := by omega
        rw [this] at hid
        simp [geom] at hid
        omega
      obtain ⟨n, hn⟩ : ∃ n, H - done.length = n + 2 := ⟨H - done.length - 2, by omega⟩
      have hn1 : n ≤ 1 := by omega
      have hp := hb.pows_get hlt
      have hac := hb.acpows_get hind
      have e1 : H - 1 - done.length = n + 1 := by omega
      have e2 : H - (done.length + 1) = n + 1 := by omega
      rw [e1] at hp
      rw [e2] at hac
      have hppos : 0 < K ^ (n + 1) := pow_pos (by omega) _
      have hg1 : geom K (n + 2) = geom K (n + 1) + K ^ (n + 1) := geom_succ_add K (n + 1)
      have hg2 : geom K (n + 2) = K * geom K (n + 1) + 1 := geom_succ_mul K (n + 1)
      have hgp : geom K (n + 1) ≤ K ^ (n + 1) := geom_le_pow K hK (n + 1)
      have hgK : geom K (n + 1) ≤ K + 1 := by
        have h2 : geom K 2 = K + 1 := by simp [geom]; omega
        rw [← h2]
        exact geom_mono K (by omega)
      have hdm := Nat.div_add_mod id (K ^ (n + 1))
      have hml := Nat.mod_lt id hppos
      have hgH : geom K (n + 2) ≤ geom K H := geom_mono K (by omega)
      have hKg : K * geom K (n + 2) ≤ K * geom K H := Nat.mul_le_mul_left _ hgH
      have hgK1 : 1 * geom K H ≤ K * geom K H := Nat.mul_le_mul_right _ (by omega)
      rw [hn] at hid ⊢
      have hq : id / K ^ (n + 1) * K ^ (n + 1) ≤ id := Nat.div_mul_le_self _ _
      have hq1 : id / K ^ (n + 1) * 1 ≤ id / K ^ (n + 1) * K ^ (n + 1) :=
        Nat.mul_le_mul_left _ hppos
      have hlen : done.length < (done ++ List.replicate (n + 2) 0).length := by
        simp
      simp only [hKa, hgt, if_true, hp, hac, div_natCast id _ (Nat.pos_iff_ne_zero.mp hppos), hlen]
      have hstate : ∀ v, (done ++ List.replicate (n + 2) 0).set done.length v =
          (done ++ [v]) ++ List.replicate (H - (done ++ [v]).length) 0 := by
        intro v
        have : H - (done ++ [v]).length = n + 1 := by simp; omega
        rw [this]
        exact set_done_zeros done (n + 1) v
      have hl1 : ∀ v, (done ++ [v]).length = done.length + 1 := by intro v; simp
      have hmulK : K * geom K (n + 2) = K * geom K (n + 1) + K * K ^ (n + 1) := by
        rw [hg1, Nat.mul_add]
      by_cases hrem : ((id % K ^ (n + 1) : Nat) : Int) < ((geom K (n + 1) : Nat) : Int)
      · have hrem' : id % K ^ (n + 1) < geom K (n + 1) := by exact_mod_cast hrem
        simp only [hrem, if_true]
        have hq0 : 1 ≤ id / K ^ (n + 1) := by
          by_contra hc
          have h0 : id / K ^ (n + 1) = 0 := by omega
          rw [h0, Nat.mul_zero, Nat.zero_add] at hdm
          omega
        obtain ⟨d, hd⟩ : ∃ d, id / K ^ (n + 1) = d + 1 := ⟨id / K ^ (n + 1) - 1, by omega⟩
        have hdK : d ≤ K := by
          by_contra hc
          have h1 : (K + 2) * K ^ (n + 1) ≤ (d + 1) * K ^ (n + 1) :=
            Nat.mul_le_mul_right _ (by omega)
          rw [Nat.add_mul] at h1
          rw [hd] at hq
          omega
        have hid' : toSizeT (((K ^ (n + 1) : Nat) : Int) + ((id % K ^ (n + 1) : Nat) : Int)) =
            K ^ (n + 1) + id % K ^ (n + 1) := by
          rw [← Nat.cast_add]; apply toSizeT_natCast
          have : K ^ (n + 1) + id % K ^ (n + 1) < 18446744073709551616 := by omega
          simpa using this
        have hdt : toSizeT (((id / K ^ (n + 1) : Nat) : Int) - 1) = d := by
          rw [hd]
          have : (((d + 1 : Nat) : Int) - 1) = (d : Int) := by push_cast; ring
          rw [this]
          apply toSizeT_natCast
          have : d < 18446744073709551616 := by omega
          simpa using this
        rw [hid', hdt, hstate, ← hl1 d]
        obtain ⟨w', st, id', hv', hval', hloop, hst1, hst2⟩ := ih (done ++ [d])
          (K ^ (n + 1) + id % K ^ (n + 1)) (by rw [hl1]; omega) (by rw [hl1]; omega)
          (by rw [hl1, e2]; omega)
        rw [hl1, e2] at hv'
        refine ⟨d :: w', st, id', validWindow_cons_of hdK hv' (fun _ => by rw [hval']; exact le_trans hgp (Nat.le_add_right _ _)),
          ?_, hloop, hst1, by rw [hst2]; simp⟩
        have e : K ^ (n + 1) * (d + 1) = d * K ^ (n + 1) + K ^ (n + 1) := by ring
        rw [windowValue, hv'.1, hval']
        rw [hd, e] at hdm
        omega
      · have hrem' : geom K (n + 1) ≤ id % K ^ (n + 1) := by
          have := not_lt.mp hrem
          exact_mod_cast this
        simp only [hrem, if_false]
        have hqK : id / K ^ (n + 1) ≤ K := by
          by_contra hc
          have h1 : (K + 1) * K ^ (n + 1) ≤ id / K ^ (n + 1) * K ^ (n + 1) :=
            Nat.mul_le_mul_right _ (by omega)
          rw [Nat.add_mul] at h1
          rw [Nat.mul_comm] at hdm
          omega
        have hq' : toSizeT ((id / K ^ (n + 1) : Nat) : Int) = id / K ^ (n + 1) := by
          apply toSizeT_natCast
          have : id / K ^ (n + 1) < 18446744073709551616 := by omega
          simpa using this
        have hr' : toSizeT ((id % K ^ (n + 1) : Nat) : Int) = id % K ^ (n + 1) := by
          apply toSizeT_natCast
          have : id % K ^ (n + 1) < 18446744073709551616 := by omega
          simpa using this
        rw [hq', hr', hstate, ← hl1 (id / K ^ (n + 1))]
        obtain ⟨w', st, id', hv', hval', hloop, hst1, hst2⟩ := ih (done ++ [id / K ^ (n + 1)])
          (id % K ^ (n + 1)) (by rw [hl1]; omega) (by rw [hl1]; omega)
          (by
            rw [hl1, e2]
            have : K ^ (n + 1) ≤ K * geom K (n + 1) := by
              rw [pow_succ, Nat.mul_comm]
              exact Nat.mul_le_mul_left _ (pow_le_geom K n)
            omega)
        rw [hl1, e2] at hv'
        refine ⟨id / K ^ (n + 1) :: w', st, id',
          validWindow_cons_of hqK hv' (fun _ => by rw [hval']; exact hrem'),
          ?_, hloop, hst1, by rw [hst2]; simp⟩
        rw [windowValue, hv'.1, hval', Nat.mul_comm]
        exact hdm
    · obtain ⟨n, hn⟩ : ∃ n, H - done.length = n + 1 := ⟨H - done.length - 1, by omega⟩
      rw [hn]
      refine ⟨List.replicate n 0 ++ [id], done ++ List.replicate (n + 1) 0, id,
        validWindow_zeros_snoc K n id (by omega), ?_, ?_, by simp; omega, ?_⟩
      · rw [windowValue_snoc, windowValue_replicate_zero]; omega
      · simp [hKa, hgt]
      · have : H - 1 = done.length + n := by omega
        rw [this, set_last_zeros, List.append_assoc]

/-- C24: for a history length `H` in `{1, 2, 3}` and an id `i` below `N`, `id_to_state(i)`
is a valid recency window, its `state_to_id` is `i`, and it is the only valid window
whose `state_to_id` is `i`. -/
theorem id_to_state_valid_unique (m : Recomodel) (K H : Nat) (hb : Built m K H) (hK : 2 ≤ K)
    (hH : 1 ≤ H) (hH3 : H ≤ 3) (hfit : fitsInt K H) (i : Nat) (hi : i < nodeCount K H) :
    ∃ seq, m.id_to_state i = some seq ∧ validWindow K H seq ∧
      m.state_to_id seq = some i ∧
      ∀ t, validWindow K H t → m.state_to_id t = some i → t = seq := by
  have hN := nodeCount_eq K H
  have hHm : m.hlength = H := hb.2.1
  obtain ⟨w, st, id', hv, hval, hloop, hst1, hst2⟩ :=
    id_to_state_loop_exact hb hK hfit hH3 H [] i (by simpa using hH) (by simp) (by simp; omega)
  simp only [List.length_nil, Nat.sub_zero, List.nil_append] at hv hloop hst2
  refine ⟨w, ?_, hv, ?_, fun t ht hti => ?_⟩
  · rw [id_to_state, hHm, hloop]
    simp only [hst1, if_true, hst2]
  · rw [(state_to_id_valid hb hfit hv).1, hval]
  · rw [(state_to_id_valid hb hfit ht).1, Option.some.injEq] at hti
    exact valid_inj ht hv (by rw [hti, hval])

theorem id_to_state_valid_unique_witness :
    ∃ seq, (create 15 2 1 3 false).id_to_state 4 = some seq ∧ validWindow 2 3 seq ∧
      (create 15 2 1 3 false).state_to_id seq = some 4 ∧
      ∀ t, validWindow 2 3 t → (create 15 2 1 3 false).state_to_id t = some 4 → t = seq :=
  id_to_state_valid_unique (create 15 2 1 3 false) 2 3 (by decide) (by decide) (by decide)
    (by decide) (by decide) 4 (by decide)

/-! ## The offsets of the flat table -/

end Recomodel
